import Mathlib

set_option maxHeartbeats 1000000

/-!
A shallow embedding of `pull.go`: the recursive reconciliation command `pull`,
which walks a directory tree, compares each leaf directory's on-disk table
definitions against the live schema, and applies the resulting diff entries as
file writes and deletions.

Modelling conventions:
* A directory's `.sql` files are stored as an association list from table name
  to file contents; the file for table `t` is named `t ++ ".sql"` (the name
  appears verbatim in the event log).  The directory's `.skeema` configuration
  is modelled by the `schemaField` attribute.
* External collaborators (the tengo diff engine, `ShowCreateTable`,
  `SQLFile.Write`/`Delete`, `PopulateSchemaDir`, configuration/target
  resolution) are parameters of a `World`; fallible operations carry
  injectable failure flags.  Directory paths are resolved canonical paths.
* A Go `panic` is modelled by the `Outcome.panicked` constructor, which
  propagates through every enclosing call; recursion is fuelled, with
  `Outcome.outOfFuel` as the (provably unreachable) exhaustion marker.
* `State.visited` and `State.log` are ghost fields recording control flow and
  the `fmt.Printf` reporting; they influence nothing.
-/

structure Schema where
  name : String
  tables : List (String × String)
deriving DecidableEq

structure Target where
  schemaNames : List String
  schemas : List Schema
deriving DecidableEq

def findSchema (nm : String) : List Schema → Option Schema
  | [] => none
  | s :: r => if s.name = nm then some s else findSchema nm r

/-- `t.Schema(name)`: the live schema of that name, or `none` when it does not
exist on the instance (tengo returns nil). -/
def Target.Schema (t : Target) (nm : String) : Option Schema :=
  findSchema nm t.schemas

/-- The tagged diff variants produced by the external diff engine
(`tengo.CreateTable`, `DropTable`, `AlterTable`, `RenameTable`), plus a tag
for any other variant (the `default` arm of the switch). -/
inductive TableDiff where
  | CreateTable (tableName : String)
  | DropTable (tableName : String)
  | AlterTable (tableName : String)
  | RenameTable (tableName : String)
  | UnsupportedDiff (typeTag : String)
deriving DecidableEq

/-- A filesystem directory as `pull` sees it: canonical path, classification,
immediate subdirectory paths, the declared `schema` configuration value
(`none` when the skeema file cannot be read or has no such field), and the
per-table `.sql` files. -/
structure DirNode where
  path : String
  isLeaf : Bool
  isInstanceWithLeafSubdirs : Bool
  subdirPaths : List String
  schemaField : Option String
  files : List (String × String)
deriving DecidableEq

/-- Ghost record of the observable reporting (`fmt.Printf`) and of the
database-side temporary-schema operations. -/
inductive Event where
  | updating (dirPath : String)
  | deletedDir (dirPath : String)
  | populatedTemp (dirPath : String)
  | droppedTemp (dirPath : String)
  | wrote (dirPath fileName : String) (bytes : Nat)
  | deletedFile (dirPath fileName : String)
  | report (msg : String)
deriving DecidableEq

structure State where
  dirs : List DirNode
  tempLive : Bool
  seen : List String
  visited : List String
  log : List Event
deriving DecidableEq

inductive Outcome where
  | exit (code : Nat)
  | panicked (msg : String)
  | outOfFuel
deriving DecidableEq

/-- The Go process result: a normal return gives its exit code, an unrecovered
panic terminates the process with a non-zero status. -/
def processExit (r : Outcome) : Nat :=
  match r with
  | .exit c => c
  | .panicked _ => 2
  | .outOfFuel => 2

/-- The external collaborators of `pull`, with injectable failures. -/
structure World where
  targetsOf : String → List Target
  newSchemaDiff : Schema → Schema → List TableDiff
  populateTempFails : String → Bool
  dropTempFails : String → Bool
  deleteDirFails : String → Bool
  subdirsFails : String → Bool
  writeFails : String → String → Bool
  deleteFileFails : String → String → Bool
  showCreateFails : String → String → Bool
  populateSchemaDirFails : String → String → Bool

def lookupT (k : String) : List (String × String) → Option String
  | [] => none
  | (k', v) :: r => if k' = k then some v else lookupT k r

def setEntry (k v : String) : List (String × String) → List (String × String)
  | [] => [(k, v)]
  | (k', v') :: r => if k' = k then (k, v) :: r else (k', v') :: setEntry k v r

def removeEntry (k : String) : List (String × String) → List (String × String)
  | [] => []
  | (k', v') :: r => if k' = k then removeEntry k r else (k', v') :: removeEntry k r

def findNode (p : String) : List DirNode → Option DirNode
  | [] => none
  | n :: r => if n.path = p then some n else findNode p r

def findDir (st : State) (p : String) : Option DirNode :=
  findNode p st.dirs

def filesAt (st : State) (p : String) : List (String × String) :=
  match findDir st p with
  | some n => n.files
  | none => []

def setFileInDir (st : State) (p tname contents : String) : State :=
  { st with dirs := st.dirs.map (fun n =>
      if n.path = p then { n with files := setEntry tname contents n.files } else n) }

def removeFileInDir (st : State) (p tname : String) : State :=
  { st with dirs := st.dirs.map (fun n =>
      if n.path = p then { n with files := removeEntry tname n.files } else n) }

def stripPath (p : String) : List String → List String
  | [] => []
  | q :: r => if q = p then stripPath p r else q :: stripPath p r

def deleteDirNodes (p : String) : List DirNode → List DirNode
  | [] => []
  | n :: r =>
    if n.path = p then deleteDirNodes p r
    else { n with subdirPaths := stripPath p n.subdirPaths } :: deleteDirNodes p r

/-- `Dir.Delete()`: recursively deletes the directory; the physical directory
disappears, so it also vanishes from every parent listing. -/
def deleteDir (st : State) (p : String) : State :=
  { st with dirs := deleteDirNodes p st.dirs }

def addLog (st : State) (e : Event) : State := { st with log := st.log ++ [e] }

def sqlName (t : String) : String := t ++ ".sql"

/-- Modelled from the spec: the canonical-definition generator
(`t.ShowCreateTable(to, table)`, §6 of the spec), which queries the live
instance for the authoritative rendering of the table's structure and can fail
with a database error. -/
def ShowCreateTable (w : World) (dirPath : String) (toSchema : Schema)
    (tableName : String) : Except String String :=
  if w.showCreateFails dirPath tableName then
    .error ("ShowCreateTable failed for " ++ tableName)
  else
    .ok ((lookupT tableName toSchema.tables).getD "")

/-- The `for _, td := range diff.TableDiffs` switch of `pull.go` (lines
51-103): writes the regenerated definition for `CreateTable`/`AlterTable`,
deletes the file for `DropTable`, and panics on `RenameTable` or any other
variant.  `SQLFile.Write` (overwrite-or-create, returning the byte count) and
`SQLFile.Delete` (a missing file is an error) are modelled from the spec,
§4.5. -/
def applyTableDiffs (w : World) (dirPath : String) (toSchema : Schema) :
    List TableDiff → State → Outcome × State
  | [], st => (.exit 0, st)
  | td :: rest, st =>
    match td with
    | .CreateTable tname =>
      match ShowCreateTable w dirPath toSchema tname with
      | .error e => (.panicked e, st)
      | .ok createStmt =>
        if w.writeFails dirPath tname then
          (.exit 1, addLog st (.report ("Unable to write to " ++ sqlName tname)))
        else
          applyTableDiffs w dirPath toSchema rest
            (addLog (setFileInDir st dirPath tname createStmt)
              (.wrote dirPath (sqlName tname) createStmt.length))
    | .DropTable tname =>
      if w.deleteFileFails dirPath tname then
        (.exit 1, addLog st (.report ("Unable to delete " ++ sqlName tname)))
      else
        match lookupT tname (filesAt st dirPath) with
        | none => (.exit 1, addLog st (.report ("Unable to delete " ++ sqlName tname)))
        | some _ =>
          applyTableDiffs w dirPath toSchema rest
            (addLog (removeFileInDir st dirPath tname)
              (.deletedFile dirPath (sqlName tname)))
    | .AlterTable tname =>
      match ShowCreateTable w dirPath toSchema tname with
      | .error e => (.panicked e, st)
      | .ok createStmt =>
        if w.writeFails dirPath tname then
          (.exit 1, addLog st (.report ("Unable to write to " ++ sqlName tname)))
        else
          applyTableDiffs w dirPath toSchema rest
            (addLog (setFileInDir st dirPath tname createStmt)
              (.wrote dirPath (sqlName tname) createStmt.length))
    | .RenameTable _ => (.panicked "Table renames not yet supported!", st)
    | .UnsupportedDiff tag => (.panicked ("Unsupported diff type " ++ tag), st)

/-- The leaf branch of `pull` (lines 29-111): resolve the first target and its
first schema name; delete the directory when the live schema is gone;
otherwise populate the temporary schema, diff, apply each entry, and drop the
temporary schema after a fully successful application.  Indexing an empty
targets or schema-name slice is the Go runtime out-of-range panic. -/
def pullLeaf (w : World) (dirPath : String) (node : DirNode) (st0 : State) :
    Outcome × State :=
  let st := addLog st0 (.updating dirPath)
  match w.targetsOf dirPath with
  | [] => (.panicked "index out of range", st)
  | t :: _ =>
    match t.schemaNames with
    | [] => (.panicked "index out of range", st)
    | sn :: _ =>
      match t.Schema sn with
      | none =>
        if w.deleteDirFails dirPath then
          (.exit 1, addLog st (.report ("Unable to delete directory " ++ dirPath)))
        else
          (.exit 0, addLog (deleteDir st dirPath) (.deletedDir dirPath))
      | some toSchema =>
        if w.populateTempFails dirPath then
          (.exit 1, addLog st (.report "Unable to populate temporary schema"))
        else
          let st1 := addLog { st with tempLive := true } (.populatedTemp dirPath)
          let fromSchema : Schema := ⟨"_skeema_tmp", node.files⟩
          match applyTableDiffs w dirPath toSchema
              (w.newSchemaDiff fromSchema toSchema) st1 with
          | (.exit 0, st2) =>
            if w.dropTempFails dirPath then
              (.exit 1, addLog st2 (.report "Unable to clean up temporary schema"))
            else
              (.exit 0, addLog { st2 with tempLive := false } (.droppedTemp dirPath))
          | (r, st2) => (r, st2)

def childPath (parent nm : String) : String := parent ++ "/" ++ nm

/-- Modelled from the spec: `PopulateSchemaDir` (the shared populate primitive
of §4.2/§6, whose code lives in the init command, not in `src/`): creates a
subdirectory named after the schema, declaring the schema in its baseline
configuration, with one file per existing table holding the canonical
definition text; directory creation fails when the directory already exists,
and any failure yields a non-zero result with no partial node added. -/
def PopulateSchemaDir (w : World) (sch : Schema) (parentPath : String)
    (st : State) : Nat × State :=
  if w.populateSchemaDirFails parentPath sch.name then (1, st)
  else
    match findDir st (childPath parentPath sch.name) with
    | some _ => (1, st)
    | none =>
      let p := childPath parentPath sch.name
      (0, { st with dirs :=
              (st.dirs.map (fun n =>
                if n.path = parentPath then
                  { n with subdirPaths := n.subdirPaths ++ [p] }
                else n))
              ++ [⟨p, true, false, [], some sch.name, sch.tables⟩] })

/-- Lines 126-132: the set of schema names declared by the existing
subdirectories. -/
def seenSchemaOf (st : State) (subdirs : List String) : List String :=
  subdirs.filterMap (fun q => (findDir st q).bind DirNode.schemaField)

def elemStr (x : String) : List String → Bool
  | [] => false
  | y :: r => if y = x then true else elemStr x r

/-- Lines 134-142: populate a directory for every live schema not already
represented, stopping at the first non-zero result. -/
def discoverSchemas (w : World) (parentPath : String) (seenSchema : List String) :
    List Schema → State → Nat × State
  | [], st => (0, st)
  | sch :: rest, st =>
    if elemStr sch.name seenSchema then
      discoverSchemas w parentPath seenSchema rest st
    else
      match PopulateSchemaDir w sch parentPath st with
      | (0, st') => discoverSchemas w parentPath seenSchema rest st'
      | (ret, st') => (ret, st')

/-- Lines 147-155, parameterized by the recursive call: recurse into each
subdirectory whose canonical path is not already in the seen-set, stopping at
the first non-zero result. -/
def pullSubdirsAux (recur : String → State → Outcome × State) :
    List String → State → Outcome × State
  | [], st => (.exit 0, st)
  | q :: rest, st =>
    if elemStr q st.seen then pullSubdirsAux recur rest st
    else
      match recur q st with
      | (.exit 0, st') => pullSubdirsAux recur rest st'
      | (r, st') => (r, st')

/-- `pull(cfg, seen)` of `pull.go` (line 28): the recursive reconciliation
driver.  `State.visited` records every entry (ghost).  A directory that cannot
be read behaves as a failed listing. -/
def pull (w : World) : Nat → String → State → Outcome × State
  | 0, _, st0 => (.outOfFuel, st0)
  | fuel + 1, dirPath, st0 =>
    let st := { st0 with visited := st0.visited ++ [dirPath] }
    match findDir st dirPath with
    | none => (.exit 1, addLog st (.report ("Unable to read directory " ++ dirPath)))
    | some node =>
      if node.isLeaf then pullLeaf w dirPath node st
      else if w.subdirsFails dirPath then
        (.exit 1, addLog st (.report ("Unable to list subdirs of " ++ dirPath)))
      else
        let subdirs := node.subdirPaths
        if node.isInstanceWithLeafSubdirs then
          match w.targetsOf dirPath with
          | [] => (.panicked "index out of range", st)
          | t :: _ =>
            match discoverSchemas w dirPath (seenSchemaOf st subdirs) t.schemas st with
            | (0, st1) =>
              pullSubdirsAux (pull w fuel) subdirs { st1 with seen := st1.seen ++ [dirPath] }
            | (ret, st1) => (.exit ret, st1)
        else
          pullSubdirsAux (pull w fuel) subdirs { st with seen := st.seen ++ [dirPath] }

/-- The subdirectory loop at a given fuel level. -/
def pullSubdirs (w : World) (fuel : Nat) : List String → State → Outcome × State :=
  pullSubdirsAux (pull w fuel)

/-- `PullCommand` (line 24): run `pull` with a fresh seen-set.  The fuel
`st.dirs.length + 1` is proven sufficient (`pull` never returns
`outOfFuel` with it). -/
def PullCommand (w : World) (st : State) (rootPath : String) : Outcome × State :=
  pull w (st.dirs.length + 1) rootPath { st with seen := [], visited := [] }

/-- Modelled from the spec: the external diff engine (`tengo.NewSchemaDiff`,
§6), which returns an ordered set of per-table change operations: `Create`
for tables only in `to`, `Drop` for tables only in `from`, and `Alter` for
tables in both whose definitions differ. -/
def canonicalSchemaDiff (fromSchema toSchema : Schema) : List TableDiff :=
  (toSchema.tables.filterMap (fun e =>
      if lookupT e.1 fromSchema.tables = none then some (.CreateTable e.1) else none))
  ++ (fromSchema.tables.filterMap (fun e =>
      if lookupT e.1 toSchema.tables = none then some (.DropTable e.1) else none))
  ++ (toSchema.tables.filterMap (fun e =>
      match lookupT e.1 fromSchema.tables with
      | some d => if d ≠ e.2 then some (.AlterTable e.1) else none
      | none => none))

/-! ### Basic lemmas about the state helpers -/

theorem lookupT_setEntry_self (k v : String) (l : List (String × String)) :
    lookupT k (setEntry k v l) = some v := by
  induction l with
  | nil => simp [setEntry, lookupT]
  | cons e r ih =>
    obtain ⟨a, b⟩ := e
    by_cases h : a = k
    · subst h; simp [setEntry, lookupT]
    · simp [setEntry, lookupT, h, ih]

theorem lookupT_setEntry_ne (k v k' : String) (l : List (String × String))
    (h : k' ≠ k) : lookupT k' (setEntry k v l) = lookupT k' l := by
  induction l with
  | nil => simp [setEntry, lookupT, Ne.symm h]
  | cons e r ih =>
    obtain ⟨a, b⟩ := e
    by_cases ha : a = k
    · subst ha
      simp [setEntry, lookupT, Ne.symm h]
    · simp [setEntry, lookupT, ha, ih]

theorem lookupT_removeEntry_self (k : String) (l : List (String × String)) :
    lookupT k (removeEntry k l) = none := by
  induction l with
  | nil => simp [removeEntry, lookupT]
  | cons e r ih =>
    obtain ⟨a, b⟩ := e
    by_cases ha : a = k
    · simp [removeEntry, ha, ih]
    · simp [removeEntry, lookupT, ha, ih]

theorem lookupT_removeEntry_ne (k k' : String) (l : List (String × String))
    (h : k' ≠ k) : lookupT k' (removeEntry k l) = lookupT k' l := by
  induction l with
  | nil => simp [removeEntry]
  | cons e r ih =>
    obtain ⟨a, b⟩ := e
    by_cases ha : a = k
    · subst ha
      simp [removeEntry, lookupT, Ne.symm h, ih]
    · simp [removeEntry, lookupT, ha, ih]

theorem findNode_path {p : String} {l : List DirNode} {n : DirNode}
    (h : findNode p l = some n) : n.path = p := by
  induction l with
  | nil => simp [findNode] at h
  | cons m r ih =>
    by_cases hm : m.path = p
    · rw [findNode, if_pos hm] at h
      cases h; exact hm
    · rw [findNode, if_neg hm] at h
      exact ih h

theorem findDir_path {st : State} {p : String} {n : DirNode}
    (h : findDir st p = some n) : n.path = p := findNode_path h

theorem findNode_map_preserve (f : DirNode → DirNode)
    (hf : ∀ n, (f n).path = n.path) (l : List DirNode) (p : String) :
    findNode p (l.map f) = (findNode p l).map f := by
  induction l with
  | nil => rfl
  | cons n r ih =>
    by_cases h : n.path = p
    · simp [findNode, hf, h]
    · simp [findNode, hf, h, ih]

theorem findDir_setFileInDir (st : State) (p tname c p' : String) :
    findDir (setFileInDir st p tname c) p' =
      (findDir st p').map (fun n =>
        if n.path = p then { n with files := setEntry tname c n.files } else n) := by
  unfold findDir setFileInDir
  exact findNode_map_preserve _ (fun n => by by_cases h : n.path = p <;> simp [h]) _ _

theorem findDir_removeFileInDir (st : State) (p tname p' : String) :
    findDir (removeFileInDir st p tname) p' =
      (findDir st p').map (fun n =>
        if n.path = p then { n with files := removeEntry tname n.files } else n) := by
  unfold findDir removeFileInDir
  exact findNode_map_preserve _ (fun n => by by_cases h : n.path = p <;> simp [h]) _ _

theorem filesAt_setFileInDir_ne {st : State} {p tname c p' : String} (h : p' ≠ p) :
    filesAt (setFileInDir st p tname c) p' = filesAt st p' := by
  unfold filesAt
  rw [findDir_setFileInDir]
  cases hf : findDir st p' with
  | none => rfl
  | some n =>
    have hp := findDir_path hf
    simp [hp, h]

theorem filesAt_removeFileInDir_ne {st : State} {p tname p' : String} (h : p' ≠ p) :
    filesAt (removeFileInDir st p tname) p' = filesAt st p' := by
  unfold filesAt
  rw [findDir_removeFileInDir]
  cases hf : findDir st p' with
  | none => rfl
  | some n =>
    have hp := findDir_path hf
    simp [hp, h]

theorem lookupT_filesAt_setFileInDir {st : State} {p tname c t' : String}
    (h : t' ≠ tname) :
    lookupT t' (filesAt (setFileInDir st p tname c) p) = lookupT t' (filesAt st p) := by
  unfold filesAt
  rw [findDir_setFileInDir]
  cases hf : findDir st p with
  | none => rfl
  | some n =>
    have hp := findDir_path hf
    simp [hp, lookupT_setEntry_ne _ _ _ _ h]

theorem lookupT_filesAt_removeFileInDir {st : State} {p tname t' : String}
    (h : t' ≠ tname) :
    lookupT t' (filesAt (removeFileInDir st p tname) p) = lookupT t' (filesAt st p) := by
  unfold filesAt
  rw [findDir_removeFileInDir]
  cases hf : findDir st p with
  | none => rfl
  | some n =>
    have hp := findDir_path hf
    simp [hp, lookupT_removeEntry_ne _ _ _ h]

theorem findNode_deleteDirNodes_self (p : String) (l : List DirNode) :
    findNode p (deleteDirNodes p l) = none := by
  induction l with
  | nil => rfl
  | cons n r ih =>
    by_cases h : n.path = p
    · simp [deleteDirNodes, h, ih]
    · simp [deleteDirNodes, findNode, h, ih]

theorem findNode_deleteDirNodes_ne {p p' : String} (h : p' ≠ p) (l : List DirNode) :
    findNode p' (deleteDirNodes p l) =
      (findNode p' l).map (fun n =>
        { n with subdirPaths := stripPath p n.subdirPaths }) := by
  induction l with
  | nil => rfl
  | cons n r ih =>
    by_cases hn : n.path = p
    · simp [deleteDirNodes, hn, findNode, Ne.symm h, ih]
    · by_cases hp' : n.path = p'
      · simp [deleteDirNodes, hn, findNode, hp', h]
      · simp [deleteDirNodes, hn, findNode, hp', ih]

theorem findDir_deleteDir_self (st : State) (p : String) :
    findDir (deleteDir st p) p = none :=
  findNode_deleteDirNodes_self p st.dirs

theorem findDir_deleteDir_ne {st : State} {p p' : String} (h : p' ≠ p) :
    findDir (deleteDir st p) p' =
      (findDir st p').map (fun n =>
        { n with subdirPaths := stripPath p n.subdirPaths }) :=
  findNode_deleteDirNodes_ne h st.dirs

theorem filesAt_deleteDir_ne {st : State} {p p' : String} (h : p' ≠ p) :
    filesAt (deleteDir st p) p' = filesAt st p' := by
  unfold filesAt
  rw [findDir_deleteDir_ne h]
  cases hf : findDir st p' with
  | none => rfl
  | some n => rfl

theorem findDir_addLog (st : State) (e : Event) (p : String) :
    findDir (addLog st e) p = findDir st p := rfl

theorem filesAt_addLog (st : State) (e : Event) (p : String) :
    filesAt (addLog st e) p = filesAt st p := rfl

/-! ### Step equations and structural lemmas for `applyTableDiffs` -/

/-- The table whose file a diff entry writes or deletes (none for the
panicking variants, which touch no file). -/
def TableDiff.touchedTable : TableDiff → Option String
  | .CreateTable t => some t
  | .DropTable t => some t
  | .AlterTable t => some t
  | .RenameTable _ => none
  | .UnsupportedDiff _ => none

theorem applyTableDiffs_nil (w : World) (dirPath : String) (toSchema : Schema)
    (st : State) : applyTableDiffs w dirPath toSchema [] st = (.exit 0, st) := rfl

theorem applyTableDiffs_create_ok {w : World} {dirPath tn : String}
    {toSchema : Schema} (rest : List TableDiff) (st : State)
    (hs : w.showCreateFails dirPath tn = false)
    (hw : w.writeFails dirPath tn = false) :
    applyTableDiffs w dirPath toSchema (.CreateTable tn :: rest) st =
      applyTableDiffs w dirPath toSchema rest
        (addLog (setFileInDir st dirPath tn ((lookupT tn toSchema.tables).getD ""))
          (.wrote dirPath (sqlName tn) ((lookupT tn toSchema.tables).getD "").length)) := by
  simp [applyTableDiffs, ShowCreateTable, hs, hw]

theorem applyTableDiffs_create_scfail {w : World} {dirPath tn : String}
    {toSchema : Schema} (rest : List TableDiff) (st : State)
    (hs : w.showCreateFails dirPath tn = true) :
    applyTableDiffs w dirPath toSchema (.CreateTable tn :: rest) st =
      (.panicked ("ShowCreateTable failed for " ++ tn), st) := by
  simp [applyTableDiffs, ShowCreateTable, hs]

theorem applyTableDiffs_create_wfail {w : World} {dirPath tn : String}
    {toSchema : Schema} (rest : List TableDiff) (st : State)
    (hs : w.showCreateFails dirPath tn = false)
    (hw : w.writeFails dirPath tn = true) :
    applyTableDiffs w dirPath toSchema (.CreateTable tn :: rest) st =
      (.exit 1, addLog st (.report ("Unable to write to " ++ sqlName tn))) := by
  simp [applyTableDiffs, ShowCreateTable, hs, hw]

theorem applyTableDiffs_alter_ok {w : World} {dirPath tn : String}
    {toSchema : Schema} (rest : List TableDiff) (st : State)
    (hs : w.showCreateFails dirPath tn = false)
    (hw : w.writeFails dirPath tn = false) :
    applyTableDiffs w dirPath toSchema (.AlterTable tn :: rest) st =
      applyTableDiffs w dirPath toSchema rest
        (addLog (setFileInDir st dirPath tn ((lookupT tn toSchema.tables).getD ""))
          (.wrote dirPath (sqlName tn) ((lookupT tn toSchema.tables).getD "").length)) := by
  simp [applyTableDiffs, ShowCreateTable, hs, hw]

theorem applyTableDiffs_alter_scfail {w : World} {dirPath tn : String}
    {toSchema : Schema} (rest : List TableDiff) (st : State)
    (hs : w.showCreateFails dirPath tn = true) :
    applyTableDiffs w dirPath toSchema (.AlterTable tn :: rest) st =
      (.panicked ("ShowCreateTable failed for " ++ tn), st) := by
  simp [applyTableDiffs, ShowCreateTable, hs]

theorem applyTableDiffs_alter_wfail {w : World} {dirPath tn : String}
    {toSchema : Schema} (rest : List TableDiff) (st : State)
    (hs : w.showCreateFails dirPath tn = false)
    (hw : w.writeFails dirPath tn = true) :
    applyTableDiffs w dirPath toSchema (.AlterTable tn :: rest) st =
      (.exit 1, addLog st (.report ("Unable to write to " ++ sqlName tn))) := by
  simp [applyTableDiffs, ShowCreateTable, hs, hw]

theorem applyTableDiffs_drop_ok {w : World} {dirPath tn : String}
    {toSchema : Schema} (rest : List TableDiff) (st : State)
    (hd : w.deleteFileFails dirPath tn = false)
    {v : String} (hlook : lookupT tn (filesAt st dirPath) = some v) :
    applyTableDiffs w dirPath toSchema (.DropTable tn :: rest) st =
      applyTableDiffs w dirPath toSchema rest
        (addLog (removeFileInDir st dirPath tn)
          (.deletedFile dirPath (sqlName tn))) := by
  simp [applyTableDiffs, hd, hlook]

theorem applyTableDiffs_drop_flagfail {w : World} {dirPath tn : String}
    {toSchema : Schema} (rest : List TableDiff) (st : State)
    (hd : w.deleteFileFails dirPath tn = true) :
    applyTableDiffs w dirPath toSchema (.DropTable tn :: rest) st =
      (.exit 1, addLog st (.report ("Unable to delete " ++ sqlName tn))) := by
  simp [applyTableDiffs, hd]

theorem applyTableDiffs_drop_missing {w : World} {dirPath tn : String}
    {toSchema : Schema} (rest : List TableDiff) (st : State)
    (hd : w.deleteFileFails dirPath tn = false)
    (hlook : lookupT tn (filesAt st dirPath) = none) :
    applyTableDiffs w dirPath toSchema (.DropTable tn :: rest) st =
      (.exit 1, addLog st (.report ("Unable to delete " ++ sqlName tn))) := by
  simp [applyTableDiffs, hd, hlook]

theorem applyTableDiffs_rename {w : World} {dirPath tn : String}
    {toSchema : Schema} (rest : List TableDiff) (st : State) :
    applyTableDiffs w dirPath toSchema (.RenameTable tn :: rest) st =
      (.panicked "Table renames not yet supported!", st) := by
  simp [applyTableDiffs]

theorem applyTableDiffs_unsupported {w : World} {dirPath tag : String}
    {toSchema : Schema} (rest : List TableDiff) (st : State) :
    applyTableDiffs w dirPath toSchema (.UnsupportedDiff tag :: rest) st =
      (.panicked ("Unsupported diff type " ++ tag), st) := by
  simp [applyTableDiffs]

theorem filesAt_setLog (st : State) (L : List Event) (p : String) :
    filesAt { st with log := L } p = filesAt st p := rfl

/-- Case characterization of one step of the diff-application loop: the step
either halts with a non-zero or panicking result, changing at most the report
log, or performs its single file write / file deletion and continues with the
remaining entries. -/
theorem applyTableDiffs_cons_split (w : World) (dirPath : String)
    (toSchema : Schema) (td : TableDiff) (st : State) :
    (∃ r ext, r ≠ Outcome.exit 0 ∧ r ≠ Outcome.outOfFuel ∧
        (∀ e ∈ ext, ∃ m, e = Event.report m) ∧
        ∀ X : List TableDiff, applyTableDiffs w dirPath toSchema (td :: X) st =
          (r, { st with log := st.log ++ ext })) ∨
    (∃ tn c, td.touchedTable = some tn ∧
        ∀ X : List TableDiff, applyTableDiffs w dirPath toSchema (td :: X) st =
          applyTableDiffs w dirPath toSchema X
            (addLog (setFileInDir st dirPath tn c)
              (.wrote dirPath (sqlName tn) c.length))) ∨
    (∃ tn, td.touchedTable = some tn ∧
        ∀ X : List TableDiff, applyTableDiffs w dirPath toSchema (td :: X) st =
          applyTableDiffs w dirPath toSchema X
            (addLog (removeFileInDir st dirPath tn)
              (.deletedFile dirPath (sqlName tn)))) := by
  cases td with
  | CreateTable tn =>
    by_cases hs : w.showCreateFails dirPath tn = true
    · refine Or.inl ⟨Outcome.panicked ("ShowCreateTable failed for " ++ tn), [],
        by simp, by simp, by simp, fun X => ?_⟩
      rw [applyTableDiffs_create_scfail X st hs]
      simp
    · rw [Bool.not_eq_true] at hs
      by_cases hw : w.writeFails dirPath tn = true
      · refine Or.inl ⟨Outcome.exit 1, [Event.report ("Unable to write to " ++ sqlName tn)],
          by simp, by simp, by simp, fun X => ?_⟩
        rw [applyTableDiffs_create_wfail X st hs hw]
        rfl
      · rw [Bool.not_eq_true] at hw
        exact Or.inr (Or.inl ⟨tn, _, rfl,
          fun X => applyTableDiffs_create_ok X st hs hw⟩)
  | AlterTable tn =>
    by_cases hs : w.showCreateFails dirPath tn = true
    · refine Or.inl ⟨Outcome.panicked ("ShowCreateTable failed for " ++ tn), [],
        by simp, by simp, by simp, fun X => ?_⟩
      rw [applyTableDiffs_alter_scfail X st hs]
      simp
    · rw [Bool.not_eq_true] at hs
      by_cases hw : w.writeFails dirPath tn = true
      · refine Or.inl ⟨Outcome.exit 1, [Event.report ("Unable to write to " ++ sqlName tn)],
          by simp, by simp, by simp, fun X => ?_⟩
        rw [applyTableDiffs_alter_wfail X st hs hw]
        rfl
      · rw [Bool.not_eq_true] at hw
        exact Or.inr (Or.inl ⟨tn, _, rfl,
          fun X => applyTableDiffs_alter_ok X st hs hw⟩)
  | DropTable tn =>
    by_cases hd : w.deleteFileFails dirPath tn = true
    · refine Or.inl ⟨Outcome.exit 1, [Event.report ("Unable to delete " ++ sqlName tn)],
        by simp, by simp, by simp, fun X => ?_⟩
      rw [applyTableDiffs_drop_flagfail X st hd]
      rfl
    · rw [Bool.not_eq_true] at hd
      cases hlook : lookupT tn (filesAt st dirPath) with
      | none =>
        refine Or.inl ⟨Outcome.exit 1, [Event.report ("Unable to delete " ++ sqlName tn)],
          by simp, by simp, by simp, fun X => ?_⟩
        rw [applyTableDiffs_drop_missing X st hd hlook]
        rfl
      | some v =>
        exact Or.inr (Or.inr ⟨tn, rfl,
          fun X => applyTableDiffs_drop_ok X st hd hlook⟩)
  | RenameTable tn =>
    refine Or.inl ⟨Outcome.panicked "Table renames not yet supported!", [],
      by simp, by simp, by simp, fun X => ?_⟩
    rw [applyTableDiffs_rename X st]
    simp
  | UnsupportedDiff tag =>
    refine Or.inl ⟨Outcome.panicked ("Unsupported diff type " ++ tag), [],
      by simp, by simp, by simp, fun X => ?_⟩
    rw [applyTableDiffs_unsupported X st]
    simp

theorem applyTableDiffs_files_frame (w : World) (dirPath : String)
    (toSchema : Schema) (l : List TableDiff) (st : State) (p t' : String)
    (h : ∀ e ∈ l, p ≠ dirPath ∨ e.touchedTable ≠ some t') :
    lookupT t' (filesAt (applyTableDiffs w dirPath toSchema l st).2 p) =
      lookupT t' (filesAt st p) := by
  induction l generalizing st with
  | nil => rfl
  | cons td rest ih =>
    have htd := h td (List.mem_cons_self _ _)
    have hrest : ∀ e ∈ rest, p ≠ dirPath ∨ e.touchedTable ≠ some t' :=
      fun e he => h e (List.mem_cons_of_mem _ he)
    rcases applyTableDiffs_cons_split w dirPath toSchema td st with
      ⟨r, ext, _, _, _, heq⟩ | ⟨tn, c, htn, heq⟩ | ⟨tn, htn, heq⟩
    · rw [heq rest, filesAt_setLog]
    · rw [heq rest, ih _ hrest, filesAt_addLog]
      by_cases hp : p = dirPath
      · subst hp
        have ht' : t' ≠ tn := by
          intro hh
          rcases htd with hpd | hts
          · exact hpd rfl
          · rw [htn, hh] at hts
            exact hts rfl
        exact lookupT_filesAt_setFileInDir ht'
      · rw [filesAt_setFileInDir_ne hp]
    · rw [heq rest, ih _ hrest, filesAt_addLog]
      by_cases hp : p = dirPath
      · subst hp
        have ht' : t' ≠ tn := by
          intro hh
          rcases htd with hpd | hts
          · exact hpd rfl
          · rw [htn, hh] at hts
            exact hts rfl
        exact lookupT_filesAt_removeFileInDir ht'
      · rw [filesAt_removeFileInDir_ne hp]

theorem applyTableDiffs_ghost (w : World) (dirPath : String) (toSchema : Schema)
    (l : List TableDiff) (st : State) :
    (applyTableDiffs w dirPath toSchema l st).2.tempLive = st.tempLive ∧
    (applyTableDiffs w dirPath toSchema l st).2.seen = st.seen ∧
    (applyTableDiffs w dirPath toSchema l st).2.visited = st.visited := by
  induction l generalizing st with
  | nil => exact ⟨rfl, rfl, rfl⟩
  | cons td rest ih =>
    rcases applyTableDiffs_cons_split w dirPath toSchema td st with
      ⟨r, ext, _, _, _, heq⟩ | ⟨tn, c, htn, heq⟩ | ⟨tn, htn, heq⟩
    · rw [heq rest]
      exact ⟨rfl, rfl, rfl⟩
    · rw [heq rest]
      exact ih _
    · rw [heq rest]
      exact ih _

/-- Events the diff-application loop may append: file writes, file deletions,
and error reports. -/
def diffEvent (e : Event) : Prop :=
  (∃ a b cnt, e = Event.wrote a b cnt) ∨ (∃ a b, e = Event.deletedFile a b) ∨
    (∃ m, e = Event.report m)

theorem applyTableDiffs_log (w : World) (dirPath : String) (toSchema : Schema)
    (l : List TableDiff) (st : State) :
    ∃ ext, (applyTableDiffs w dirPath toSchema l st).2.log = st.log ++ ext ∧
      ∀ e ∈ ext, diffEvent e := by
  induction l generalizing st with
  | nil => exact ⟨[], by rw [applyTableDiffs_nil]; simp, by simp⟩
  | cons td rest ih =>
    rcases applyTableDiffs_cons_split w dirPath toSchema td st with
      ⟨r, ext, _, _, hext, heq⟩ | ⟨tn, c, htn, heq⟩ | ⟨tn, htn, heq⟩
    · refine ⟨ext, by rw [heq rest], fun e he => ?_⟩
      exact Or.inr (Or.inr (hext e he))
    · obtain ⟨ext', hlog, hev⟩ := ih
        (addLog (setFileInDir st dirPath tn c)
          (.wrote dirPath (sqlName tn) c.length))
      refine ⟨Event.wrote dirPath (sqlName tn) c.length :: ext', ?_, ?_⟩
      · rw [heq rest, hlog]
        simp [addLog, setFileInDir]
      · intro e he
        rcases List.mem_cons.mp he with rfl | he'
        · exact Or.inl ⟨_, _, _, rfl⟩
        · exact hev e he'
    · obtain ⟨ext', hlog, hev⟩ := ih
        (addLog (removeFileInDir st dirPath tn)
          (.deletedFile dirPath (sqlName tn)))
      refine ⟨Event.deletedFile dirPath (sqlName tn) :: ext', ?_, ?_⟩
      · rw [heq rest, hlog]
        simp [addLog, removeFileInDir]
      · intro e he
        rcases List.mem_cons.mp he with rfl | he'
        · exact Or.inr (Or.inl ⟨_, _, rfl⟩)
        · exact hev e he'

theorem applyTableDiffs_rename_no_exit0 (w : World) (dirPath : String)
    (toSchema : Schema) (t : String) (l : List TableDiff) (st : State)
    (hmem : TableDiff.RenameTable t ∈ l) :
    (applyTableDiffs w dirPath toSchema l st).1 ≠ .exit 0 := by
  induction l generalizing st with
  | nil => cases hmem
  | cons td rest ih =>
    rcases List.mem_cons.mp hmem with heq | hmem'
    · subst heq
      rw [applyTableDiffs_rename rest st]
      simp
    · rcases applyTableDiffs_cons_split w dirPath toSchema td st with
        ⟨r, ext, hr0, _, _, heq⟩ | ⟨tn, c, htn, heq⟩ | ⟨tn, htn, heq⟩
      · rw [heq rest]
        exact hr0
      · rw [heq rest]
        exact ih _ hmem'
      · rw [heq rest]
        exact ih _ hmem'

theorem applyTableDiffs_append_ok {w : World} {dirPath : String}
    {toSchema : Schema} {a : List TableDiff} {st st' : State}
    (h : applyTableDiffs w dirPath toSchema a st = (.exit 0, st'))
    (b : List TableDiff) :
    applyTableDiffs w dirPath toSchema (a ++ b) st =
      applyTableDiffs w dirPath toSchema b st' := by
  induction a generalizing st with
  | nil =>
    rw [applyTableDiffs_nil] at h
    cases h
    rfl
  | cons td rest ih =>
    rcases applyTableDiffs_cons_split w dirPath toSchema td st with
      ⟨r, ext, hr0, _, _, heq⟩ | ⟨tn, c, htn, heq⟩ | ⟨tn, htn, heq⟩
    · rw [heq rest] at h
      cases h
      exact absurd rfl hr0
    · rw [heq rest] at h
      rw [List.cons_append, heq (rest ++ b)]
      exact ih h
    · rw [heq rest] at h
      rw [List.cons_append, heq (rest ++ b)]
      exact ih h

theorem applyTableDiffs_append_fail {w : World} {dirPath : String}
    {toSchema : Schema} {a : List TableDiff} {st st' : State} {r : Outcome}
    (h : applyTableDiffs w dirPath toSchema a st = (r, st'))
    (hr : r ≠ .exit 0) (b : List TableDiff) :
    applyTableDiffs w dirPath toSchema (a ++ b) st = (r, st') := by
  induction a generalizing st with
  | nil =>
    rw [applyTableDiffs_nil] at h
    cases h
    exact absurd rfl hr
  | cons td rest ih =>
    rcases applyTableDiffs_cons_split w dirPath toSchema td st with
      ⟨r', ext, hr0, _, _, heq⟩ | ⟨tn, c, htn, heq⟩ | ⟨tn, htn, heq⟩
    · rw [heq rest] at h
      rw [List.cons_append, heq (rest ++ b)]
      exact h
    · rw [heq rest] at h
      rw [List.cons_append, heq (rest ++ b)]
      exact ih h
    · rw [heq rest] at h
      rw [List.cons_append, heq (rest ++ b)]
      exact ih h

theorem filesAt_setFileInDir_self {st : State} {p tname c : String} {n : DirNode}
    (h : findDir st p = some n) :
    filesAt (setFileInDir st p tname c) p = setEntry tname c n.files := by
  unfold filesAt
  rw [findDir_setFileInDir, h]
  simp [findDir_path h]

theorem filesAt_removeFileInDir_self {st : State} {p tname : String} {n : DirNode}
    (h : findDir st p = some n) :
    filesAt (removeFileInDir st p tname) p = removeEntry tname n.files := by
  unfold filesAt
  rw [findDir_removeFileInDir, h]
  simp [findDir_path h]

/-- A failure-free world over a fixed target, used for concrete runs. -/
def plainWorld (L : List Schema) (names : List String) : World where
  targetsOf := fun _ => [⟨names, L⟩]
  newSchemaDiff := canonicalSchemaDiff
  populateTempFails := fun _ => false
  dropTempFails := fun _ => false
  deleteDirFails := fun _ => false
  subdirsFails := fun _ => false
  writeFails := fun _ _ => false
  deleteFileFails := fun _ _ => false
  showCreateFails := fun _ _ => false
  populateSchemaDirFails := fun _ _ => false

/-- C3: whenever the diff engine returns an entry of kind `Rename`, the
reconciliation run terminates fatally — the loop panics at the rename with a
non-zero process result — and no file is written or deleted for the renamed
table: the entries applied before the rename leave its file untouched, and
the panic stops the loop before anything is done for it. -/
theorem claim_C3_rename_fatal (w : World) (dirPath : String) (toSchema : Schema)
    (pre post : List TableDiff) (st st1 : State) (t : String)
    (hpre : applyTableDiffs w dirPath toSchema pre st = (.exit 0, st1))
    (hframe : ∀ e ∈ pre, e.touchedTable ≠ some t) :
    applyTableDiffs w dirPath toSchema
        (pre ++ TableDiff.RenameTable t :: post) st =
      (.panicked "Table renames not yet supported!", st1) ∧
    lookupT t (filesAt st1 dirPath) = lookupT t (filesAt st dirPath) ∧
    processExit (.panicked "Table renames not yet supported!") ≠ 0 := by
  refine ⟨?_, ?_, by simp [processExit]⟩
  · rw [applyTableDiffs_append_ok hpre, applyTableDiffs_rename]
  · have := applyTableDiffs_files_frame w dirPath toSchema pre st dirPath t
      (fun e he => Or.inr (hframe e he))
    rw [hpre] at this
    exact this

theorem claim_C3_rename_fatal_witness :
    applyTableDiffs (plainWorld [] []) "d" ⟨"s", []⟩ [] ⟨[], false, [], [], []⟩ =
      (.exit 0, ⟨[], false, [], [], []⟩) ∧
    applyTableDiffs (plainWorld [] []) "d" ⟨"s", []⟩
        ([] ++ TableDiff.RenameTable "t" :: []) ⟨[], false, [], [], []⟩ =
      (.panicked "Table renames not yet supported!", ⟨[], false, [], [], []⟩) :=
  ⟨rfl, (claim_C3_rename_fatal (plainWorld [] []) "d" ⟨"s", []⟩ [] []
    ⟨[], false, [], [], []⟩ ⟨[], false, [], [], []⟩ "t" rfl
    (fun e he => by cases he)).1⟩

/-- C5: a Create diff entry for a table `t` that exists live (with canonical
definition text `defText`) and has no failing write generates the canonical
text via `ShowCreateTable`, writes the file named `t ++ ".sql"` with exactly
that text as contents, reports a byte count equal to the length of the
written content (the `wrote` event), and continues with the remaining
entries. -/
theorem claim_C5_create_writes (w : World) (dirPath : String) (toSchema : Schema)
    (t defText : String) (rest : List TableDiff) (st : State) (n : DirNode)
    (hlive : lookupT t toSchema.tables = some defText)
    (hnode : findDir st dirPath = some n)
    (hs : w.showCreateFails dirPath t = false)
    (hwf : w.writeFails dirPath t = false) :
    applyTableDiffs w dirPath toSchema (.CreateTable t :: rest) st =
      applyTableDiffs w dirPath toSchema rest
        (addLog (setFileInDir st dirPath t defText)
          (.wrote dirPath (sqlName t) defText.length)) ∧
    lookupT t (filesAt (addLog (setFileInDir st dirPath t defText)
        (.wrote dirPath (sqlName t) defText.length)) dirPath) = some defText := by
  constructor
  · rw [applyTableDiffs_create_ok rest st hs hwf, hlive]
    rfl
  · rw [filesAt_addLog, filesAt_setFileInDir_self hnode]
    exact lookupT_setEntry_self t defText n.files

theorem claim_C5_create_writes_witness :
    lookupT "t" (Schema.mk "s" [("t", "DEF")]).tables = some "DEF" ∧
    lookupT "t" (filesAt (addLog
        (setFileInDir ⟨[⟨"d", true, false, [], none, []⟩], false, [], [], []⟩
          "d" "t" "DEF")
        (.wrote "d" (sqlName "t") "DEF".length)) "d") = some "DEF" :=
  ⟨rfl, (claim_C5_create_writes (plainWorld [] []) "d" ⟨"s", [("t", "DEF")]⟩
    "t" "DEF" [] ⟨[⟨"d", true, false, [], none, []⟩], false, [], [], []⟩
    ⟨"d", true, false, [], none, []⟩ rfl rfl rfl rfl).2⟩

/-- C6: a single diff entry applied at a leaf directory touches at most the
file named after its own table in that directory: for every other directory or
table-file name, the file contents are unchanged, whatever the outcome. -/
theorem claim_C6_single_file_frame (w : World) (dirPath : String)
    (toSchema : Schema) (td : TableDiff) (st : State) (p t' : String)
    (h : p ≠ dirPath ∨ td.touchedTable ≠ some t') :
    lookupT t' (filesAt (applyTableDiffs w dirPath toSchema [td] st).2 p) =
      lookupT t' (filesAt st p) :=
  applyTableDiffs_files_frame w dirPath toSchema [td] st p t'
    (fun e he => by rw [List.mem_singleton.mp he]; exact h)

theorem claim_C6_single_file_frame_witness :
    ((("d2" : String) ≠ "d") ∨
      (TableDiff.DropTable "a").touchedTable ≠ some "b") ∧
    lookupT "b" (filesAt (applyTableDiffs (plainWorld [] []) "d" ⟨"s", []⟩
        [TableDiff.DropTable "a"]
        ⟨[⟨"d", true, false, [], none, [("a", "X"), ("b", "Y")]⟩,
          ⟨"d2", true, false, [], none, [("b", "Z")]⟩], false, [], [], []⟩).2 "d2") =
      lookupT "b" (filesAt
        ⟨[⟨"d", true, false, [], none, [("a", "X"), ("b", "Y")]⟩,
          ⟨"d2", true, false, [], none, [("b", "Z")]⟩], false, [], [], []⟩ "d2") :=
  ⟨Or.inl (by decide),
    claim_C6_single_file_frame (plainWorld [] []) "d" ⟨"s", []⟩
      (TableDiff.DropTable "a")
      ⟨[⟨"d", true, false, [], none, [("a", "X"), ("b", "Y")]⟩,
        ⟨"d2", true, false, [], none, [("b", "Z")]⟩], false, [], [], []⟩
      "d2" "b" (Or.inl (by decide))⟩

/-! ### Unfolding lemmas for `pull` and `pullLeaf` -/

theorem findDir_visited (st : State) (v : List String) (p : String) :
    findDir { st with visited := v } p = findDir st p := rfl

theorem pull_leaf_eq {w : World} {fuel : Nat} {dirPath : String} {st0 : State}
    {node : DirNode} (hnode : findDir st0 dirPath = some node)
    (hleaf : node.isLeaf = true) :
    pull w (fuel + 1) dirPath st0 =
      pullLeaf w dirPath node { st0 with visited := st0.visited ++ [dirPath] } := by
  have h2 : findDir { st0 with visited := st0.visited ++ [dirPath] } dirPath =
      some node := hnode
  simp [pull, h2, hleaf]

theorem pullLeaf_no_targets {w : World} {dirPath : String} (node : DirNode)
    (st0 : State) (htarg : w.targetsOf dirPath = []) :
    pullLeaf w dirPath node st0 =
      (.panicked "index out of range", addLog st0 (.updating dirPath)) := by
  simp [pullLeaf, htarg]

theorem pullLeaf_no_schemaNames {w : World} {dirPath : String} {t : Target}
    {ts : List Target} (node : DirNode) (st0 : State)
    (htarg : w.targetsOf dirPath = t :: ts) (hsn : t.schemaNames = []) :
    pullLeaf w dirPath node st0 =
      (.panicked "index out of range", addLog st0 (.updating dirPath)) := by
  simp [pullLeaf, htarg, hsn]

theorem pullLeaf_gone_ok {w : World} {dirPath : String} {t : Target}
    {ts : List Target} {sn : String} {sns : List String} (node : DirNode)
    (st0 : State) (htarg : w.targetsOf dirPath = t :: ts)
    (hsn : t.schemaNames = sn :: sns) (hgone : t.Schema sn = none)
    (hdel : w.deleteDirFails dirPath = false) :
    pullLeaf w dirPath node st0 =
      (.exit 0, addLog (deleteDir (addLog st0 (.updating dirPath)) dirPath)
        (.deletedDir dirPath)) := by
  simp [pullLeaf, htarg, hsn, hgone, hdel]

theorem pullLeaf_gone_fail {w : World} {dirPath : String} {t : Target}
    {ts : List Target} {sn : String} {sns : List String} (node : DirNode)
    (st0 : State) (htarg : w.targetsOf dirPath = t :: ts)
    (hsn : t.schemaNames = sn :: sns) (hgone : t.Schema sn = none)
    (hdel : w.deleteDirFails dirPath = true) :
    pullLeaf w dirPath node st0 =
      (.exit 1, addLog (addLog st0 (.updating dirPath))
        (.report ("Unable to delete directory " ++ dirPath))) := by
  simp [pullLeaf, htarg, hsn, hgone, hdel]

theorem pullLeaf_popfail {w : World} {dirPath : String} {t : Target}
    {ts : List Target} {sn : String} {sns : List String} {toSchema : Schema}
    (node : DirNode) (st0 : State) (htarg : w.targetsOf dirPath = t :: ts)
    (hsn : t.schemaNames = sn :: sns) (hto : t.Schema sn = some toSchema)
    (hpop : w.populateTempFails dirPath = true) :
    pullLeaf w dirPath node st0 =
      (.exit 1, addLog (addLog st0 (.updating dirPath))
        (.report "Unable to populate temporary schema")) := by
  simp [pullLeaf, htarg, hsn, hto, hpop]

/-- With a live schema and a populated temporary schema, the leaf branch is
determined by the result of the diff-application loop. -/
theorem pullLeaf_main {w : World} {dirPath : String} {t : Target}
    {ts : List Target} {sn : String} {sns : List String} {toSchema : Schema}
    (node : DirNode) (st0 : State) (htarg : w.targetsOf dirPath = t :: ts)
    (hsn : t.schemaNames = sn :: sns) (hto : t.Schema sn = some toSchema)
    (hpop : w.populateTempFails dirPath = false) :
    pullLeaf w dirPath node st0 =
      (match applyTableDiffs w dirPath toSchema
          (w.newSchemaDiff ⟨"_skeema_tmp", node.files⟩ toSchema)
          (addLog { addLog st0 (.updating dirPath) with tempLive := true }
            (.populatedTemp dirPath)) with
       | (.exit 0, st2) =>
         if w.dropTempFails dirPath then
           (.exit 1, addLog st2 (.report "Unable to clean up temporary schema"))
         else
           (.exit 0, addLog { st2 with tempLive := false } (.droppedTemp dirPath))
       | (r, st2) => (r, st2)) := by
  simp [pullLeaf, htarg, hsn, hto, hpop]

/-- C4: at a leaf directory whose declared schema no longer exists on the live
instance, `pull` deletes the directory recursively and returns 0, without
populating the temporary schema and without computing or applying any diff
(the log gains exactly the updating and deletion events, so no populate,
write or delete happened); if the directory deletion itself fails, `pull`
returns 1 and the filesystem is unchanged. -/
theorem claim_C4_schema_gone (w : World) (fuel : Nat) (dirPath : String)
    (st0 : State) (node : DirNode) (t : Target) (ts : List Target)
    (sn : String) (sns : List String)
    (hnode : findDir st0 dirPath = some node) (hleaf : node.isLeaf = true)
    (htarg : w.targetsOf dirPath = t :: ts) (hsn : t.schemaNames = sn :: sns)
    (hgone : t.Schema sn = none) :
    (w.deleteDirFails dirPath = false →
      pull w (fuel + 1) dirPath st0 =
        (.exit 0,
          addLog (deleteDir (addLog { st0 with visited := st0.visited ++ [dirPath] }
            (.updating dirPath)) dirPath) (.deletedDir dirPath)) ∧
      findDir (pull w (fuel + 1) dirPath st0).2 dirPath = none ∧
      (pull w (fuel + 1) dirPath st0).2.tempLive = st0.tempLive ∧
      (pull w (fuel + 1) dirPath st0).2.log =
        st0.log ++ [Event.updating dirPath, Event.deletedDir dirPath]) ∧
    (w.deleteDirFails dirPath = true →
      pull w (fuel + 1) dirPath st0 =
        (.exit 1, addLog (addLog { st0 with visited := st0.visited ++ [dirPath] }
          (.updating dirPath)) (.report ("Unable to delete directory " ++ dirPath))) ∧
      (pull w (fuel + 1) dirPath st0).2.dirs = st0.dirs) := by
  constructor
  · intro hdel
    have heq : pull w (fuel + 1) dirPath st0 =
        (.exit 0,
          addLog (deleteDir (addLog { st0 with visited := st0.visited ++ [dirPath] }
            (.updating dirPath)) dirPath) (.deletedDir dirPath)) := by
      rw [pull_leaf_eq hnode hleaf, pullLeaf_gone_ok node _ htarg hsn hgone hdel]
    refine ⟨heq, ?_, ?_, ?_⟩
    · rw [heq]
      exact findDir_deleteDir_self _ _
    · rw [heq]
      rfl
    · rw [heq]
      simp [addLog, deleteDir]
  · intro hdel
    have heq : pull w (fuel + 1) dirPath st0 =
        (.exit 1, addLog (addLog { st0 with visited := st0.visited ++ [dirPath] }
          (.updating dirPath)) (.report ("Unable to delete directory " ++ dirPath))) := by
      rw [pull_leaf_eq hnode hleaf, pullLeaf_gone_fail node _ htarg hsn hgone hdel]
    exact ⟨heq, by rw [heq]; rfl⟩

theorem claim_C4_schema_gone_witness :
    findDir (⟨[⟨"d", true, false, [], none, [("a", "X")]⟩], false, [], [], []⟩ : State)
        "d" = some ⟨"d", true, false, [], none, [("a", "X")]⟩ ∧
    (pull (plainWorld [] ["s"]) 1 "d"
        ⟨[⟨"d", true, false, [], none, [("a", "X")]⟩], false, [], [], []⟩).1 = .exit 0 ∧
    findDir (pull (plainWorld [] ["s"]) 1 "d"
        ⟨[⟨"d", true, false, [], none, [("a", "X")]⟩], false, [], [], []⟩).2 "d" = none := by
  have h := claim_C4_schema_gone (plainWorld [] ["s"]) 0 "d"
    ⟨[⟨"d", true, false, [], none, [("a", "X")]⟩], false, [], [], []⟩
    ⟨"d", true, false, [], none, [("a", "X")]⟩ ⟨["s"], []⟩ [] "s" [] rfl rfl rfl rfl rfl
  obtain ⟨h1, h2, h3, h4⟩ := h.1 rfl
  exact ⟨rfl, by rw [h1], h2⟩

theorem pullSubdirsAux_nil (recur : String → State → Outcome × State)
    (st : State) : pullSubdirsAux recur [] st = (.exit 0, st) := rfl

theorem pullSubdirsAux_skip {recur : String → State → Outcome × State}
    {q : String} {st : State} (rest : List String)
    (hq : elemStr q st.seen = true) :
    pullSubdirsAux recur (q :: rest) st = pullSubdirsAux recur rest st := by
  simp [pullSubdirsAux, hq]

theorem pullSubdirsAux_ok {recur : String → State → Outcome × State}
    {q : String} {st st1 : State} (rest : List String)
    (hq : elemStr q st.seen = false) (hp : recur q st = (.exit 0, st1)) :
    pullSubdirsAux recur (q :: rest) st = pullSubdirsAux recur rest st1 := by
  simp [pullSubdirsAux, hq, hp]

theorem pullSubdirsAux_fail {recur : String → State → Outcome × State}
    {q : String} {st st1 : State} {r : Outcome} (rest : List String)
    (hq : elemStr q st.seen = false) (hp : recur q st = (r, st1))
    (hr : r ≠ .exit 0) :
    pullSubdirsAux recur (q :: rest) st = (r, st1) := by
  cases r with
  | exit c =>
    cases c with
    | zero => exact absurd rfl hr
    | succ c => simp [pullSubdirsAux, hq, hp]
  | panicked m => simp [pullSubdirsAux, hq, hp]
  | outOfFuel => simp [pullSubdirsAux, hq, hp]

theorem pullLeaf_fail {w : World} {dirPath : String} {node : DirNode}
    {st0 : State} {t : Target} {ts : List Target} {sn : String}
    {sns : List String} {toSchema : Schema} {r : Outcome} {st2 : State}
    (htarg : w.targetsOf dirPath = t :: ts) (hsn : t.schemaNames = sn :: sns)
    (hto : t.Schema sn = some toSchema)
    (hpop : w.populateTempFails dirPath = false)
    (happ : applyTableDiffs w dirPath toSchema
        (w.newSchemaDiff ⟨"_skeema_tmp", node.files⟩ toSchema)
        (addLog { addLog st0 (.updating dirPath) with tempLive := true }
          (.populatedTemp dirPath)) = (r, st2))
    (hr : r ≠ .exit 0) :
    pullLeaf w dirPath node st0 = (r, st2) := by
  rw [pullLeaf_main node st0 htarg hsn hto hpop, happ]
  cases r with
  | exit c =>
    cases c with
    | zero => exact absurd rfl hr
    | succ c => rfl
  | panicked m => rfl
  | outOfFuel => rfl

theorem pullLeaf_apply_ok {w : World} {dirPath : String} {node : DirNode}
    {st0 : State} {t : Target} {ts : List Target} {sn : String}
    {sns : List String} {toSchema : Schema} {st2 : State}
    (htarg : w.targetsOf dirPath = t :: ts) (hsn : t.schemaNames = sn :: sns)
    (hto : t.Schema sn = some toSchema)
    (hpop : w.populateTempFails dirPath = false)
    (happ : applyTableDiffs w dirPath toSchema
        (w.newSchemaDiff ⟨"_skeema_tmp", node.files⟩ toSchema)
        (addLog { addLog st0 (.updating dirPath) with tempLive := true }
          (.populatedTemp dirPath)) = (.exit 0, st2)) :
    pullLeaf w dirPath node st0 =
      (if w.dropTempFails dirPath then
        (.exit 1, addLog st2 (.report "Unable to clean up temporary schema"))
      else
        (.exit 0, addLog { st2 with tempLive := false } (.droppedTemp dirPath))) := by
  rw [pullLeaf_main node st0 htarg hsn hto hpop, happ]

/-- C8: a database error raised while generating canonical definition text
for a Create or Alter diff entry panics with its cause in the message,
aborting reconciliation of the branch; the panic propagates unchanged through
the leaf branch and through every enclosing recursive call of the
subdirectory loop, and maps to a non-zero process exit code. -/
theorem claim_C8_showcreate_error :
    (∀ (w : World) (dirPath tn : String) (toSchema : Schema)
        (rest : List TableDiff) (st : State),
      w.showCreateFails dirPath tn = true →
      applyTableDiffs w dirPath toSchema (.CreateTable tn :: rest) st =
        (.panicked ("ShowCreateTable failed for " ++ tn), st)) ∧
    (∀ (w : World) (dirPath tn : String) (toSchema : Schema)
        (rest : List TableDiff) (st : State),
      w.showCreateFails dirPath tn = true →
      applyTableDiffs w dirPath toSchema (.AlterTable tn :: rest) st =
        (.panicked ("ShowCreateTable failed for " ++ tn), st)) ∧
    (∀ (w : World) (dirPath : String) (node : DirNode) (st0 : State)
        (t : Target) (ts : List Target) (sn : String) (sns : List String)
        (toSchema : Schema) (msg : String) (st2 : State),
      w.targetsOf dirPath = t :: ts → t.schemaNames = sn :: sns →
      t.Schema sn = some toSchema → w.populateTempFails dirPath = false →
      applyTableDiffs w dirPath toSchema
          (w.newSchemaDiff ⟨"_skeema_tmp", node.files⟩ toSchema)
          (addLog { addLog st0 (.updating dirPath) with tempLive := true }
            (.populatedTemp dirPath)) = (.panicked msg, st2) →
      pullLeaf w dirPath node st0 = (.panicked msg, st2)) ∧
    (∀ (w : World) (fuel : Nat) (q : String) (rest : List String)
        (st st1 : State) (msg : String),
      elemStr q st.seen = false → pull w fuel q st = (.panicked msg, st1) →
      pullSubdirs w fuel (q :: rest) st = (.panicked msg, st1)) ∧
    (∀ msg, processExit (.panicked msg) ≠ 0) := by
  refine ⟨?_, ?_, ?_, ?_, ?_⟩
  · intro w dirPath tn toSchema rest st hs
    exact applyTableDiffs_create_scfail rest st hs
  · intro w dirPath tn toSchema rest st hs
    exact applyTableDiffs_alter_scfail rest st hs
  · intro w dirPath node st0 t ts sn sns toSchema msg st2 htarg hsn hto hpop happ
    exact pullLeaf_fail htarg hsn hto hpop happ (by simp)
  · intro w fuel q rest st st1 msg hq hp
    exact pullSubdirsAux_fail rest hq hp (by simp)
  · intro msg
    simp [processExit]

theorem claim_C8_showcreate_error_witness :
    (({ plainWorld [] [] with
        showCreateFails := fun _ _ => true } : World).showCreateFails "d" "t"
      = true) ∧
    applyTableDiffs
        { plainWorld [] [] with showCreateFails := fun _ _ => true }
        "d" ⟨"s", []⟩ [TableDiff.CreateTable "t"] ⟨[], false, [], [], []⟩ =
      (.panicked ("ShowCreateTable failed for " ++ "t"),
        ⟨[], false, [], [], []⟩) :=
  ⟨rfl, claim_C8_showcreate_error.1
    { plainWorld [] [] with showCreateFails := fun _ _ => true }
    "d" "t" ⟨"s", []⟩ [] ⟨[], false, [], [], []⟩ rfl⟩

def truncTarget (t : Target) : Target := { t with schemaNames := t.schemaNames.take 1 }

/-- The world in which each directory's configuration resolves to at most its
first target, and that target declares at most its first schema name. -/
def truncWorld (w : World) : World :=
  { w with targetsOf := fun p => ((w.targetsOf p).take 1).map truncTarget }

theorem applyTableDiffs_world_congr {w w' : World}
    (hsc : w'.showCreateFails = w.showCreateFails)
    (hwf : w'.writeFails = w.writeFails)
    (hdf : w'.deleteFileFails = w.deleteFileFails) :
    ∀ (dirPath : String) (toSchema : Schema) (l : List TableDiff) (st : State),
      applyTableDiffs w' dirPath toSchema l st =
        applyTableDiffs w dirPath toSchema l st := by
  intro dirPath toSchema l
  induction l with
  | nil => intro st; rfl
  | cons td rest ih =>
    intro st
    cases td with
    | CreateTable tn =>
      by_cases hs : w.showCreateFails dirPath tn = true
      · have hs' : w'.showCreateFails dirPath tn = true := by rw [hsc]; exact hs
        rw [applyTableDiffs_create_scfail rest st hs',
            applyTableDiffs_create_scfail rest st hs]
      · rw [Bool.not_eq_true] at hs
        have hs' : w'.showCreateFails dirPath tn = false := by rw [hsc]; exact hs
        by_cases hw : w.writeFails dirPath tn = true
        · have hw' : w'.writeFails dirPath tn = true := by rw [hwf]; exact hw
          rw [applyTableDiffs_create_wfail rest st hs' hw',
              applyTableDiffs_create_wfail rest st hs hw]
        · rw [Bool.not_eq_true] at hw
          have hw' : w'.writeFails dirPath tn = false := by rw [hwf]; exact hw
          rw [applyTableDiffs_create_ok rest st hs' hw',
              applyTableDiffs_create_ok rest st hs hw, ih]
    | AlterTable tn =>
      by_cases hs : w.showCreateFails dirPath tn = true
      · have hs' : w'.showCreateFails dirPath tn = true := by rw [hsc]; exact hs
        rw [applyTableDiffs_alter_scfail rest st hs',
            applyTableDiffs_alter_scfail rest st hs]
      · rw [Bool.not_eq_true] at hs
        have hs' : w'.showCreateFails dirPath tn = false := by rw [hsc]; exact hs
        by_cases hw : w.writeFails dirPath tn = true
        · have hw' : w'.writeFails dirPath tn = true := by rw [hwf]; exact hw
          rw [applyTableDiffs_alter_wfail rest st hs' hw',
              applyTableDiffs_alter_wfail rest st hs hw]
        · rw [Bool.not_eq_true] at hw
          have hw' : w'.writeFails dirPath tn = false := by rw [hwf]; exact hw
          rw [applyTableDiffs_alter_ok rest st hs' hw',
              applyTableDiffs_alter_ok rest st hs hw, ih]
    | DropTable tn =>
      by_cases hd : w.deleteFileFails dirPath tn = true
      · have hd' : w'.deleteFileFails dirPath tn = true := by rw [hdf]; exact hd
        rw [applyTableDiffs_drop_flagfail rest st hd',
            applyTableDiffs_drop_flagfail rest st hd]
      · rw [Bool.not_eq_true] at hd
        have hd' : w'.deleteFileFails dirPath tn = false := by rw [hdf]; exact hd
        cases hlook : lookupT tn (filesAt st dirPath) with
        | none =>
          rw [applyTableDiffs_drop_missing rest st hd' hlook,
              applyTableDiffs_drop_missing rest st hd hlook]
        | some v =>
          rw [applyTableDiffs_drop_ok rest st hd' hlook,
              applyTableDiffs_drop_ok rest st hd hlook, ih]
    | RenameTable tn =>
      rw [applyTableDiffs_rename rest st, applyTableDiffs_rename rest st]
    | UnsupportedDiff tag =>
      rw [applyTableDiffs_unsupported rest st, applyTableDiffs_unsupported rest st]

theorem pullLeaf_trunc (w : World) (dirPath : String) (node : DirNode)
    (st0 : State) :
    pullLeaf (truncWorld w) dirPath node st0 = pullLeaf w dirPath node st0 := by
  have happ := @applyTableDiffs_world_congr w (truncWorld w) rfl rfl rfl
  cases htarg : w.targetsOf dirPath with
  | nil =>
    have htarg' : (truncWorld w).targetsOf dirPath = [] := by
      simp [truncWorld, htarg]
    rw [pullLeaf_no_targets node st0 htarg', pullLeaf_no_targets node st0 htarg]
  | cons t ts =>
    have htarg' : (truncWorld w).targetsOf dirPath = truncTarget t :: [] := by
      simp [truncWorld, htarg]
    cases hsn : t.schemaNames with
    | nil =>
      have hsn' : (truncTarget t).schemaNames = [] := by simp [truncTarget, hsn]
      rw [pullLeaf_no_schemaNames node st0 htarg' hsn',
          pullLeaf_no_schemaNames node st0 htarg hsn]
    | cons sn sns =>
      have hsn' : (truncTarget t).schemaNames = sn :: [] := by
        simp [truncTarget, hsn]
      have hSch : (truncTarget t).Schema sn = t.Schema sn := rfl
      cases hto : t.Schema sn with
      | none =>
        by_cases hdel : w.deleteDirFails dirPath = true
        · rw [pullLeaf_gone_fail node st0 htarg' hsn' (hSch.trans hto) hdel,
              pullLeaf_gone_fail node st0 htarg hsn hto hdel]
        · rw [Bool.not_eq_true] at hdel
          rw [pullLeaf_gone_ok node st0 htarg' hsn' (hSch.trans hto) hdel,
              pullLeaf_gone_ok node st0 htarg hsn hto hdel]
      | some toSchema =>
        by_cases hpop : w.populateTempFails dirPath = true
        · rw [pullLeaf_popfail node st0 htarg' hsn' (hSch.trans hto) hpop,
              pullLeaf_popfail node st0 htarg hsn hto hpop]
        · rw [Bool.not_eq_true] at hpop
          rw [pullLeaf_main node st0 htarg' hsn' (hSch.trans hto) hpop,
              pullLeaf_main node st0 htarg hsn hto hpop, happ]
          rfl

/-- C10: at a leaf directory only the first resolved target and that target's
first declared schema name are consulted: truncating every target list and
every schema-name list to its first element leaves leaf reconciliation
unchanged (so later targets and schema names are silently ignored), while an
empty target list, or an empty schema-name list on the first target, makes
`pull` fail by an out-of-range index panic rather than by an error result. -/
theorem claim_C10_first_target_only :
    (∀ (w : World) (dirPath : String) (node : DirNode) (st0 : State),
      pullLeaf (truncWorld w) dirPath node st0 = pullLeaf w dirPath node st0) ∧
    (∀ (w : World) (fuel : Nat) (dirPath : String) (st0 : State) (node : DirNode),
      findDir st0 dirPath = some node → node.isLeaf = true →
      w.targetsOf dirPath = [] →
      pull w (fuel + 1) dirPath st0 =
        (.panicked "index out of range",
          addLog { st0 with visited := st0.visited ++ [dirPath] }
            (.updating dirPath))) ∧
    (∀ (w : World) (fuel : Nat) (dirPath : String) (st0 : State) (node : DirNode)
        (t : Target) (ts : List Target),
      findDir st0 dirPath = some node → node.isLeaf = true →
      w.targetsOf dirPath = t :: ts → t.schemaNames = [] →
      pull w (fuel + 1) dirPath st0 =
        (.panicked "index out of range",
          addLog { st0 with visited := st0.visited ++ [dirPath] }
            (.updating dirPath))) := by
  refine ⟨pullLeaf_trunc, ?_, ?_⟩
  · intro w fuel dirPath st0 node hnode hleaf htarg
    rw [pull_leaf_eq hnode hleaf, pullLeaf_no_targets node _ htarg]
  · intro w fuel dirPath st0 node t ts hnode hleaf htarg hsn
    rw [pull_leaf_eq hnode hleaf, pullLeaf_no_schemaNames node _ htarg hsn]

theorem claim_C10_first_target_only_witness :
    findDir (⟨[⟨"d", true, false, [], none, []⟩], false, [], [], []⟩ : State) "d" =
      some ⟨"d", true, false, [], none, []⟩ ∧
    ({ plainWorld [] [] with targetsOf := fun _ => [] } : World).targetsOf "d" = [] ∧
    pull { plainWorld [] [] with targetsOf := fun _ => [] } 1 "d"
        ⟨[⟨"d", true, false, [], none, []⟩], false, [], [], []⟩ =
      (.panicked "index out of range",
        addLog ⟨[⟨"d", true, false, [], none, []⟩], false, [], ["d"], []⟩
          (.updating "d")) :=
  ⟨rfl, rfl, claim_C10_first_target_only.2.1
    { plainWorld [] [] with targetsOf := fun _ => [] } 0 "d"
    ⟨[⟨"d", true, false, [], none, []⟩], false, [], [], []⟩
    ⟨"d", true, false, [], none, []⟩ rfl rfl rfl⟩

/-- A world whose every file write fails, over a live schema `s` with one
table: the leaf diff application fails midway. -/
def writeFailWorld : World :=
  { plainWorld [⟨"s", [("a", "CA")]⟩] ["s"] with writeFails := fun _ _ => true }

def oneLeafState : State := ⟨[⟨"/r", true, false, [], none, []⟩], false, [], [], []⟩

/-- C1 counterexample: when applying a diff entry fails midway, the leaf run
returns exit code 1 with the temporary schema still live and never released —
the claimed unconditional release before returning does not happen on this
exit path. -/
theorem claim_C1_cex :
    (PullCommand writeFailWorld oneLeafState "/r").1 = .exit 1 ∧
    (PullCommand writeFailWorld oneLeafState "/r").2.tempLive = true ∧
    Event.populatedTemp "/r" ∈ (PullCommand writeFailWorld oneLeafState "/r").2.log ∧
    Event.droppedTemp "/r" ∉ (PullCommand writeFailWorld oneLeafState "/r").2.log := by
  exact ⟨by decide, by decide, by decide, by decide⟩

/-- C1 (amended): in the leaf diff-application phase, the temporary schema is
released only on the path where every diff entry applied successfully; on that
path a release failure is reported and turns the run's result into exit code 1
(it cannot mask an earlier failure, because the release is only attempted when
there was none).  When applying a diff entry fails midway — non-zero return or
panic — `pull` returns that failure immediately and the temporary schema is
not released: it stays live and no release event is logged. -/
theorem claim_C1_cleanup_on_success_only (w : World) (dirPath : String)
    (node : DirNode) (st0 : State) (t : Target) (ts : List Target)
    (sn : String) (sns : List String) (toSchema : Schema)
    (htarg : w.targetsOf dirPath = t :: ts) (hsn : t.schemaNames = sn :: sns)
    (hto : t.Schema sn = some toSchema)
    (hpop : w.populateTempFails dirPath = false) :
    (∀ st2, applyTableDiffs w dirPath toSchema
        (w.newSchemaDiff ⟨"_skeema_tmp", node.files⟩ toSchema)
        (addLog { addLog st0 (.updating dirPath) with tempLive := true }
          (.populatedTemp dirPath)) = (.exit 0, st2) →
      (w.dropTempFails dirPath = false →
        pullLeaf w dirPath node st0 =
          (.exit 0, addLog { st2 with tempLive := false }
            (.droppedTemp dirPath))) ∧
      (w.dropTempFails dirPath = true →
        pullLeaf w dirPath node st0 =
          (.exit 1, addLog st2 (.report "Unable to clean up temporary schema")) ∧
        (addLog st2 (Event.report "Unable to clean up temporary schema")).tempLive
          = true)) ∧
    (∀ r st2, applyTableDiffs w dirPath toSchema
        (w.newSchemaDiff ⟨"_skeema_tmp", node.files⟩ toSchema)
        (addLog { addLog st0 (.updating dirPath) with tempLive := true }
          (.populatedTemp dirPath)) = (r, st2) → r ≠ .exit 0 →
      pullLeaf w dirPath node st0 = (r, st2) ∧ st2.tempLive = true ∧
      (Event.droppedTemp dirPath ∈ st2.log ↔
        Event.droppedTemp dirPath ∈ st0.log)) := by
  constructor
  · intro st2 happ
    constructor
    · intro hdrop
      rw [pullLeaf_apply_ok htarg hsn hto hpop happ]
      simp [hdrop]
    · intro hdrop
      refine ⟨?_, ?_⟩
      · rw [pullLeaf_apply_ok htarg hsn hto hpop happ]
        simp [hdrop]
      · have hg := (applyTableDiffs_ghost w dirPath toSchema
          (w.newSchemaDiff ⟨"_skeema_tmp", node.files⟩ toSchema)
          (addLog { addLog st0 (.updating dirPath) with tempLive := true }
            (.populatedTemp dirPath))).1
        rw [happ] at hg
        exact hg
  · intro r st2 happ hr
    refine ⟨pullLeaf_fail htarg hsn hto hpop happ hr, ?_, ?_⟩
    · have hg := (applyTableDiffs_ghost w dirPath toSchema
        (w.newSchemaDiff ⟨"_skeema_tmp", node.files⟩ toSchema)
        (addLog { addLog st0 (.updating dirPath) with tempLive := true }
          (.populatedTemp dirPath))).1
      rw [happ] at hg
      exact hg
    · obtain ⟨ext, hlog, hev⟩ := applyTableDiffs_log w dirPath toSchema
        (w.newSchemaDiff ⟨"_skeema_tmp", node.files⟩ toSchema)
        (addLog { addLog st0 (.updating dirPath) with tempLive := true }
          (.populatedTemp dirPath))
      rw [happ] at hlog
      have hinlog : (addLog { addLog st0 (.updating dirPath) with tempLive := true }
          (.populatedTemp dirPath)).log =
          st0.log ++ [Event.updating dirPath, Event.populatedTemp dirPath] := by
        simp [addLog]
      rw [hinlog] at hlog
      constructor
      · intro hmem
        rw [hlog] at hmem
        rcases List.mem_append.mp hmem with hmem1 | hmem2
        · rcases List.mem_append.mp hmem1 with hmem3 | hmem4
          · exact hmem3
          · simp at hmem4
        · rcases hev _ hmem2 with ⟨a, b, cnt, hm⟩ | ⟨a, b, hm⟩ | ⟨m, hm⟩ <;> cases hm
      · intro hmem
        rw [hlog]
        exact List.mem_append.mpr (Or.inl (List.mem_append.mpr (Or.inl hmem)))

theorem claim_C1_cleanup_on_success_only_witness :
    ((plainWorld [⟨"s", []⟩] ["s"]).targetsOf "d" = [⟨["s"], [⟨"s", []⟩]⟩]) ∧
    pullLeaf (plainWorld [⟨"s", []⟩] ["s"]) "d" ⟨"d", true, false, [], none, []⟩
        ⟨[], false, [], [], []⟩ =
      (.exit 0,
        addLog { (addLog { addLog (⟨[], false, [], [], []⟩ : State)
            (.updating "d") with tempLive := true } (.populatedTemp "d"))
            with tempLive := false } (.droppedTemp "d")) :=
  ⟨rfl, ((claim_C1_cleanup_on_success_only (plainWorld [⟨"s", []⟩] ["s"]) "d"
      ⟨"d", true, false, [], none, []⟩ ⟨[], false, [], [], []⟩
      ⟨["s"], [⟨"s", []⟩]⟩ [] "s" [] ⟨"s", []⟩ rfl rfl rfl rfl).1
    _ rfl).1 rfl⟩

/-! ### Unfolding lemmas for the internal branch of `pull` -/

theorem pull_nodir_eq {w : World} {fuel : Nat} {dirPath : String} {st0 : State}
    (hnode : findDir st0 dirPath = none) :
    pull w (fuel + 1) dirPath st0 =
      (.exit 1, addLog { st0 with visited := st0.visited ++ [dirPath] }
        (.report ("Unable to read directory " ++ dirPath))) := by
  have h2 : findDir { st0 with visited := st0.visited ++ [dirPath] } dirPath =
      none := hnode
  simp [pull, h2]

theorem pull_subdirsfail_eq {w : World} {fuel : Nat} {dirPath : String}
    {st0 : State} {node : DirNode} (hnode : findDir st0 dirPath = some node)
    (hleaf : node.isLeaf = false) (hsub : w.subdirsFails dirPath = true) :
    pull w (fuel + 1) dirPath st0 =
      (.exit 1, addLog { st0 with visited := st0.visited ++ [dirPath] }
        (.report ("Unable to list subdirs of " ++ dirPath))) := by
  have h2 : findDir { st0 with visited := st0.visited ++ [dirPath] } dirPath =
      some node := hnode
  simp [pull, h2, hleaf, hsub]

theorem pull_plain_internal_eq {w : World} {fuel : Nat} {dirPath : String}
    {st0 : State} {node : DirNode} (hnode : findDir st0 dirPath = some node)
    (hleaf : node.isLeaf = false)
    (hinst : node.isInstanceWithLeafSubdirs = false)
    (hsub : w.subdirsFails dirPath = false) :
    pull w (fuel + 1) dirPath st0 =
      pullSubdirsAux (pull w fuel) node.subdirPaths
        { st0 with visited := st0.visited ++ [dirPath],
                   seen := st0.seen ++ [dirPath] } := by
  have h2 : findDir { st0 with visited := st0.visited ++ [dirPath] } dirPath =
      some node := hnode
  simp [pull, h2, hleaf, hinst, hsub]

theorem pull_instance_no_targets {w : World} {fuel : Nat} {dirPath : String}
    {st0 : State} {node : DirNode} (hnode : findDir st0 dirPath = some node)
    (hleaf : node.isLeaf = false)
    (hinst : node.isInstanceWithLeafSubdirs = true)
    (hsub : w.subdirsFails dirPath = false)
    (htarg : w.targetsOf dirPath = []) :
    pull w (fuel + 1) dirPath st0 =
      (.panicked "index out of range",
        { st0 with visited := st0.visited ++ [dirPath] }) := by
  have h2 : findDir { st0 with visited := st0.visited ++ [dirPath] } dirPath =
      some node := hnode
  simp [pull, h2, hleaf, hinst, hsub, htarg]

theorem pull_instance_eq {w : World} {fuel : Nat} {dirPath : String}
    {st0 : State} {node : DirNode} {t : Target} {ts : List Target}
    (hnode : findDir st0 dirPath = some node) (hleaf : node.isLeaf = false)
    (hinst : node.isInstanceWithLeafSubdirs = true)
    (hsub : w.subdirsFails dirPath = false)
    (htarg : w.targetsOf dirPath = t :: ts) :
    pull w (fuel + 1) dirPath st0 =
      (match discoverSchemas w dirPath
          (seenSchemaOf { st0 with visited := st0.visited ++ [dirPath] }
            node.subdirPaths)
          t.schemas { st0 with visited := st0.visited ++ [dirPath] } with
       | (0, st1) =>
         pullSubdirsAux (pull w fuel) node.subdirPaths
           { st1 with seen := st1.seen ++ [dirPath] }
       | (ret, st1) => (.exit ret, st1)) := by
  have h2 : findDir { st0 with visited := st0.visited ++ [dirPath] } dirPath =
      some node := hnode
  simp [pull, h2, hleaf, hinst, hsub, htarg]

theorem findNode_append (p : String) (l1 l2 : List DirNode) :
    findNode p (l1 ++ l2) =
      (match findNode p l1 with
       | some n => some n
       | none => findNode p l2) := by
  induction l1 with
  | nil => rfl
  | cons n r ih =>
    by_cases h : n.path = p
    · simp [findNode, h]
    · simp [findNode, h, ih]

theorem findDir_PopulateSchemaDir_mono {w : World} {sch : Schema}
    {par : String} {st : State} (q : String)
    (h : (findDir st q).isSome = true) :
    (findDir (PopulateSchemaDir w sch par st).2 q).isSome = true := by
  unfold PopulateSchemaDir
  by_cases hf : w.populateSchemaDirFails par sch.name = true
  · simp [hf]
    exact h
  · rw [Bool.not_eq_true] at hf
    cases hx : findDir st (childPath par sch.name) with
    | some n => simp [hf, hx]; exact h
    | none =>
      simp [hf, hx, findDir, findNode_append]
      rw [findNode_map_preserve (fun n =>
        if n.path = par then { n with subdirPaths := n.subdirPaths ++
          [childPath par sch.name] } else n)
        (fun n => by by_cases hc : n.path = par <;> simp [hc]) st.dirs q]
      cases hq : findNode q st.dirs with
      | none => rw [findDir] at h; rw [hq] at h; simp at h
      | some n => simp

theorem discoverSchemas_dirs_mono {w : World} {par : String}
    {seenS : List String} (schemas : List Schema) (st : State) (q : String)
    (h : (findDir st q).isSome = true) :
    (findDir (discoverSchemas w par seenS schemas st).2 q).isSome = true := by
  induction schemas generalizing st with
  | nil => exact h
  | cons sch rest ih =>
    rw [discoverSchemas]
    by_cases hseen : elemStr sch.name seenS = true
    · simp only [hseen, if_true]
      exact ih st h
    · rw [Bool.not_eq_true] at hseen
      simp only [hseen, Bool.false_eq_true, if_false]
      cases hp : PopulateSchemaDir w sch par st with
      | mk ret st' =>
        have hmono : (findDir st' q).isSome = true := by
          have := @findDir_PopulateSchemaDir_mono w sch par st q h
          rw [hp] at this
          exact this
        cases ret with
        | zero => exact ih st' hmono
        | succ c => exact hmono

/-- C7: at an internal node the first non-zero result is propagated and stops
all further work.  (a) If schema discovery at an instance node returns a
non-zero result, `pull` returns exactly that result and state: the seen-set is
not extended and no subdirectory is recursed into.  (b) Discovery never
removes an existing directory, so subdirectories created for other schemas
before the failure are left in place.  (c) If a recursive call for a
subdirectory fails, the loop returns that failure at once, with the failing
call's state: the remaining siblings are not visited. -/
theorem claim_C7_fail_fast :
    (∀ (w : World) (fuel : Nat) (dirPath : String) (st0 : State)
        (node : DirNode) (t : Target) (ts : List Target) (ret : Nat)
        (st1 : State),
      findDir st0 dirPath = some node → node.isLeaf = false →
      node.isInstanceWithLeafSubdirs = true → w.subdirsFails dirPath = false →
      w.targetsOf dirPath = t :: ts →
      discoverSchemas w dirPath
          (seenSchemaOf { st0 with visited := st0.visited ++ [dirPath] }
            node.subdirPaths)
          t.schemas { st0 with visited := st0.visited ++ [dirPath] } =
        (ret, st1) →
      ret ≠ 0 →
      pull w (fuel + 1) dirPath st0 = (.exit ret, st1)) ∧
    (∀ (w : World) (par : String) (seenS : List String)
        (schemas : List Schema) (st : State) (q : String),
      (findDir st q).isSome = true →
      (findDir (discoverSchemas w par seenS schemas st).2 q).isSome = true) ∧
    (∀ (w : World) (fuel : Nat) (q : String) (rest : List String)
        (st st1 : State) (r : Outcome),
      elemStr q st.seen = false → pull w fuel q st = (r, st1) →
      r ≠ .exit 0 →
      pullSubdirs w fuel (q :: rest) st = (r, st1)) := by
  refine ⟨?_, ?_, ?_⟩
  · intro w fuel dirPath st0 node t ts ret st1 hnode hleaf hinst hsub htarg
      hdisc hret
    rw [pull_instance_eq hnode hleaf hinst hsub htarg, hdisc]
    cases ret with
    | zero => exact absurd rfl hret
    | succ c => rfl
  · intro w par seenS schemas st q h
    exact discoverSchemas_dirs_mono schemas st q h
  · intro w fuel q rest st st1 r hq hp hr
    exact pullSubdirsAux_fail rest hq hp hr

theorem claim_C7_fail_fast_witness :
    elemStr "x" ([] : List String) = false ∧
    pull (plainWorld [] []) 1 "x" ⟨[], false, [], [], []⟩ =
      (.exit 1, addLog ⟨[], false, [], ["x"], []⟩
        (.report ("Unable to read directory " ++ "x"))) ∧
    pullSubdirs (plainWorld [] []) 1 ["x", "y"] ⟨[], false, [], [], []⟩ =
      (.exit 1, addLog ⟨[], false, [], ["x"], []⟩
        (.report ("Unable to read directory " ++ "x"))) :=
  ⟨rfl, by decide,
    claim_C7_fail_fast.2.2 (plainWorld [] []) 1 "x" ["y"]
      ⟨[], false, [], [], []⟩
      (addLog ⟨[], false, [], ["x"], []⟩
        (.report ("Unable to read directory " ++ "x")))
      (.exit 1) rfl (by decide) (by decide)⟩

/-! ### Fuel sufficiency and the visit discipline of the seen-set -/

theorem elemStr_true_iff (x : String) (l : List String) :
    elemStr x l = true ↔ x ∈ l := by
  induction l with
  | nil => simp [elemStr]
  | cons y r ih =>
    by_cases h : y = x
    · subst h
      simp [elemStr]
    · simp [elemStr, h, ih, Ne.symm h]

theorem elemStr_false_iff (x : String) (l : List String) :
    elemStr x l = false ↔ x ∉ l := by
  rw [← elemStr_true_iff]
  cases h : elemStr x l <;> simp

theorem elemStr_append_right (x : String) (l e : List String)
    (h : elemStr x l = true) : elemStr x (l ++ e) = true := by
  rw [elemStr_true_iff] at h ⊢
  exact List.mem_append.mpr (Or.inl h)

theorem elemStr_append_self (x : String) (l : List String) :
    elemStr x (l ++ [x]) = true := by
  rw [elemStr_true_iff]
  simp

theorem findNode_mem {p : String} {l : List DirNode} {n : DirNode}
    (h : findNode p l = some n) : n ∈ l := by
  induction l with
  | nil => cases h
  | cons m r ih =>
    by_cases hm : m.path = p
    · rw [findNode, if_pos hm] at h
      cases h
      exact List.mem_cons_self _ _
    · rw [findNode, if_neg hm] at h
      exact List.mem_cons_of_mem _ (ih h)

theorem findNode_none_not_mem {p : String} {l : List DirNode}
    (h : findNode p l = none) : p ∉ l.map DirNode.path := by
  induction l with
  | nil => simp
  | cons m r ih =>
    by_cases hm : m.path = p
    · rw [findNode, if_pos hm] at h
      cases h
    · rw [findNode, if_neg hm] at h
      simp only [List.map_cons, List.mem_cons]
      rintro (hc | hc)
      · exact hm hc.symm
      · exact ih h hc

/-- A node is "unseen internal" when it is not a leaf and its path is not in
the seen-set: the fuel measure counts these. -/
def unseenInternal (seen : List String) (n : DirNode) : Bool :=
  !n.isLeaf && !(elemStr n.path seen)

def mInternal (st : State) : Nat :=
  (st.dirs.filter (unseenInternal st.seen)).length

theorem filter_length_le_of_imp {α : Type} {p q : α → Bool}
    (h : ∀ a, q a = true → p a = true) (l : List α) :
    (l.filter q).length ≤ (l.filter p).length := by
  induction l with
  | nil => exact Nat.le_refl _
  | cons a r ih =>
    rw [List.filter_cons, List.filter_cons]
    cases hq : q a
    · cases hp : p a
      · simpa using ih
      · simp only [if_pos rfl, Bool.false_eq_true, if_false]
        exact ih.trans (by simp)
    · have hp := h a hq
      simp only [hq, hp, if_pos rfl]
      simpa using ih
  

theorem filter_length_lt_of_imp {α : Type} {p q : α → Bool}
    (h : ∀ a, q a = true → p a = true) {l : List α} {a : α} (ha : a ∈ l)
    (hpa : p a = true) (hqa : q a = false) :
    (l.filter q).length < (l.filter p).length := by
  induction l with
  | nil => cases ha
  | cons b r ih =>
    rw [List.filter_cons, List.filter_cons]
    rcases List.mem_cons.mp ha with rfl | ha'
    · simp only [hqa, hpa, if_pos rfl, Bool.false_eq_true, if_false]
      exact Nat.lt_succ_of_le (filter_length_le_of_imp h r)
    · cases hq : q b
      · cases hp : p b
        · simpa using ih ha'
        · simp only [if_pos rfl, Bool.false_eq_true, if_false]
          exact Nat.lt_succ_of_lt (ih ha')
      · have hp := h b hq
        simp only [hq, hp, if_pos rfl]
        simpa using ih ha'

theorem unseenInternal_imp_of_append (seen e : List String) :
    ∀ n, unseenInternal (seen ++ e) n = true → unseenInternal seen n = true := by
  intro n hn
  rw [unseenInternal, Bool.and_eq_true] at hn ⊢
  refine ⟨hn.1, ?_⟩
  rcases hn with ⟨-, h2⟩
  cases hs : elemStr n.path seen
  · simp
  · rw [elemStr_append_right _ _ _ hs] at h2
    cases h2

theorem filter_unseen_map_length (seen : List String) (f : DirNode → DirNode)
    (hf : ∀ n, (f n).path = n.path ∧ (f n).isLeaf = n.isLeaf)
    (l : List DirNode) :
    ((l.map f).filter (unseenInternal seen)).length =
      (l.filter (unseenInternal seen)).length := by
  have hcomp : unseenInternal seen ∘ f = unseenInternal seen := by
    funext n
    simp [unseenInternal, Function.comp, (hf n).1, (hf n).2]
  rw [List.filter_map, hcomp, List.length_map]

theorem mInternal_setFileInDir (st : State) (p tn c : String) :
    mInternal (setFileInDir st p tn c) = mInternal st :=
  filter_unseen_map_length st.seen _
    (fun n => by by_cases h : n.path = p <;> simp [h]) st.dirs

theorem mInternal_removeFileInDir (st : State) (p tn : String) :
    mInternal (removeFileInDir st p tn) = mInternal st :=
  filter_unseen_map_length st.seen _
    (fun n => by by_cases h : n.path = p <;> simp [h]) st.dirs

theorem mInternal_addLog (st : State) (e : Event) :
    mInternal (addLog st e) = mInternal st := rfl

theorem filter_unseen_deleteDirNodes_le (seen : List String) (p : String)
    (l : List DirNode) :
    ((deleteDirNodes p l).filter (unseenInternal seen)).length ≤
      (l.filter (unseenInternal seen)).length := by
  induction l with
  | nil => exact Nat.le_refl _
  | cons n r ih =>
    by_cases h : n.path = p
    · rw [deleteDirNodes, if_pos h, List.filter_cons]
      cases hp : unseenInternal seen n
      · simpa using ih
      · simp only [if_pos rfl]
        exact ih.trans (by simp)
    · rw [deleteDirNodes, if_neg h, List.filter_cons, List.filter_cons]
      have hpred : unseenInternal seen
          { n with subdirPaths := stripPath p n.subdirPaths } =
          unseenInternal seen n := rfl
      rw [hpred]
      cases hp : unseenInternal seen n
      · simpa using ih
      · simp only [if_pos rfl]
        simpa using ih

theorem mInternal_deleteDir_le (st : State) (p : String) :
    mInternal (deleteDir st p) ≤ mInternal st :=
  filter_unseen_deleteDirNodes_le st.seen p st.dirs

theorem mInternal_seen_append_le (st : State) (e : List String) :
    mInternal { st with seen := st.seen ++ e } ≤ mInternal st :=
  filter_length_le_of_imp (unseenInternal_imp_of_append st.seen e) st.dirs

theorem mInternal_mark_lt {st : State} {p : String} {n : DirNode}
    (hnode : findDir st p = some n) (hleaf : n.isLeaf = false)
    (hseen : elemStr p st.seen = false) :
    mInternal { st with seen := st.seen ++ [p] } < mInternal st := by
  refine filter_length_lt_of_imp (unseenInternal_imp_of_append st.seen [p])
    (findNode_mem hnode) ?_ ?_
  · rw [unseenInternal, findDir_path hnode, hleaf, hseen]
    rfl
  · rw [unseenInternal, findDir_path hnode, elemStr_append_self]
    simp

theorem PopulateSchemaDir_flagfail {w : World} {sch : Schema} {par : String}
    (st : State) (hf : w.populateSchemaDirFails par sch.name = true) :
    PopulateSchemaDir w sch par st = (1, st) := by
  simp [PopulateSchemaDir, hf]

theorem PopulateSchemaDir_exists {w : World} {sch : Schema} {par : String}
    (st : State) {n : DirNode}
    (hf : w.populateSchemaDirFails par sch.name = false)
    (hx : findDir st (childPath par sch.name) = some n) :
    PopulateSchemaDir w sch par st = (1, st) := by
  simp [PopulateSchemaDir, hf, hx]

theorem PopulateSchemaDir_ok {w : World} {sch : Schema} {par : String}
    (st : State) (hf : w.populateSchemaDirFails par sch.name = false)
    (hx : findDir st (childPath par sch.name) = none) :
    PopulateSchemaDir w sch par st =
      (0, { st with dirs := st.dirs.map (fun n =>
              if n.path = par then
                { n with subdirPaths := n.subdirPaths ++ [childPath par sch.name] }
              else n)
            ++ [⟨childPath par sch.name, true, false, [], some sch.name,
                  sch.tables⟩] }) := by
  simp [PopulateSchemaDir, hf, hx]

theorem mInternal_PopulateSchemaDir (w : World) (sch : Schema) (par : String)
    (st : State) :
    mInternal (PopulateSchemaDir w sch par st).2 = mInternal st ∧
    (PopulateSchemaDir w sch par st).2.seen = st.seen ∧
    (PopulateSchemaDir w sch par st).2.visited = st.visited := by
  by_cases hf : w.populateSchemaDirFails par sch.name = true
  · rw [PopulateSchemaDir_flagfail st hf]
    exact ⟨rfl, rfl, rfl⟩
  · rw [Bool.not_eq_true] at hf
    cases hx : findDir st (childPath par sch.name) with
    | some n =>
      rw [PopulateSchemaDir_exists st hf hx]
      exact ⟨rfl, rfl, rfl⟩
    | none =>
      rw [PopulateSchemaDir_ok st hf hx]
      refine ⟨?_, rfl, rfl⟩
      show ((st.dirs.map _ ++ [_]).filter (unseenInternal st.seen)).length = _
      rw [List.filter_append, List.length_append,
        filter_unseen_map_length st.seen _
          (fun n => by by_cases hc : n.path = par <;> simp [hc]) st.dirs]
      simp [unseenInternal, mInternal]

theorem discoverSchemas_mono (w : World) (par : String) (seenS : List String) :
    ∀ (schemas : List Schema) (st : State),
      mInternal (discoverSchemas w par seenS schemas st).2 = mInternal st ∧
      (discoverSchemas w par seenS schemas st).2.seen = st.seen ∧
      (discoverSchemas w par seenS schemas st).2.visited = st.visited := by
  intro schemas
  induction schemas with
  | nil => intro st; exact ⟨rfl, rfl, rfl⟩
  | cons sch rest ih =>
    intro st
    rw [discoverSchemas]
    by_cases hseen : elemStr sch.name seenS = true
    · simp only [hseen, if_true]
      exact ih st
    · rw [Bool.not_eq_true] at hseen
      simp only [hseen, Bool.false_eq_true, if_false]
      cases hp : PopulateSchemaDir w sch par st with
      | mk ret st' =>
        have hpop := mInternal_PopulateSchemaDir w sch par st
        rw [hp] at hpop
        cases ret with
        | zero =>
          obtain ⟨h1, h2, h3⟩ := ih st'
          exact ⟨h1.trans hpop.1, h2.trans hpop.2.1, h3.trans hpop.2.2⟩
        | succ c => exact hpop

theorem applyTableDiffs_mInternal (w : World) (dirPath : String)
    (toSchema : Schema) (l : List TableDiff) (st : State) :
    mInternal (applyTableDiffs w dirPath toSchema l st).2 = mInternal st := by
  induction l generalizing st with
  | nil => rfl
  | cons td rest ih =>
    rcases applyTableDiffs_cons_split w dirPath toSchema td st with
      ⟨r, ext, _, _, _, heq⟩ | ⟨tn, c, _, heq⟩ | ⟨tn, _, heq⟩
    · rw [heq rest]
      rfl
    · rw [heq rest, ih, mInternal_addLog, mInternal_setFileInDir]
    · rw [heq rest, ih, mInternal_addLog, mInternal_removeFileInDir]

theorem applyTableDiffs_no_outOfFuel (w : World) (dirPath : String)
    (toSchema : Schema) (l : List TableDiff) (st : State) :
    (applyTableDiffs w dirPath toSchema l st).1 ≠ .outOfFuel := by
  induction l generalizing st with
  | nil => rw [applyTableDiffs_nil]; simp
  | cons td rest ih =>
    rcases applyTableDiffs_cons_split w dirPath toSchema td st with
      ⟨r, ext, _, hout, _, heq⟩ | ⟨tn, c, _, heq⟩ | ⟨tn, _, heq⟩
    · rw [heq rest]; exact hout
    · rw [heq rest]; exact ih _
    · rw [heq rest]; exact ih _

theorem pullLeaf_mono (w : World) (dirPath : String) (node : DirNode)
    (st0 : State) :
    (pullLeaf w dirPath node st0).2.seen = st0.seen ∧
    mInternal (pullLeaf w dirPath node st0).2 ≤ mInternal st0 ∧
    (pullLeaf w dirPath node st0).1 ≠ .outOfFuel := by
  cases htarg : w.targetsOf dirPath with
  | nil =>
    rw [pullLeaf_no_targets node st0 htarg]
    exact ⟨rfl, Nat.le_refl _, by simp⟩
  | cons t ts =>
    cases hsn : t.schemaNames with
    | nil =>
      rw [pullLeaf_no_schemaNames node st0 htarg hsn]
      exact ⟨rfl, Nat.le_refl _, by simp⟩
    | cons sn sns =>
      cases hto : t.Schema sn with
      | none =>
        by_cases hdel : w.deleteDirFails dirPath = true
        · rw [pullLeaf_gone_fail node st0 htarg hsn hto hdel]
          exact ⟨rfl, Nat.le_refl _, by simp⟩
        · rw [Bool.not_eq_true] at hdel
          rw [pullLeaf_gone_ok node st0 htarg hsn hto hdel]
          exact ⟨rfl, mInternal_deleteDir_le (addLog st0 (.updating dirPath))
            dirPath, by simp⟩
      | some toSchema =>
        by_cases hpop : w.populateTempFails dirPath = true
        · rw [pullLeaf_popfail node st0 htarg hsn hto hpop]
          exact ⟨rfl, Nat.le_refl _, by simp⟩
        · rw [Bool.not_eq_true] at hpop
          rw [pullLeaf_main node st0 htarg hsn hto hpop]
          cases happ : applyTableDiffs w dirPath toSchema
              (w.newSchemaDiff ⟨"_skeema_tmp", node.files⟩ toSchema)
              (addLog { addLog st0 (.updating dirPath) with tempLive := true }
                (.populatedTemp dirPath)) with
          | mk r st2 =>
            have hg := (applyTableDiffs_ghost w dirPath toSchema
              (w.newSchemaDiff ⟨"_skeema_tmp", node.files⟩ toSchema)
              (addLog { addLog st0 (.updating dirPath) with tempLive := true }
                (.populatedTemp dirPath))).2.1
            have hm := applyTableDiffs_mInternal w dirPath toSchema
              (w.newSchemaDiff ⟨"_skeema_tmp", node.files⟩ toSchema)
              (addLog { addLog st0 (.updating dirPath) with tempLive := true }
                (.populatedTemp dirPath))
            have ho := applyTableDiffs_no_outOfFuel w dirPath toSchema
              (w.newSchemaDiff ⟨"_skeema_tmp", node.files⟩ toSchema)
              (addLog { addLog st0 (.updating dirPath) with tempLive := true }
                (.populatedTemp dirPath))
            rw [happ] at hg hm ho
            cases r with
            | exit c =>
              cases c with
              | zero =>
                by_cases hdrop : w.dropTempFails dirPath = true
                · simp only [hdrop, if_pos rfl]
                  exact ⟨hg, Nat.le_of_eq hm, by simp⟩
                · simp only [hdrop, Bool.false_eq_true, if_false]
                  exact ⟨hg, Nat.le_of_eq hm, by simp⟩
              | succ c => exact ⟨hg, Nat.le_of_eq hm, by simp⟩
            | panicked m => exact ⟨hg, Nat.le_of_eq hm, by simp⟩
            | outOfFuel => exact absurd rfl ho

/-- Seen-set extension and measure monotonicity of the subdirectory loop,
given them for the recursive call. -/
theorem pullSubdirsAux_mono (recur : String → State → Outcome × State)
    (hrec : ∀ (q : String) (st : State),
      (∃ e, (recur q st).2.seen = st.seen ++ e) ∧
      mInternal (recur q st).2 ≤ mInternal st) :
    ∀ (subs : List String) (st : State),
      (∃ e, (pullSubdirsAux recur subs st).2.seen = st.seen ++ e) ∧
      mInternal (pullSubdirsAux recur subs st).2 ≤ mInternal st := by
  intro subs
  induction subs with
  | nil =>
    intro st
    exact ⟨⟨[], (List.append_nil _).symm⟩, Nat.le_refl _⟩
  | cons q rest ih =>
    intro st
    by_cases hq : elemStr q st.seen = true
    · rw [pullSubdirsAux_skip rest hq]
      exact ih st
    · rw [Bool.not_eq_true] at hq
      cases hp : recur q st with
      | mk r st1 =>
        have h1 := hrec q st
        rw [hp] at h1
        cases r with
        | exit c =>
          cases c with
          | zero =>
            rw [pullSubdirsAux_ok rest hq hp]
            obtain ⟨⟨e1, he1⟩, hm1⟩ := h1
            obtain ⟨⟨e2, he2⟩, hm2⟩ := ih st1
            exact ⟨⟨e1 ++ e2, by rw [he2, he1, List.append_assoc]⟩,
              hm2.trans hm1⟩
          | succ c =>
            rw [pullSubdirsAux_fail rest hq hp (by simp)]
            exact h1
        | panicked m =>
          rw [pullSubdirsAux_fail rest hq hp (by simp)]
          exact h1
        | outOfFuel =>
          rw [pullSubdirsAux_fail rest hq hp (by simp)]
          exact h1

/-- Seen-set extension and measure monotonicity of `pull`. -/
theorem pull_mono (w : World) :
    ∀ (fuel : Nat) (dirPath : String) (st : State),
      (∃ e, (pull w fuel dirPath st).2.seen = st.seen ++ e) ∧
      mInternal (pull w fuel dirPath st).2 ≤ mInternal st := by
  intro fuel
  induction fuel with
  | zero =>
    intro p st
    exact ⟨⟨[], (List.append_nil _).symm⟩, Nat.le_refl _⟩
  | succ fuel ih =>
    intro dirPath st
    cases hnode : findDir st dirPath with
    | none =>
      rw [pull_nodir_eq hnode]
      exact ⟨⟨[], (List.append_nil _).symm⟩, Nat.le_refl _⟩
    | some node =>
      by_cases hleaf : node.isLeaf = true
      · rw [pull_leaf_eq hnode hleaf]
        have h := pullLeaf_mono w dirPath node
          { st with visited := st.visited ++ [dirPath] }
        exact ⟨⟨[], by rw [h.1]; exact (List.append_nil _).symm⟩, h.2.1⟩
      · rw [Bool.not_eq_true] at hleaf
        by_cases hsub : w.subdirsFails dirPath = true
        · rw [pull_subdirsfail_eq hnode hleaf hsub]
          exact ⟨⟨[], (List.append_nil _).symm⟩, Nat.le_refl _⟩
        · rw [Bool.not_eq_true] at hsub
          by_cases hinst : node.isInstanceWithLeafSubdirs = true
          · cases htarg : w.targetsOf dirPath with
            | nil =>
              rw [pull_instance_no_targets hnode hleaf hinst hsub htarg]
              exact ⟨⟨[], (List.append_nil _).symm⟩, Nat.le_refl _⟩
            | cons t ts =>
              rw [pull_instance_eq hnode hleaf hinst hsub htarg]
              cases hdisc : discoverSchemas w dirPath
                  (seenSchemaOf { st with visited := st.visited ++ [dirPath] }
                    node.subdirPaths)
                  t.schemas { st with visited := st.visited ++ [dirPath] } with
              | mk ret st1 =>
                have hdm := discoverSchemas_mono w dirPath
                  (seenSchemaOf { st with visited := st.visited ++ [dirPath] }
                    node.subdirPaths)
                  t.schemas { st with visited := st.visited ++ [dirPath] }
                rw [hdisc] at hdm
                obtain ⟨hdm1, hdm2, hdm3⟩ := hdm
                cases ret with
                | zero =>
                  have hsm := pullSubdirsAux_mono (pull w fuel) (ih)
                    node.subdirPaths { st1 with seen := st1.seen ++ [dirPath] }
                  obtain ⟨⟨e, he⟩, hm⟩ := hsm
                  refine ⟨⟨[dirPath] ++ e, ?_⟩, ?_⟩
                  · rw [he]
                    show st1.seen ++ [dirPath] ++ e = st.seen ++ ([dirPath] ++ e)
                    rw [hdm2, List.append_assoc]
                  · refine hm.trans ?_
                    refine (mInternal_seen_append_le st1 [dirPath]).trans ?_
                    rw [hdm1]
                    exact Nat.le_refl _
                | succ c =>
                  refine ⟨⟨[], ?_⟩, ?_⟩
                  · show st1.seen = st.seen ++ []
                    rw [List.append_nil]
                    exact hdm2
                  · show mInternal st1 ≤ mInternal st
                    exact Nat.le_of_eq hdm1
          · rw [Bool.not_eq_true] at hinst
            rw [pull_plain_internal_eq hnode hleaf hinst hsub]
            have hsm := pullSubdirsAux_mono (pull w fuel) (ih)
              node.subdirPaths
              { st with visited := st.visited ++ [dirPath],
                        seen := st.seen ++ [dirPath] }
            obtain ⟨⟨e, he⟩, hm⟩ := hsm
            refine ⟨⟨[dirPath] ++ e, ?_⟩, ?_⟩
            · rw [he]
              show st.seen ++ [dirPath] ++ e = st.seen ++ ([dirPath] ++ e)
              rw [List.append_assoc]
            · refine hm.trans ?_
              exact mInternal_seen_append_le
                { st with visited := st.visited ++ [dirPath] } [dirPath]

theorem findDir_PopulateSchemaDir_shape {w : World} {sch : Schema}
    {par : String} {st : State} {q : String} {n : DirNode}
    (h : findDir st q = some n) :
    ∃ n', findDir (PopulateSchemaDir w sch par st).2 q = some n' ∧
      n'.path = n.path ∧ n'.isLeaf = n.isLeaf := by
  by_cases hf : w.populateSchemaDirFails par sch.name = true
  · rw [PopulateSchemaDir_flagfail st hf]
    exact ⟨n, h, rfl, rfl⟩
  · rw [Bool.not_eq_true] at hf
    cases hx : findDir st (childPath par sch.name) with
    | some m =>
      rw [PopulateSchemaDir_exists st hf hx]
      exact ⟨n, h, rfl, rfl⟩
    | none =>
      rw [PopulateSchemaDir_ok st hf hx]
      refine ⟨(fun nn => if nn.path = par then
          { nn with subdirPaths := nn.subdirPaths ++ [childPath par sch.name] }
        else nn) n, ?_, ?_, ?_⟩
      · show findNode q (st.dirs.map _ ++ [_]) = _
        rw [findNode_append, findNode_map_preserve _
          (fun nn => by by_cases hc : nn.path = par <;> simp [hc]) _ q]
        rw [show findNode q st.dirs = some n from h]
        rfl
      · by_cases hc : n.path = par <;> simp [hc]
      · by_cases hc : n.path = par <;> simp [hc]

theorem findDir_discoverSchemas_shape {w : World} {par : String}
    {seenS : List String} :
    ∀ (schemas : List Schema) (st : State) (q : String) (n : DirNode),
      findDir st q = some n →
      ∃ n', findDir (discoverSchemas w par seenS schemas st).2 q = some n' ∧
        n'.path = n.path ∧ n'.isLeaf = n.isLeaf := by
  intro schemas
  induction schemas with
  | nil => intro st q n h; exact ⟨n, h, rfl, rfl⟩
  | cons sch rest ih =>
    intro st q n h
    rw [discoverSchemas]
    by_cases hseen : elemStr sch.name seenS = true
    · simp only [hseen, if_true]
      exact ih st q n h
    · rw [Bool.not_eq_true] at hseen
      simp only [hseen, Bool.false_eq_true, if_false]
      cases hp : PopulateSchemaDir w sch par st with
      | mk ret st' =>
        obtain ⟨n', hn', hp1, hp2⟩ :=
          @findDir_PopulateSchemaDir_shape w sch par st q n h
        rw [hp] at hn'
        cases ret with
        | zero =>
          obtain ⟨n'', hn'', hq1, hq2⟩ := ih st' q n' hn'
          exact ⟨n'', hn'', hq1.trans hp1, hq2.trans hp2⟩
        | succ c => exact ⟨n', hn', hp1, hp2⟩

theorem pullSubdirsAux_no_out (recur : String → State → Outcome × State)
    (B : Nat)
    (hmono : ∀ (q : String) (st : State),
      (∃ e, (recur q st).2.seen = st.seen ++ e) ∧
      mInternal (recur q st).2 ≤ mInternal st)
    (hfuel : ∀ (q : String) (st : State),
      elemStr q st.seen = false → mInternal st < B →
      (recur q st).1 ≠ .outOfFuel) :
    ∀ (subs : List String) (st : State), mInternal st < B →
      (pullSubdirsAux recur subs st).1 ≠ .outOfFuel := by
  intro subs
  induction subs with
  | nil =>
    intro st _
    rw [pullSubdirsAux_nil]
    simp
  | cons q rest ih =>
    intro st hB
    by_cases hq : elemStr q st.seen = true
    · rw [pullSubdirsAux_skip rest hq]
      exact ih st hB
    · rw [Bool.not_eq_true] at hq
      cases hp : recur q st with
      | mk r st1 =>
        have hout := hfuel q st hq hB
        rw [hp] at hout
        have hm := (hmono q st).2
        rw [hp] at hm
        cases r with
        | exit c =>
          cases c with
          | zero =>
            rw [pullSubdirsAux_ok rest hq hp]
            exact ih st1 (Nat.lt_of_le_of_lt hm hB)
          | succ c =>
            rw [pullSubdirsAux_fail rest hq hp (by simp)]
            simp
        | panicked m =>
          rw [pullSubdirsAux_fail rest hq hp (by simp)]
          simp
        | outOfFuel => exact absurd rfl hout

theorem pull_no_outOfFuel (w : World) :
    ∀ (fuel : Nat) (dirPath : String) (st : State),
      elemStr dirPath st.seen = false → mInternal st < fuel →
      (pull w fuel dirPath st).1 ≠ .outOfFuel := by
  intro fuel
  induction fuel with
  | zero =>
    intro p st _ hm
    exact absurd hm (Nat.not_lt_zero _)
  | succ fuel ih =>
    intro dirPath st hseen hm
    cases hnode : findDir st dirPath with
    | none =>
      rw [pull_nodir_eq hnode]
      simp
    | some node =>
      by_cases hleaf : node.isLeaf = true
      · rw [pull_leaf_eq hnode hleaf]
        exact (pullLeaf_mono w dirPath node _).2.2
      · rw [Bool.not_eq_true] at hleaf
        by_cases hsub : w.subdirsFails dirPath = true
        · rw [pull_subdirsfail_eq hnode hleaf hsub]
          simp
        · rw [Bool.not_eq_true] at hsub
          by_cases hinst : node.isInstanceWithLeafSubdirs = true
          · cases htarg : w.targetsOf dirPath with
            | nil =>
              rw [pull_instance_no_targets hnode hleaf hinst hsub htarg]
              simp
            | cons t ts =>
              rw [pull_instance_eq hnode hleaf hinst hsub htarg]
              cases hdisc : discoverSchemas w dirPath
                  (seenSchemaOf { st with visited := st.visited ++ [dirPath] }
                    node.subdirPaths)
                  t.schemas { st with visited := st.visited ++ [dirPath] } with
              | mk ret st1 =>
                have hdm := discoverSchemas_mono w dirPath
                  (seenSchemaOf { st with visited := st.visited ++ [dirPath] }
                    node.subdirPaths)
                  t.schemas { st with visited := st.visited ++ [dirPath] }
                rw [hdisc] at hdm
                obtain ⟨hdm1, hdm2, _⟩ := hdm
                cases ret with
                | zero =>
                  have hnodeV : findDir
                      { st with visited := st.visited ++ [dirPath] } dirPath =
                      some node := hnode
                  obtain ⟨n', hn', hp1, hp2⟩ :=
                    findDir_discoverSchemas_shape t.schemas
                      { st with visited := st.visited ++ [dirPath] }
                      dirPath node hnodeV
                  rw [hdisc] at hn'
                  have hseen1 : elemStr dirPath st1.seen = false := by
                    have : st1.seen = st.seen := hdm2
                    rw [this]
                    exact hseen
                  have hlt : mInternal { st1 with seen := st1.seen ++ [dirPath] }
                      < mInternal st1 :=
                    mInternal_mark_lt hn' (by rw [hp2]; exact hleaf) hseen1
                  have hm1 : mInternal st1 = mInternal st := hdm1
                  refine pullSubdirsAux_no_out (pull w fuel) fuel
                    (fun q st' => pull_mono w fuel q st') (ih)
                    node.subdirPaths _ ?_
                  omega
                | succ c => exact fun hcon => nomatch hcon
          · rw [Bool.not_eq_true] at hinst
            rw [pull_plain_internal_eq hnode hleaf hinst hsub]
            have hnodeV : findDir
                { st with visited := st.visited ++ [dirPath],
                          seen := st.seen } dirPath = some node := hnode
            have hlt : mInternal
                { st with visited := st.visited ++ [dirPath],
                          seen := st.seen ++ [dirPath] } <
                mInternal { st with visited := st.visited ++ [dirPath] } := by
              exact @mInternal_mark_lt
                { st with visited := st.visited ++ [dirPath] } dirPath node
                hnode hleaf hseen
            have hm1 : mInternal { st with visited := st.visited ++ [dirPath] }
                = mInternal st := rfl
            refine pullSubdirsAux_no_out (pull w fuel) fuel
              (fun q st' => pull_mono w fuel q st') (ih)
              node.subdirPaths _ ?_
            omega

/-- All directory paths are distinct (resolved canonical paths). -/
def PathsNodup (st : State) : Prop := (st.dirs.map DirNode.path).Nodup

/-- There is an internal (non-leaf) directory node at path `p`. -/
def internalAt (st : State) (p : String) : Prop :=
  ∃ n, n ∈ st.dirs ∧ n.path = p ∧ n.isLeaf = false

/-- Every internal directory has been entered at most once. -/
def VisCount (st : State) : Prop :=
  ∀ p, internalAt st p → st.visited.count p ≤ 1

/-- Every entered internal directory has been marked in the seen-set. -/
def VisSeen (st : State) : Prop :=
  ∀ p, internalAt st p → p ∈ st.visited → elemStr p st.seen = true

theorem findNode_none_forall {p : String} {l : List DirNode}
    (h : findNode p l = none) : ∀ n ∈ l, n.path ≠ p := by
  intro n hn hc
  exact findNode_none_not_mem h (hc ▸ List.mem_map_of_mem DirNode.path hn)

theorem paths_unique {st : State} (h : PathsNodup st) {n m : DirNode}
    (hn : n ∈ st.dirs) (hm : m ∈ st.dirs) (hp : n.path = m.path) : n = m :=
  List.inj_on_of_nodup_map h hn hm hp

theorem internalAt_map_iff (st : State) (f : DirNode → DirNode)
    (hf : ∀ n, (f n).path = n.path ∧ (f n).isLeaf = n.isLeaf) (p : String) :
    internalAt { st with dirs := st.dirs.map f } p ↔ internalAt st p := by
  constructor
  · rintro ⟨n', hn', hp, hl⟩
    obtain ⟨n, hn, rfl⟩ := List.mem_map.mp hn'
    exact ⟨n, hn, (hf n).1.symm.trans hp, (hf n).2.symm.trans hl⟩
  · rintro ⟨n, hn, hp, hl⟩
    exact ⟨f n, List.mem_map_of_mem f hn, (hf n).1.trans hp, (hf n).2.trans hl⟩

theorem PathsNodup_map (st : State) (f : DirNode → DirNode)
    (hf : ∀ n, (f n).path = n.path) (h : PathsNodup st) :
    PathsNodup { st with dirs := st.dirs.map f } := by
  show ((st.dirs.map f).map DirNode.path).Nodup
  rw [List.map_map]
  have hcomp : DirNode.path ∘ f = DirNode.path := funext hf
  rw [hcomp]
  exact h

theorem mem_deleteDirNodes_shape {p0 : String} {l : List DirNode} {n' : DirNode}
    (h : n' ∈ deleteDirNodes p0 l) :
    ∃ n ∈ l, n'.path = n.path ∧ n'.isLeaf = n.isLeaf := by
  induction l with
  | nil => cases h
  | cons n r ih =>
    by_cases hp : n.path = p0
    · rw [deleteDirNodes, if_pos hp] at h
      obtain ⟨m, hm, h1, h2⟩ := ih h
      exact ⟨m, List.mem_cons_of_mem _ hm, h1, h2⟩
    · rw [deleteDirNodes, if_neg hp] at h
      rcases List.mem_cons.mp h with rfl | h'
      · exact ⟨n, List.mem_cons_self _ _, rfl, rfl⟩
      · obtain ⟨m, hm, h1, h2⟩ := ih h'
        exact ⟨m, List.mem_cons_of_mem _ hm, h1, h2⟩

theorem mem_deleteDirNodes_of {p0 : String} {l : List DirNode} {n : DirNode}
    (hn : n ∈ l) (hp : n.path ≠ p0) :
    { n with subdirPaths := stripPath p0 n.subdirPaths } ∈
      deleteDirNodes p0 l := by
  induction l with
  | nil => cases hn
  | cons m r ih =>
    rcases List.mem_cons.mp hn with rfl | hn'
    · rw [deleteDirNodes, if_neg hp]
      exact List.mem_cons_self _ _
    · by_cases hm : m.path = p0
      · rw [deleteDirNodes, if_pos hm]
        exact ih hn'
      · rw [deleteDirNodes, if_neg hm]
        exact List.mem_cons_of_mem _ (ih hn')

theorem internalAt_deleteDir_iff {st : State} {p0 : String} {node : DirNode}
    (hnodup : PathsNodup st) (hnode : findDir st p0 = some node)
    (hleaf : node.isLeaf = true) (p : String) :
    internalAt (deleteDir st p0) p ↔ internalAt st p := by
  constructor
  · rintro ⟨n', hn', hp, hl⟩
    obtain ⟨n, hn, h1, h2⟩ := mem_deleteDirNodes_shape hn'
    exact ⟨n, hn, h1.symm.trans hp, h2.symm.trans hl⟩
  · rintro ⟨n, hn, hp, hl⟩
    by_cases hpp : n.path = p0
    · have heq : n = node := paths_unique hnodup hn (findNode_mem hnode)
        (by rw [hpp, findDir_path hnode])
      rw [heq, hleaf] at hl
      cases hl
    · exact ⟨{ n with subdirPaths := stripPath p0 n.subdirPaths },
        mem_deleteDirNodes_of hn hpp, hp, hl⟩

theorem PathsNodup_deleteDir (st : State) (p0 : String) (h : PathsNodup st) :
    PathsNodup (deleteDir st p0) := by
  show ((deleteDirNodes p0 st.dirs).map DirNode.path).Nodup
  have hsub : List.Sublist ((deleteDirNodes p0 st.dirs).map DirNode.path)
      (st.dirs.map DirNode.path) := by
    clear h
    induction st.dirs with
    | nil => exact List.Sublist.refl _
    | cons n r ih =>
      by_cases hp : n.path = p0
      · rw [deleteDirNodes, if_pos hp, List.map_cons]
        exact List.Sublist.cons _ ih
      · rw [deleteDirNodes, if_neg hp, List.map_cons, List.map_cons]
        exact List.Sublist.cons₂ _ ih
  exact List.Nodup.sublist hsub h

theorem internalAt_PopulateSchemaDir_iff (w : World) (sch : Schema)
    (par : String) (st : State) (p : String) :
    internalAt (PopulateSchemaDir w sch par st).2 p ↔ internalAt st p := by
  by_cases hf : w.populateSchemaDirFails par sch.name = true
  · rw [PopulateSchemaDir_flagfail st hf]
  · rw [Bool.not_eq_true] at hf
    cases hx : findDir st (childPath par sch.name) with
    | some m => rw [PopulateSchemaDir_exists st hf hx]
    | none =>
      rw [PopulateSchemaDir_ok st hf hx]
      constructor
      · rintro ⟨n', hn', hp, hl⟩
        rcases List.mem_append.mp hn' with hmap | hnew
        · obtain ⟨n, hn, rfl⟩ := List.mem_map.mp hmap
          by_cases hc : n.path = par
          · refine ⟨n, hn, ?_, ?_⟩
            · simpa [hc] using hp
            · simpa [hc] using hl
          · refine ⟨n, hn, ?_, ?_⟩
            · simpa [hc] using hp
            · simpa [hc] using hl
        · rw [List.mem_singleton] at hnew
          rw [hnew] at hl
          cases hl
      · rintro ⟨n, hn, hp, hl⟩
        refine ⟨(fun nn => if nn.path = par then
            { nn with subdirPaths := nn.subdirPaths ++ [childPath par sch.name] }
          else nn) n,
          List.mem_append.mpr (Or.inl (List.mem_map_of_mem _ hn)), ?_, ?_⟩
        · show (if n.path = par then
              { n with subdirPaths := n.subdirPaths ++ [childPath par sch.name] }
            else n).path = p
          by_cases hc : n.path = par
          · rw [if_pos hc]
            exact hp
          · rw [if_neg hc]
            exact hp
        · show (if n.path = par then
              { n with subdirPaths := n.subdirPaths ++ [childPath par sch.name] }
            else n).isLeaf = false
          by_cases hc : n.path = par
          · rw [if_pos hc]
            exact hl
          · rw [if_neg hc]
            exact hl

theorem PathsNodup_PopulateSchemaDir (w : World) (sch : Schema) (par : String)
    (st : State) (h : PathsNodup st) :
    PathsNodup (PopulateSchemaDir w sch par st).2 := by
  by_cases hf : w.populateSchemaDirFails par sch.name = true
  · rw [PopulateSchemaDir_flagfail st hf]
    exact h
  · rw [Bool.not_eq_true] at hf
    cases hx : findDir st (childPath par sch.name) with
    | some m =>
      rw [PopulateSchemaDir_exists st hf hx]
      exact h
    | none =>
      rw [PopulateSchemaDir_ok st hf hx]
      show ((st.dirs.map _ ++ [_]).map DirNode.path).Nodup
      rw [List.map_append, List.map_map]
      have hcomp : DirNode.path ∘ (fun nn => if nn.path = par then
          { nn with subdirPaths := nn.subdirPaths ++ [childPath par sch.name] }
        else nn) = DirNode.path := by
        funext nn
        by_cases hc : nn.path = par <;> simp [hc, Function.comp]
      rw [hcomp]
      rw [List.nodup_append]
      refine ⟨h, List.nodup_singleton _, ?_⟩
      intro x hx1 hx2
      rw [List.map_singleton, List.mem_singleton] at hx2
      subst hx2
      exact findNode_none_not_mem hx hx1

theorem internalAt_discoverSchemas_iff (w : World) (par : String)
    (seenS : List String) :
    ∀ (schemas : List Schema) (st : State) (p : String),
      internalAt (discoverSchemas w par seenS schemas st).2 p ↔
        internalAt st p := by
  intro schemas
  induction schemas with
  | nil => intro st p; exact Iff.rfl
  | cons sch rest ih =>
    intro st p
    rw [discoverSchemas]
    by_cases hseen : elemStr sch.name seenS = true
    · simp only [hseen, if_true]
      exact ih st p
    · rw [Bool.not_eq_true] at hseen
      simp only [hseen, Bool.false_eq_true, if_false]
      cases hp : PopulateSchemaDir w sch par st with
      | mk ret st' =>
        have hiff := internalAt_PopulateSchemaDir_iff w sch par st p
        rw [hp] at hiff
        cases ret with
        | zero => exact (ih st' p).trans hiff
        | succ c => exact hiff

theorem PathsNodup_discoverSchemas (w : World) (par : String)
    (seenS : List String) :
    ∀ (schemas : List Schema) (st : State), PathsNodup st →
      PathsNodup (discoverSchemas w par seenS schemas st).2 := by
  intro schemas
  induction schemas with
  | nil => intro st h; exact h
  | cons sch rest ih =>
    intro st h
    rw [discoverSchemas]
    by_cases hseen : elemStr sch.name seenS = true
    · simp only [hseen, if_true]
      exact ih st h
    · rw [Bool.not_eq_true] at hseen
      simp only [hseen, Bool.false_eq_true, if_false]
      cases hp : PopulateSchemaDir w sch par st with
      | mk ret st' =>
        have hnd := PathsNodup_PopulateSchemaDir w sch par st h
        rw [hp] at hnd
        cases ret with
        | zero => exact ih st' hnd
        | succ c => exact hnd

theorem applyTableDiffs_shape (w : World) (dirPath : String)
    (toSchema : Schema) (l : List TableDiff) (st : State) :
    (∀ p, internalAt (applyTableDiffs w dirPath toSchema l st).2 p ↔
      internalAt st p) ∧
    (PathsNodup st → PathsNodup (applyTableDiffs w dirPath toSchema l st).2) := by
  induction l generalizing st with
  | nil => exact ⟨fun p => Iff.rfl, fun h => h⟩
  | cons td rest ih =>
    rcases applyTableDiffs_cons_split w dirPath toSchema td st with
      ⟨r, ext, _, _, _, heq⟩ | ⟨tn, c, _, heq⟩ | ⟨tn, _, heq⟩
    · rw [heq rest]
      exact ⟨fun p => Iff.rfl, fun h => h⟩
    · rw [heq rest]
      have hop := internalAt_map_iff st
        (fun n => if n.path = dirPath then
          { n with files := setEntry tn c n.files } else n)
        (fun n => by by_cases hc : n.path = dirPath <;> simp [hc])
      have hnd := PathsNodup_map st
        (fun n => if n.path = dirPath then
          { n with files := setEntry tn c n.files } else n)
        (fun n => by by_cases hc : n.path = dirPath <;> simp [hc])
      refine ⟨fun p => ((ih _).1 p).trans (hop p), fun h => (ih _).2 (hnd h)⟩
    · rw [heq rest]
      have hop := internalAt_map_iff st
        (fun n => if n.path = dirPath then
          { n with files := removeEntry tn n.files } else n)
        (fun n => by by_cases hc : n.path = dirPath <;> simp [hc])
      have hnd := PathsNodup_map st
        (fun n => if n.path = dirPath then
          { n with files := removeEntry tn n.files } else n)
        (fun n => by by_cases hc : n.path = dirPath <;> simp [hc])
      refine ⟨fun p => ((ih _).1 p).trans (hop p), fun h => (ih _).2 (hnd h)⟩

theorem pullLeaf_shape {w : World} {dirPath : String} {node : DirNode}
    (st0 : State) (hnode : findDir st0 dirPath = some node)
    (hleaf : node.isLeaf = true) (hnodup : PathsNodup st0) :
    (∀ p, internalAt (pullLeaf w dirPath node st0).2 p ↔ internalAt st0 p) ∧
    PathsNodup (pullLeaf w dirPath node st0).2 ∧
    (pullLeaf w dirPath node st0).2.visited = st0.visited := by
  cases htarg : w.targetsOf dirPath with
  | nil =>
    rw [pullLeaf_no_targets node st0 htarg]
    exact ⟨fun p => Iff.rfl, hnodup, rfl⟩
  | cons t ts =>
    cases hsn : t.schemaNames with
    | nil =>
      rw [pullLeaf_no_schemaNames node st0 htarg hsn]
      exact ⟨fun p => Iff.rfl, hnodup, rfl⟩
    | cons sn sns =>
      cases hto : t.Schema sn with
      | none =>
        by_cases hdel : w.deleteDirFails dirPath = true
        · rw [pullLeaf_gone_fail node st0 htarg hsn hto hdel]
          exact ⟨fun p => Iff.rfl, hnodup, rfl⟩
        · rw [Bool.not_eq_true] at hdel
          rw [pullLeaf_gone_ok node st0 htarg hsn hto hdel]
          have hnode' : findDir (addLog st0 (.updating dirPath)) dirPath =
              some node := hnode
          have hnodup' : PathsNodup (addLog st0 (.updating dirPath)) := hnodup
          refine ⟨?_, ?_, rfl⟩
          · intro p
            exact internalAt_deleteDir_iff hnodup' hnode' hleaf p
          · exact PathsNodup_deleteDir _ dirPath hnodup'
      | some toSchema =>
        by_cases hpop : w.populateTempFails dirPath = true
        · rw [pullLeaf_popfail node st0 htarg hsn hto hpop]
          exact ⟨fun p => Iff.rfl, hnodup, rfl⟩
        · rw [Bool.not_eq_true] at hpop
          rw [pullLeaf_main node st0 htarg hsn hto hpop]
          cases happ : applyTableDiffs w dirPath toSchema
              (w.newSchemaDiff ⟨"_skeema_tmp", node.files⟩ toSchema)
              (addLog { addLog st0 (.updating dirPath) with tempLive := true }
                (.populatedTemp dirPath)) with
          | mk r st2 =>
            have hsh := applyTableDiffs_shape w dirPath toSchema
              (w.newSchemaDiff ⟨"_skeema_tmp", node.files⟩ toSchema)
              (addLog { addLog st0 (.updating dirPath) with tempLive := true }
                (.populatedTemp dirPath))
            have hgv := (applyTableDiffs_ghost w dirPath toSchema
              (w.newSchemaDiff ⟨"_skeema_tmp", node.files⟩ toSchema)
              (addLog { addLog st0 (.updating dirPath) with tempLive := true }
                (.populatedTemp dirPath))).2.2
            rw [happ] at hsh hgv
            have hiff : ∀ p, internalAt st2 p ↔ internalAt st0 p := hsh.1
            have hnd : PathsNodup st2 := hsh.2 hnodup
            have hv : st2.visited = st0.visited := hgv
            cases r with
            | exit c =>
              cases c with
              | zero =>
                by_cases hdrop : w.dropTempFails dirPath = true
                · simp only [hdrop, if_pos rfl]
                  exact ⟨hiff, hnd, hv⟩
                · simp only [hdrop, Bool.false_eq_true, if_false]
                  exact ⟨hiff, hnd, hv⟩
              | succ c => exact ⟨hiff, hnd, hv⟩
            | panicked m => exact ⟨hiff, hnd, hv⟩
            | outOfFuel => exact ⟨hiff, hnd, hv⟩

theorem vis_entry_not_internal {st : State} {dirPath : String}
    (hni : ¬ internalAt st dirPath) (hvc : VisCount st) (hvs : VisSeen st) :
    VisCount { st with visited := st.visited ++ [dirPath] } ∧
    VisSeen { st with visited := st.visited ++ [dirPath] } := by
  constructor
  · intro p hp
    have hp' : internalAt st p := hp
    have hne : p ≠ dirPath := fun hc => hni (hc ▸ hp')
    show (st.visited ++ [dirPath]).count p ≤ 1
    rw [List.count_append]
    have h0 : List.count p [dirPath] = 0 := by simp [hne]
    have h1 := hvc p hp'
    omega
  · intro p hp hmem
    have hp' : internalAt st p := hp
    have hne : p ≠ dirPath := fun hc => hni (hc ▸ hp')
    rcases List.mem_append.mp hmem with h1 | h2
    · exact hvs p hp' h1
    · rw [List.mem_singleton] at h2
      exact absurd h2 hne

theorem vis_entry_internal {st : State} {dirPath : String} {node : DirNode}
    (hnode : findDir st dirPath = some node) (hnodup : PathsNodup st)
    (hseen : elemStr dirPath st.seen = false) (hvc : VisCount st)
    (hvs : VisSeen st) :
    VisCount { st with visited := st.visited ++ [dirPath] } := by
  intro p hp
  have hp' : internalAt st p := hp
  show (st.visited ++ [dirPath]).count p ≤ 1
  rw [List.count_append]
  by_cases hpe : p = dirPath
  · subst hpe
    have hnot : p ∉ st.visited := by
      intro hmem
      have := hvs p hp' hmem
      rw [hseen] at this
      cases this
    rw [List.count_eq_zero.mpr hnot]
    simp
  · have h0 : List.count p [dirPath] = 0 := by simp [hpe]
    have h1 := hvc p hp'
    omega

theorem pullSubdirsAuxVis (recur : String → State → Outcome × State)
    (hrec : ∀ (q : String) (st : State),
      elemStr q st.seen = false → PathsNodup st → VisCount st → VisSeen st →
      PathsNodup (recur q st).2 ∧ VisCount (recur q st).2 ∧
      ((recur q st).1 = .exit 0 → VisSeen (recur q st).2) ∧
      (∀ p, internalAt st p → internalAt (recur q st).2 p)) :
    ∀ (subs : List String) (st : State),
      PathsNodup st → VisCount st → VisSeen st →
      PathsNodup (pullSubdirsAux recur subs st).2 ∧
      VisCount (pullSubdirsAux recur subs st).2 ∧
      ((pullSubdirsAux recur subs st).1 = .exit 0 →
        VisSeen (pullSubdirsAux recur subs st).2) ∧
      (∀ p, internalAt st p →
        internalAt (pullSubdirsAux recur subs st).2 p) := by
  intro subs
  induction subs with
  | nil =>
    intro st h1 h2 h3
    rw [pullSubdirsAux_nil]
    exact ⟨h1, h2, fun _ => h3, fun p hp => hp⟩
  | cons q rest ih =>
    intro st h1 h2 h3
    by_cases hq : elemStr q st.seen = true
    · rw [pullSubdirsAux_skip rest hq]
      exact ih st h1 h2 h3
    · rw [Bool.not_eq_true] at hq
      cases hp : recur q st with
      | mk r st1 =>
        have hr := hrec q st hq h1 h2 h3
        rw [hp] at hr
        obtain ⟨hr1, hr2, hr3, hr4⟩ := hr
        cases r with
        | exit c =>
          cases c with
          | zero =>
            rw [pullSubdirsAux_ok rest hq hp]
            have := ih st1 hr1 hr2 (hr3 rfl)
            exact ⟨this.1, this.2.1, this.2.2.1,
              fun p hpp => this.2.2.2 p (hr4 p hpp)⟩
          | succ c =>
            rw [pullSubdirsAux_fail rest hq hp (by simp)]
            exact ⟨hr1, hr2, by simp, hr4⟩
        | panicked m =>
          rw [pullSubdirsAux_fail rest hq hp (by simp)]
          exact ⟨hr1, hr2, by simp, hr4⟩
        | outOfFuel =>
          rw [pullSubdirsAux_fail rest hq hp (by simp)]
          exact ⟨hr1, hr2, by simp, hr4⟩

theorem pullVis (w : World) :
    ∀ (fuel : Nat) (dirPath : String) (st : State),
      elemStr dirPath st.seen = false → PathsNodup st → VisCount st →
      VisSeen st →
      PathsNodup (pull w fuel dirPath st).2 ∧
      VisCount (pull w fuel dirPath st).2 ∧
      ((pull w fuel dirPath st).1 = .exit 0 →
        VisSeen (pull w fuel dirPath st).2) ∧
      (∀ p, internalAt st p → internalAt (pull w fuel dirPath st).2 p) := by
  intro fuel
  induction fuel with
  | zero =>
    intro dirPath st hseen h1 h2 h3
    exact ⟨h1, h2, fun _ => h3, fun p hp => hp⟩
  | succ fuel ih =>
    intro dirPath st hseen h1 h2 h3
    cases hnode : findDir st dirPath with
    | none =>
      rw [pull_nodir_eq hnode]
      have hni : ¬ internalAt st dirPath := by
        rintro ⟨n, hn, hpn, -⟩
        exact findNode_none_forall hnode n hn hpn
      have hv := vis_entry_not_internal hni h2 h3
      exact ⟨h1, hv.1, fun _ => hv.2, fun p hp => hp⟩
    | some node =>
      by_cases hleaf : node.isLeaf = true
      · rw [pull_leaf_eq hnode hleaf]
        have hni : ¬ internalAt st dirPath := by
          rintro ⟨n, hn, hpn, hnl⟩
          have : n = node := paths_unique h1 hn (findNode_mem hnode)
            (by rw [hpn, findDir_path hnode])
          rw [this, hleaf] at hnl
          cases hnl
        have hv := vis_entry_not_internal hni h2 h3
        have hnodeV : findDir { st with visited := st.visited ++ [dirPath] }
            dirPath = some node := hnode
        have hnodupV : PathsNodup
            { st with visited := st.visited ++ [dirPath] } := h1
        obtain ⟨hiff, hnd, hvis⟩ := pullLeaf_shape (w := w)
          { st with visited := st.visited ++ [dirPath] } hnodeV hleaf hnodupV
        have hgseen := (pullLeaf_mono w dirPath node
          { st with visited := st.visited ++ [dirPath] }).1
        refine ⟨hnd, ?_, ?_, ?_⟩
        · intro p hp
          show (pullLeaf w dirPath node _).2.visited.count p ≤ 1
          rw [hvis]
          exact hv.1 p ((hiff p).mp hp)
        · intro _
          intro p hp hmem
          rw [hvis] at hmem
          rw [hgseen]
          exact hv.2 p ((hiff p).mp hp) hmem
        · intro p hp
          exact (hiff p).mpr hp
      · rw [Bool.not_eq_true] at hleaf
        have hint : internalAt st dirPath :=
          ⟨node, findNode_mem hnode, findDir_path hnode, hleaf⟩
        have hvcV : VisCount { st with visited := st.visited ++ [dirPath] } :=
          vis_entry_internal hnode h1 hseen h2 h3
        by_cases hsub : w.subdirsFails dirPath = true
        · rw [pull_subdirsfail_eq hnode hleaf hsub]
          exact ⟨h1, hvcV, by simp, fun p hp => hp⟩
        · rw [Bool.not_eq_true] at hsub
          by_cases hinst : node.isInstanceWithLeafSubdirs = true
          · cases htarg : w.targetsOf dirPath with
            | nil =>
              rw [pull_instance_no_targets hnode hleaf hinst hsub htarg]
              exact ⟨h1, hvcV, by simp, fun p hp => hp⟩
            | cons t ts =>
              rw [pull_instance_eq hnode hleaf hinst hsub htarg]
              cases hdisc : discoverSchemas w dirPath
                  (seenSchemaOf { st with visited := st.visited ++ [dirPath] }
                    node.subdirPaths)
                  t.schemas { st with visited := st.visited ++ [dirPath] } with
              | mk ret st1 =>
                have hdm := discoverSchemas_mono w dirPath
                  (seenSchemaOf { st with visited := st.visited ++ [dirPath] }
                    node.subdirPaths)
                  t.schemas { st with visited := st.visited ++ [dirPath] }
                have hdiff := internalAt_discoverSchemas_iff w dirPath
                  (seenSchemaOf { st with visited := st.visited ++ [dirPath] }
                    node.subdirPaths)
                  t.schemas { st with visited := st.visited ++ [dirPath] }
                have hdnd := PathsNodup_discoverSchemas w dirPath
                  (seenSchemaOf { st with visited := st.visited ++ [dirPath] }
                    node.subdirPaths)
                  t.schemas { st with visited := st.visited ++ [dirPath] }
                  (by exact h1)
                rw [hdisc] at hdm hdiff hdnd
                obtain ⟨hdm1, hdm2, hdm3⟩ := hdm
                have hvc1 : VisCount st1 := by
                  intro p hp
                  rw [hdm3]
                  exact hvcV p ((hdiff p).mp hp)
                cases ret with
                | zero =>
                  have hvcM : VisCount
                      { st1 with seen := st1.seen ++ [dirPath] } := hvc1
                  have hvsM : VisSeen
                      { st1 with seen := st1.seen ++ [dirPath] } := by
                    intro p hp hmem
                    have hp1 : internalAt st1 p := hp
                    have hpst : internalAt st p := (hdiff p).mp hp1
                    have hmem1 : p ∈ st1.visited := hmem
                    rw [hdm3] at hmem1
                    show elemStr p (st1.seen ++ [dirPath]) = true
                    rcases List.mem_append.mp hmem1 with hm1 | hm2
                    · have := h3 p hpst hm1
                      rw [hdm2]
                      exact elemStr_append_right _ _ _ this
                    · rw [List.mem_singleton] at hm2
                      subst hm2
                      exact elemStr_append_self _ _
                  have hsubvis := pullSubdirsAuxVis (pull w fuel) (ih)
                    node.subdirPaths { st1 with seen := st1.seen ++ [dirPath] }
                    (by exact hdnd) hvcM hvsM
                  refine ⟨hsubvis.1, hsubvis.2.1, hsubvis.2.2.1, ?_⟩
                  intro p hp
                  exact hsubvis.2.2.2 p ((hdiff p).mpr hp)
                | succ c =>
                  refine ⟨hdnd, hvc1, ?_, fun p hp => (hdiff p).mpr hp⟩
                  intro hcon
                  have hcon' : Outcome.exit (c + 1) = Outcome.exit 0 := hcon
                  simp at hcon'
          · rw [Bool.not_eq_true] at hinst
            rw [pull_plain_internal_eq hnode hleaf hinst hsub]
            have hvsM : VisSeen
                { st with visited := st.visited ++ [dirPath],
                          seen := st.seen ++ [dirPath] } := by
              intro p hp hmem
              have hpst : internalAt st p := hp
              rcases List.mem_append.mp hmem with hm1 | hm2
              · exact elemStr_append_right _ _ _ (h3 p hpst hm1)
              · rw [List.mem_singleton] at hm2
                subst hm2
                exact elemStr_append_self _ _
            have hsubvis := pullSubdirsAuxVis (pull w fuel) (ih)
              node.subdirPaths
              { st with visited := st.visited ++ [dirPath],
                        seen := st.seen ++ [dirPath] }
              (by exact h1) (by exact hvcV) hvsM
            exact ⟨hsubvis.1, hsubvis.2.1, hsubvis.2.2.1,
              fun p hp => hsubvis.2.2.2 p hp⟩

/-- A world and a tree in which two directory entries of the root resolve to
the same canonical leaf path (two symbolic links to one directory). -/
def twoLinkWorld : World := plainWorld [⟨"s", []⟩] ["s"]

def twoLinkState : State :=
  ⟨[⟨"/r", false, false, ["/x", "/x"], none, []⟩,
    ⟨"/x", true, false, [], none, []⟩], false, [], [], []⟩

/-- C2 counterexample: the run succeeds, but the leaf directory `/x`,
reachable through two entries that resolve to the same canonical path, is
visited twice — only internal directories are recorded in the seen-set
(line 146 sits in the non-leaf branch), so "visits each physical directory at
most once" fails for leaf directories. -/
theorem claim_C2_cex :
    (PullCommand twoLinkWorld twoLinkState "/r").1 = .exit 0 ∧
    (PullCommand twoLinkWorld twoLinkState "/r").2.visited.count "/x" = 2 :=
  ⟨by decide, by decide⟩

/-- C2 (amended): for every directory tree — including trees whose
symbolic-link entries resolve to an ancestor or to a shared directory —
`PullCommand` terminates (the chosen fuel is never exhausted), and every
internal directory is visited at most once per top-level invocation, because
the seen-set is keyed by the resolved canonical path and an internal
directory is marked before its subdirectories are walked.  Leaf directories
are never added to the seen-set, so a leaf reachable via several entries that
resolve to the same canonical path may be visited more than once. -/
theorem claim_C2_terminates_internal_once :
    (∀ (w : World) (st : State) (root : String),
      (PullCommand w st root).1 ≠ .outOfFuel) ∧
    (∀ (w : World) (st : State) (root p : String),
      PathsNodup st → internalAt st p →
      (PullCommand w st root).2.visited.count p ≤ 1) := by
  constructor
  · intro w st root
    apply pull_no_outOfFuel
    · show elemStr root [] = false
      rfl
    · show mInternal { st with seen := [], visited := [] } < st.dirs.length + 1
      exact Nat.lt_succ_of_le (List.length_filter_le _ _)
  · intro w st root p hnodup hint
    have h := pullVis w (st.dirs.length + 1) root
      { st with seen := [], visited := [] }
      (by rfl) (by exact hnodup)
      (fun q hq => by simp)
      (fun q hq hmem => absurd hmem (List.not_mem_nil q))
    exact h.2.1 p (h.2.2.2 p (by exact hint))

theorem claim_C2_terminates_internal_once_witness :
    PathsNodup twoLinkState ∧
    (PullCommand twoLinkWorld twoLinkState "/r").2.visited.count "/r" ≤ 1 :=
  ⟨by show (twoLinkState.dirs.map DirNode.path).Nodup; decide,
    claim_C2_terminates_internal_once.2 twoLinkWorld twoLinkState "/r" "/r"
      (by show (twoLinkState.dirs.map DirNode.path).Nodup; decide)
      ⟨⟨"/r", false, false, ["/x", "/x"], none, []⟩, by decide, rfl, rfl⟩⟩

/-! ### Idempotence: cleanliness, reachability, and the second run -/

/-- A leaf directory is clean when its declared schema resolves and the diff
engine finds no difference between its staged files and the live schema. -/
def cleanLeaf (w : World) (n : DirNode) : Prop :=
  ∃ t ts sn sns s, w.targetsOf n.path = t :: ts ∧ t.schemaNames = sn :: sns ∧
    Target.Schema t sn = some s ∧
    w.newSchemaDiff ⟨"_skeema_tmp", n.files⟩ s = []

/-- An instance directory is clean when every live schema is represented by
some subdirectory declaring its name. -/
def cleanInstance (w : World) (dirs : List DirNode) (n : DirNode) : Prop :=
  ∃ t ts, w.targetsOf n.path = t :: ts ∧
    ∀ s ∈ t.schemas, ∃ r, r ∈ n.subdirPaths ∧
      ∃ m, findNode r dirs = some m ∧ m.schemaField = some s.name

def cleanNode (w : World) (dirs : List DirNode) (n : DirNode) : Prop :=
  if n.isLeaf = true then cleanLeaf w n
  else if n.isInstanceWithLeafSubdirs = true then cleanInstance w dirs n
  else True

def CleanAtL (w : World) (dirs : List DirNode) (p : String) : Prop :=
  ∀ n, findNode p dirs = some n → cleanNode w dirs n

/-- Reachability along subdirectory listings, through internal nodes. -/
inductive ReachesL (dirs : List DirNode) (root : String) : String → Prop where
  | base : ReachesL dirs root root
  | step {p q : String} {n : DirNode} (hp : ReachesL dirs root p)
      (hn : findNode p dirs = some n) (hleaf : n.isLeaf = false)
      (hq : q ∈ n.subdirPaths) : ReachesL dirs root q

def ReachCleanL (w : World) (dirs : List DirNode) (root : String) : Prop :=
  ∀ p, ReachesL dirs root p → CleanAtL w dirs p

theorem mem_seenSchemaOf {st : State} {subdirs : List String} {nm : String}
    (r : String) (hr : r ∈ subdirs) {m : DirNode}
    (hm : findDir st r = some m) (hf : m.schemaField = some nm) :
    elemStr nm (seenSchemaOf st subdirs) = true := by
  rw [elemStr_true_iff]
  unfold seenSchemaOf
  refine List.mem_filterMap.mpr ⟨r, hr, ?_⟩
  rw [hm]
  simpa using hf

theorem discoverSchemas_covered {w : World} {par : String}
    {seenS : List String} :
    ∀ (schemas : List Schema) (st : State),
      (∀ s ∈ schemas, elemStr s.name seenS = true) →
      discoverSchemas w par seenS schemas st = (0, st) := by
  intro schemas
  induction schemas with
  | nil => intro st h; rfl
  | cons sch rest ih =>
    intro st h
    rw [discoverSchemas, if_pos (h sch (List.mem_cons_self _ _))]
    exact ih st (fun s hs => h s (List.mem_cons_of_mem _ hs))

theorem pullSubdirsAux_dirs_frozen (recur : String → State → Outcome × State)
    (R : String → Prop) (dirs0 : List DirNode)
    (hrec : ∀ (q : String) (st' : State), R q → st'.dirs = dirs0 →
      (recur q st').2.dirs = dirs0) :
    ∀ (subs : List String) (st : State), (∀ q ∈ subs, R q) →
      st.dirs = dirs0 →
      (pullSubdirsAux recur subs st).2.dirs = dirs0 := by
  intro subs
  induction subs with
  | nil => intro st _ h; exact h
  | cons q rest ih =>
    intro st hR hdirs
    by_cases hq : elemStr q st.seen = true
    · rw [pullSubdirsAux_skip rest hq]
      exact ih st (fun x hx => hR x (List.mem_cons_of_mem _ hx)) hdirs
    · rw [Bool.not_eq_true] at hq
      cases hp : recur q st with
      | mk r st1 =>
        have h1 : st1.dirs = dirs0 := by
          have := hrec q st (hR q (List.mem_cons_self _ _)) hdirs
          rw [hp] at this
          exact this
        cases r with
        | exit c =>
          cases c with
          | zero =>
            rw [pullSubdirsAux_ok rest hq hp]
            exact ih st1 (fun x hx => hR x (List.mem_cons_of_mem _ hx)) h1
          | succ c =>
            rw [pullSubdirsAux_fail rest hq hp (by simp)]
            exact h1
        | panicked m =>
          rw [pullSubdirsAux_fail rest hq hp (by simp)]
          exact h1
        | outOfFuel =>
          rw [pullSubdirsAux_fail rest hq hp (by simp)]
          exact h1

/-- Second-run no-op: when every directory reachable from the entry point is
already clean, `pull` leaves the directory tree untouched, whatever its
outcome and fuel. -/
theorem pull_clean_frozen (w : World) (root : String) (dirs0 : List DirNode)
    (hclean : ReachCleanL w dirs0 root) :
    ∀ (fuel : Nat) (p : String) (st : State), ReachesL dirs0 root p →
      st.dirs = dirs0 → (pull w fuel p st).2.dirs = dirs0 := by
  intro fuel
  induction fuel with
  | zero => intro p st _ hdirs; exact hdirs
  | succ fuel ih =>
    intro p st hp hdirs
    cases hfind : findDir st p with
    | none =>
      rw [pull_nodir_eq hfind]
      exact hdirs
    | some node =>
      have hpath : node.path = p := findDir_path hfind
      have hfind0 : findNode p dirs0 = some node := by
        rw [← hdirs]; exact hfind
      cases hleaf : node.isLeaf with
      | true =>
        rw [pull_leaf_eq hfind hleaf]
        have hcl : cleanNode w dirs0 node := hclean p hp node hfind0
        rw [cleanNode, if_pos hleaf] at hcl
        obtain ⟨t, ts, sn, sns, s, htarg, hsn, hto, hdiff⟩ := hcl
        rw [hpath] at htarg
        by_cases hpop : w.populateTempFails p = true
        · rw [pullLeaf_popfail node _ htarg hsn hto hpop]
          exact hdirs
        · rw [Bool.not_eq_true] at hpop
          rw [pullLeaf_main node _ htarg hsn hto hpop, hdiff, applyTableDiffs_nil]
          by_cases hdrop : w.dropTempFails p = true
          · simp [hdrop, addLog]
            exact hdirs
          · simp [hdrop, addLog]
            exact hdirs
      | false =>
        by_cases hsub : w.subdirsFails p = true
        · rw [pull_subdirsfail_eq hfind hleaf hsub]
          exact hdirs
        · rw [Bool.not_eq_true] at hsub
          have hstep : ∀ q ∈ node.subdirPaths, ReachesL dirs0 root q :=
            fun q hq => ReachesL.step hp hfind0 hleaf hq
          cases hinst : node.isInstanceWithLeafSubdirs with
          | false =>
            rw [pull_plain_internal_eq hfind hleaf hinst hsub]
            exact pullSubdirsAux_dirs_frozen (pull w fuel)
              (fun q => ReachesL dirs0 root q) dirs0
              (fun q st' hq hd => ih q st' hq hd) node.subdirPaths _ hstep hdirs
          | true =>
            have hcl : cleanNode w dirs0 node := hclean p hp node hfind0
            rw [cleanNode, if_neg (by simp [hleaf]), if_pos hinst] at hcl
            obtain ⟨t, ts, htarg, hcov⟩ := hcl
            rw [hpath] at htarg
            rw [pull_instance_eq hfind hleaf hinst hsub htarg]
            have hdisc : discoverSchemas w p
                (seenSchemaOf { st with visited := st.visited ++ [p] }
                  node.subdirPaths)
                t.schemas { st with visited := st.visited ++ [p] } =
                (0, { st with visited := st.visited ++ [p] }) := by
              apply discoverSchemas_covered
              intro s hs
              obtain ⟨r, hr, m, hm, hf⟩ := hcov s hs
              refine mem_seenSchemaOf r hr ?_ hf
              show findNode r st.dirs = some m
              rw [hdirs]; exact hm
            rw [hdisc]
            exact pullSubdirsAux_dirs_frozen (pull w fuel)
              (fun q => ReachesL dirs0 root q) dirs0
              (fun q st' hq hd => ih q st' hq hd) node.subdirPaths _ hstep hdirs

/-! ### Pure lemmas about lookups and the canonical diff -/

theorem lookupT_some_mem {k v : String} :
    ∀ {l : List (String × String)}, lookupT k l = some v → (k, v) ∈ l := by
  intro l
  induction l with
  | nil => intro h; cases h
  | cons e r ih =>
    intro h
    rw [lookupT] at h
    by_cases he : e.1 = k
    · rw [if_pos he] at h
      cases h
      exact List.mem_cons.mpr (Or.inl (by rw [← he]))
    · rw [if_neg he] at h
      exact List.mem_cons_of_mem _ (ih h)

theorem lookupT_isSome_of_mem {e : String × String} :
    ∀ {l : List (String × String)}, e ∈ l → (lookupT e.1 l).isSome = true := by
  intro l
  induction l with
  | nil => intro h; cases h
  | cons e' r ih =>
    intro h
    rw [lookupT]
    by_cases he : e'.1 = e.1
    · rw [if_pos he]; rfl
    · rw [if_neg he]
      rcases List.mem_cons.mp h with rfl | h'
      · exact absurd rfl he
      · exact ih h'

theorem lookupT_eq_of_nodup :
    ∀ {l : List (String × String)}, (l.map Prod.fst).Nodup →
      ∀ {e : String × String}, e ∈ l → lookupT e.1 l = some e.2 := by
  intro l
  induction l with
  | nil => intro _ e h; cases h
  | cons e' r ih =>
    intro hnd e h
    rw [List.map_cons, List.nodup_cons] at hnd
    rw [lookupT]
    rcases List.mem_cons.mp h with rfl | h'
    · rw [if_pos rfl]
    · by_cases he : e'.1 = e.1
      · exact absurd (he ▸ List.mem_map_of_mem Prod.fst h') hnd.1
      · rw [if_neg he]
        exact ih hnd.2 h'

theorem findSchema_mem {nm : String} :
    ∀ {L : List Schema} {s : Schema}, findSchema nm L = some s →
      s ∈ L ∧ s.name = nm := by
  intro L
  induction L with
  | nil => intro s h; cases h
  | cons s' r ih =>
    intro s h
    rw [findSchema] at h
    by_cases he : s'.name = nm
    · rw [if_pos he] at h
      cases h
      exact ⟨List.mem_cons_self _ _, he⟩
    · rw [if_neg he] at h
      obtain ⟨h1, h2⟩ := ih h
      exact ⟨List.mem_cons_of_mem _ h1, h2⟩

theorem findSchema_isSome_of_mem {s : Schema} :
    ∀ {L : List Schema}, s ∈ L → (findSchema s.name L).isSome = true := by
  intro L
  induction L with
  | nil => intro h; cases h
  | cons s' r ih =>
    intro h
    rw [findSchema]
    by_cases he : s'.name = s.name
    · rw [if_pos he]; rfl
    · rw [if_neg he]
      rcases List.mem_cons.mp h with rfl | h'
      · exact absurd rfl he
      · exact ih h'

theorem findSchema_self {L : List Schema} (hnd : (L.map Schema.name).Nodup) :
    ∀ {s : Schema}, s ∈ L → findSchema s.name L = some s := by
  induction L with
  | nil => intro s h; cases h
  | cons s' r ih =>
    intro s h
    rw [List.map_cons, List.nodup_cons] at hnd
    rw [findSchema]
    rcases List.mem_cons.mp h with rfl | h'
    · rw [if_pos rfl]
    · by_cases he : s'.name = s.name
      · exact absurd (he ▸ List.mem_map_of_mem Schema.name h') hnd.1
      · rw [if_neg he]
        exact ih hnd.2 h'

theorem mem_filterMap_if {α β : Type} {g : α → β} {P : α → Prop} [DecidablePred P]
    {l : List α} {b : β} :
    (b ∈ l.filterMap (fun e => if P e then some (g e) else none)) ↔
      ∃ e, e ∈ l ∧ P e ∧ g e = b := by
  rw [List.mem_filterMap]
  constructor
  · rintro ⟨e, he, hb⟩
    by_cases hp : P e
    · rw [if_pos hp] at hb
      cases hb
      exact ⟨e, he, hp, rfl⟩
    · rw [if_neg hp] at hb
      cases hb
  · rintro ⟨e, he, hp, hb⟩
    exact ⟨e, he, by rw [if_pos hp, hb]⟩

theorem canonical_create_mem {f s : Schema} {e : String × String}
    (he : e ∈ s.tables) (hl : lookupT e.1 f.tables = none) :
    TableDiff.CreateTable e.1 ∈ canonicalSchemaDiff f s := by
  unfold canonicalSchemaDiff
  refine List.mem_append_left _ (List.mem_append_left _ ?_)
  exact List.mem_filterMap.mpr ⟨e, he, by rw [if_pos hl]⟩

theorem canonical_alter_mem {f s : Schema} {e : String × String} {d : String}
    (he : e ∈ s.tables) (hl : lookupT e.1 f.tables = some d) (hne : d ≠ e.2) :
    TableDiff.AlterTable e.1 ∈ canonicalSchemaDiff f s := by
  unfold canonicalSchemaDiff
  refine List.mem_append_right _ ?_
  refine List.mem_filterMap.mpr ⟨e, he, ?_⟩
  rw [hl]
  simp [hne]

theorem canonical_drop_mem {f s : Schema} {e : String × String}
    (he : e ∈ f.tables) (hl : lookupT e.1 s.tables = none) :
    TableDiff.DropTable e.1 ∈ canonicalSchemaDiff f s := by
  unfold canonicalSchemaDiff
  refine List.mem_append_left _ (List.mem_append_right _ ?_)
  exact List.mem_filterMap.mpr ⟨e, he, by rw [if_pos hl]⟩

theorem canonical_touched {f s : Schema} {td : TableDiff} {tn : String}
    (hm : td ∈ canonicalSchemaDiff f s) (ht : td.touchedTable = some tn) :
    (td = .CreateTable tn ∧ (∃ e, e ∈ s.tables ∧ e.1 = tn) ∧
        lookupT tn f.tables = none) ∨
    (td = .DropTable tn ∧ (lookupT tn f.tables).isSome = true ∧
        lookupT tn s.tables = none) ∨
    (td = .AlterTable tn ∧ ∃ e, e ∈ s.tables ∧ e.1 = tn ∧
        ∃ d, lookupT tn f.tables = some d ∧ d ≠ e.2) := by
  unfold canonicalSchemaDiff at hm
  rcases List.mem_append.mp hm with hm12 | hm3
  · rcases List.mem_append.mp hm12 with hc | hd
    · obtain ⟨e, he, hcond, heq⟩ := mem_filterMap_if.mp hc
      subst heq
      rw [TableDiff.touchedTable] at ht
      cases ht
      exact Or.inl ⟨rfl, ⟨e, he, rfl⟩, hcond⟩
    · obtain ⟨e, he, hcond, heq⟩ := mem_filterMap_if.mp hd
      subst heq
      rw [TableDiff.touchedTable] at ht
      cases ht
      exact Or.inr (Or.inl ⟨rfl, lookupT_isSome_of_mem he, hcond⟩)
  · obtain ⟨e, he, heq⟩ := List.mem_filterMap.mp hm3
    cases hl : lookupT e.1 f.tables with
    | none => simp only [hl] at heq; cases heq
    | some d =>
      simp only [hl] at heq
      by_cases hne : d ≠ e.2
      · rw [if_pos hne] at heq
        cases heq
        rw [TableDiff.touchedTable] at ht
        cases ht
        exact Or.inr (Or.inr ⟨rfl, e, he, rfl, d, hl, hne⟩)
      · rw [if_neg hne] at heq
        cases heq

theorem filterMap_sublist_map {α β : Type} {g : α → β} {f : α → Option β}
    (hf : ∀ a, f a = none ∨ f a = some (g a)) :
    ∀ l : List α, (l.filterMap f).Sublist (l.map g) := by
  intro l
  induction l with
  | nil => simp
  | cons e r ih =>
    rw [List.filterMap_cons, List.map_cons]
    rcases hf e with h | h
    · rw [h]; exact ih.cons _
    · rw [h]; exact List.Sublist.cons₂ _ ih

theorem canonical_touched_keys (f s : Schema) :
    (canonicalSchemaDiff f s).filterMap TableDiff.touchedTable =
      (s.tables.filterMap (fun e =>
        if lookupT e.1 f.tables = none then some e.1 else none))
      ++ (f.tables.filterMap (fun e =>
        if lookupT e.1 s.tables = none then some e.1 else none))
      ++ (s.tables.filterMap (fun e =>
        match lookupT e.1 f.tables with
        | some d => if d ≠ e.2 then some e.1 else none
        | none => none)) := by
  unfold canonicalSchemaDiff
  rw [List.filterMap_append, List.filterMap_append,
    List.filterMap_filterMap, List.filterMap_filterMap, List.filterMap_filterMap]
  congr 1
  · congr 1
    · apply List.filterMap_congr
      intro e _
      by_cases hc : lookupT e.1 f.tables = none
      · rw [if_pos hc, if_pos hc]; rfl
      · rw [if_neg hc, if_neg hc]; rfl
    · apply List.filterMap_congr
      intro e _
      by_cases hc : lookupT e.1 s.tables = none
      · rw [if_pos hc, if_pos hc]; rfl
      · rw [if_neg hc, if_neg hc]; rfl
  · apply List.filterMap_congr
    intro e _
    cases hl : lookupT e.1 f.tables with
    | none => rfl
    | some d =>
      by_cases hne : d ≠ e.2
      · simp [hne, TableDiff.touchedTable]
      · simp [hne, TableDiff.touchedTable]

theorem mem_canonical_keys1 {f s : Schema} {tn : String}
    (h : tn ∈ s.tables.filterMap (fun e =>
        if lookupT e.1 f.tables = none then some e.1 else none)) :
    lookupT tn f.tables = none ∧ (lookupT tn s.tables).isSome = true := by
  obtain ⟨e, he, hc, hg⟩ :=
    (mem_filterMap_if (g := Prod.fst) (P := fun e => lookupT e.1 f.tables = none)).mp h
  subst hg
  exact ⟨hc, lookupT_isSome_of_mem he⟩

theorem mem_canonical_keys2 {f s : Schema} {tn : String}
    (h : tn ∈ f.tables.filterMap (fun e =>
        if lookupT e.1 s.tables = none then some e.1 else none)) :
    lookupT tn s.tables = none ∧ (lookupT tn f.tables).isSome = true := by
  obtain ⟨e, he, hc, hg⟩ :=
    (mem_filterMap_if (g := Prod.fst) (P := fun e => lookupT e.1 s.tables = none)).mp h
  subst hg
  exact ⟨hc, lookupT_isSome_of_mem he⟩

theorem mem_canonical_keys3 {f s : Schema} {tn : String}
    (h : tn ∈ s.tables.filterMap (fun e =>
        match lookupT e.1 f.tables with
        | some d => if d ≠ e.2 then some e.1 else none
        | none => none)) :
    (lookupT tn f.tables).isSome = true ∧ (lookupT tn s.tables).isSome = true := by
  obtain ⟨e, he, heq⟩ := List.mem_filterMap.mp h
  cases hl : lookupT e.1 f.tables with
  | none => simp only [hl] at heq; cases heq
  | some d =>
    simp only [hl] at heq
    by_cases hne : d ≠ e.2
    · rw [if_pos hne] at heq
      cases heq
      exact ⟨by rw [hl]; rfl, lookupT_isSome_of_mem he⟩
    · rw [if_neg hne] at heq
      cases heq

theorem canonical_touched_nodup {f s : Schema}
    (hs : (s.tables.map Prod.fst).Nodup) (hf : (f.tables.map Prod.fst).Nodup) :
    ((canonicalSchemaDiff f s).filterMap TableDiff.touchedTable).Nodup := by
  rw [canonical_touched_keys]
  have h1 : (s.tables.filterMap (fun e =>
      if lookupT e.1 f.tables = none then some e.1 else none)).Nodup :=
    hs.sublist (filterMap_sublist_map (fun a => by
      by_cases hc : lookupT a.1 f.tables = none
      · exact Or.inr (by rw [if_pos hc])
      · exact Or.inl (by rw [if_neg hc])) _)
  have h2 : (f.tables.filterMap (fun e =>
      if lookupT e.1 s.tables = none then some e.1 else none)).Nodup :=
    hf.sublist (filterMap_sublist_map (fun a => by
      by_cases hc : lookupT a.1 s.tables = none
      · exact Or.inr (by rw [if_pos hc])
      · exact Or.inl (by rw [if_neg hc])) _)
  have h3 : (s.tables.filterMap (fun e =>
      match lookupT e.1 f.tables with
      | some d => if d ≠ e.2 then some e.1 else none
      | none => none)).Nodup :=
    hs.sublist (filterMap_sublist_map (fun a => by
      cases hl : lookupT a.1 f.tables with
      | none => exact Or.inl rfl
      | some d =>
        by_cases hne : d ≠ a.2
        · exact Or.inr (by simp [hne])
        · exact Or.inl (by simp [hne])) _)
  refine List.Nodup.append (List.Nodup.append h1 h2 ?_) h3 ?_
  · intro a ha1 ha2
    have x1 := mem_canonical_keys1 ha1
    have x2 := mem_canonical_keys2 ha2
    rw [x1.1] at x2
    cases x2.2
  · intro a ha12 ha3
    have x3 := mem_canonical_keys3 ha3
    rcases List.mem_append.mp ha12 with ha1 | ha2
    · have x1 := mem_canonical_keys1 ha1
      rw [x1.1] at x3
      cases x3.1
    · have x2 := mem_canonical_keys2 ha2
      rw [x2.1] at x3
      cases x3.2

theorem canonical_eq_nil {f s : Schema}
    (h1 : ∀ e ∈ s.tables, lookupT e.1 f.tables = some e.2)
    (h2 : ∀ e ∈ f.tables, (lookupT e.1 s.tables).isSome = true) :
    canonicalSchemaDiff f s = [] := by
  unfold canonicalSchemaDiff
  refine List.append_eq_nil.mpr ⟨List.append_eq_nil.mpr ⟨?_, ?_⟩, ?_⟩
  · refine List.filterMap_eq_nil_iff.mpr (fun e he => ?_)
    rw [h1 e he]
    simp
  · refine List.filterMap_eq_nil_iff.mpr (fun e he => ?_)
    have := h2 e he
    rw [if_neg (by intro hc; rw [hc] at this; cases this)]
  · refine List.filterMap_eq_nil_iff.mpr (fun e he => ?_)
    rw [h1 e he]
    simp

theorem canonicalSchemaDiff_self {x : String} {s : Schema}
    (h : (s.tables.map Prod.fst).Nodup) :
    canonicalSchemaDiff ⟨x, s.tables⟩ s = [] :=
  canonical_eq_nil (fun e he => lookupT_eq_of_nodup h he)
    (fun e he => lookupT_isSome_of_mem he)

theorem pair_unique_of_nodup {l : List (String × String)}
    (hnd : (l.map Prod.fst).Nodup) {e e' : String × String}
    (he : e ∈ l) (he' : e' ∈ l) (h1 : e.1 = e'.1) : e = e' := by
  have a := lookupT_eq_of_nodup hnd he
  have b := lookupT_eq_of_nodup hnd he'
  rw [← h1] at b
  rw [a] at b
  injection b with h2
  cases e
  cases e'
  simp only at h1 h2
  rw [h1, h2]

theorem findDir_setFileInDir_isSome (st : State) (p tn c q : String) :
    (findDir (setFileInDir st p tn c) q).isSome = (findDir st q).isSome := by
  rw [findDir_setFileInDir]
  cases findDir st q <;> rfl

theorem findDir_removeFileInDir_isSome (st : State) (p tn q : String) :
    (findDir (removeFileInDir st p tn) q).isSome = (findDir st q).isSome := by
  rw [findDir_removeFileInDir]
  cases findDir st q <;> rfl

/-- After a fully successful application of a diff list with pairwise-distinct
touched tables, the file of a created or altered table holds the regenerated
definition, and the file of a dropped table is gone. -/
theorem applyTableDiffs_key_value (w : World) (p : String) (s : Schema) :
    ∀ (D : List TableDiff) (st st' : State),
      applyTableDiffs w p s D st = (.exit 0, st') →
      (D.filterMap TableDiff.touchedTable).Nodup →
      (findDir st p).isSome = true →
      ∀ tn : String,
        ((TableDiff.CreateTable tn ∈ D ∨ TableDiff.AlterTable tn ∈ D) →
          lookupT tn (filesAt st' p) = some ((lookupT tn s.tables).getD "")) ∧
        (TableDiff.DropTable tn ∈ D → lookupT tn (filesAt st' p) = none) := by
  intro D
  induction D with
  | nil =>
    intro st st' _ _ _ tn
    exact ⟨fun h => (by rcases h with h | h <;> cases h), fun h => (by cases h)⟩
  | cons td rest ih =>
    intro st st' hrun hnd hex tn
    cases td with
    | CreateTable tn' =>
      by_cases hsc : w.showCreateFails p tn' = true
      · rw [applyTableDiffs_create_scfail rest st hsc] at hrun
        injection hrun with h1 h2
        cases h1
      · rw [Bool.not_eq_true] at hsc
        by_cases hw : w.writeFails p tn' = true
        · rw [applyTableDiffs_create_wfail rest st hsc hw] at hrun
          injection hrun with h1 h2
          simp at h1
        · rw [Bool.not_eq_true] at hw
          rw [applyTableDiffs_create_ok rest st hsc hw] at hrun
          rw [List.filterMap_cons] at hnd
          simp only [TableDiff.touchedTable] at hnd
          rw [List.nodup_cons] at hnd
          have hex1 : (findDir (addLog
              (setFileInDir st p tn' ((lookupT tn' s.tables).getD ""))
              (.wrote p (sqlName tn') ((lookupT tn' s.tables).getD "").length)) p).isSome =
              true := by
            rw [findDir_addLog, findDir_setFileInDir_isSome]
            exact hex
          have ihh := ih _ _ hrun hnd.2 hex1
          constructor
          · intro hmem
            rcases hmem with hmem | hmem
            · rcases List.mem_cons.mp hmem with heq | hmem'
              · injection heq with he
                subst he
                have hframe := applyTableDiffs_files_frame w p s rest
                  (addLog (setFileInDir st p tn ((lookupT tn s.tables).getD ""))
                    (.wrote p (sqlName tn) ((lookupT tn s.tables).getD "").length)) p tn
                  (fun e he => Or.inr (fun hc =>
                    hnd.1 (List.mem_filterMap.mpr ⟨e, he, hc⟩)))
                rw [hrun] at hframe
                rw [hframe, filesAt_addLog]
                cases hfd : findDir st p with
                | none => rw [hfd] at hex; cases hex
                | some n =>
                  rw [filesAt_setFileInDir_self hfd]
                  exact lookupT_setEntry_self _ _ _
              · exact (ihh tn).1 (Or.inl hmem')
            · rcases List.mem_cons.mp hmem with heq | hmem'
              · cases heq
              · exact (ihh tn).1 (Or.inr hmem')
          · intro hmem
            rcases List.mem_cons.mp hmem with heq | hmem'
            · cases heq
            · exact (ihh tn).2 hmem'
    | AlterTable tn' =>
      by_cases hsc : w.showCreateFails p tn' = true
      · rw [applyTableDiffs_alter_scfail rest st hsc] at hrun
        injection hrun with h1 h2
        cases h1
      · rw [Bool.not_eq_true] at hsc
        by_cases hw : w.writeFails p tn' = true
        · rw [applyTableDiffs_alter_wfail rest st hsc hw] at hrun
          injection hrun with h1 h2
          simp at h1
        · rw [Bool.not_eq_true] at hw
          rw [applyTableDiffs_alter_ok rest st hsc hw] at hrun
          rw [List.filterMap_cons] at hnd
          simp only [TableDiff.touchedTable] at hnd
          rw [List.nodup_cons] at hnd
          have hex1 : (findDir (addLog
              (setFileInDir st p tn' ((lookupT tn' s.tables).getD ""))
              (.wrote p (sqlName tn') ((lookupT tn' s.tables).getD "").length)) p).isSome =
              true := by
            rw [findDir_addLog, findDir_setFileInDir_isSome]
            exact hex
          have ihh := ih _ _ hrun hnd.2 hex1
          constructor
          · intro hmem
            rcases hmem with hmem | hmem
            · rcases List.mem_cons.mp hmem with heq | hmem'
              · cases heq
              · exact (ihh tn).1 (Or.inl hmem')
            · rcases List.mem_cons.mp hmem with heq | hmem'
              · injection heq with he
                subst he
                have hframe := applyTableDiffs_files_frame w p s rest
                  (addLog (setFileInDir st p tn ((lookupT tn s.tables).getD ""))
                    (.wrote p (sqlName tn) ((lookupT tn s.tables).getD "").length)) p tn
                  (fun e he => Or.inr (fun hc =>
                    hnd.1 (List.mem_filterMap.mpr ⟨e, he, hc⟩)))
                rw [hrun] at hframe
                rw [hframe, filesAt_addLog]
                cases hfd : findDir st p with
                | none => rw [hfd] at hex; cases hex
                | some n =>
                  rw [filesAt_setFileInDir_self hfd]
                  exact lookupT_setEntry_self _ _ _
              · exact (ihh tn).1 (Or.inr hmem')
          · intro hmem
            rcases List.mem_cons.mp hmem with heq | hmem'
            · cases heq
            · exact (ihh tn).2 hmem'
    | DropTable tn' =>
      by_cases hdf : w.deleteFileFails p tn' = true
      · rw [applyTableDiffs_drop_flagfail rest st hdf] at hrun
        injection hrun with h1 h2
        simp at h1
      · rw [Bool.not_eq_true] at hdf
        cases hlook : lookupT tn' (filesAt st p) with
        | none =>
          rw [applyTableDiffs_drop_missing rest st hdf hlook] at hrun
          injection hrun with h1 h2
          simp at h1
        | some v =>
          rw [applyTableDiffs_drop_ok rest st hdf hlook] at hrun
          rw [List.filterMap_cons] at hnd
          simp only [TableDiff.touchedTable] at hnd
          rw [List.nodup_cons] at hnd
          have hex1 : (findDir (addLog (removeFileInDir st p tn')
              (.deletedFile p (sqlName tn'))) p).isSome = true := by
            rw [findDir_addLog, findDir_removeFileInDir_isSome]
            exact hex
          have ihh := ih _ _ hrun hnd.2 hex1
          constructor
          · intro hmem
            rcases hmem with hmem | hmem
            · rcases List.mem_cons.mp hmem with heq | hmem'
              · cases heq
              · exact (ihh tn).1 (Or.inl hmem')
            · rcases List.mem_cons.mp hmem with heq | hmem'
              · cases heq
              · exact (ihh tn).1 (Or.inr hmem')
          · intro hmem
            rcases List.mem_cons.mp hmem with heq | hmem'
            · injection heq with he
              subst he
              have hframe := applyTableDiffs_files_frame w p s rest
                (addLog (removeFileInDir st p tn) (.deletedFile p (sqlName tn))) p tn
                (fun e he => Or.inr (fun hc =>
                  hnd.1 (List.mem_filterMap.mpr ⟨e, he, hc⟩)))
              rw [hrun] at hframe
              rw [hframe, filesAt_addLog]
              cases hfd : findDir st p with
              | none => rw [hfd] at hex; cases hex
              | some n =>
                rw [filesAt_removeFileInDir_self hfd]
                exact lookupT_removeEntry_self _ _
            · exact (ihh tn).2 hmem'
    | RenameTable tn' =>
      rw [applyTableDiffs_rename rest st] at hrun
      injection hrun with h1 h2
      cases h1
    | UnsupportedDiff tag =>
      rw [applyTableDiffs_unsupported rest st] at hrun
      injection hrun with h1 h2
      cases h1

/-- Synchronization: a fully successful application of the canonical diff
leaves the directory's files in exact correspondence with the live schema, so
re-diffing the directory against the same schema yields nothing. -/
theorem applyTableDiffs_sync {w : World} {p : String} {s : Schema} {x y : String}
    {st st' : State}
    (hex : (findDir st p).isSome = true)
    (hsn : (s.tables.map Prod.fst).Nodup)
    (hfn : ((filesAt st p).map Prod.fst).Nodup)
    (hrun : applyTableDiffs w p s
      (canonicalSchemaDiff ⟨x, filesAt st p⟩ s) st = (.exit 0, st')) :
    canonicalSchemaDiff ⟨y, filesAt st' p⟩ s = [] := by
  have hnd : ((canonicalSchemaDiff ⟨x, filesAt st p⟩ s).filterMap
      TableDiff.touchedTable).Nodup := canonical_touched_nodup hsn hfn
  have key := applyTableDiffs_key_value w p s _ st st' hrun hnd hex
  have huntouched : ∀ tn : String,
      (∀ td ∈ canonicalSchemaDiff ⟨x, filesAt st p⟩ s,
        td.touchedTable ≠ some tn) →
      lookupT tn (filesAt st' p) = lookupT tn (filesAt st p) := by
    intro tn hcond
    have hframe := applyTableDiffs_files_frame w p s
      (canonicalSchemaDiff ⟨x, filesAt st p⟩ s) st p tn
      (fun e he => Or.inr (hcond e he))
    rw [hrun] at hframe
    exact hframe
  refine canonical_eq_nil ?_ ?_
  · intro e he
    have hse : lookupT e.1 s.tables = some e.2 := lookupT_eq_of_nodup hsn he
    show lookupT e.1 (filesAt st' p) = some e.2
    cases hF : lookupT e.1 (filesAt st p) with
    | none =>
      have hmem : TableDiff.CreateTable e.1 ∈
          canonicalSchemaDiff ⟨x, filesAt st p⟩ s := canonical_create_mem he hF
      have := (key e.1).1 (Or.inl hmem)
      rw [hse] at this
      exact this
    | some d =>
      by_cases hde : d = e.2
      · have hnone : ∀ td ∈ canonicalSchemaDiff ⟨x, filesAt st p⟩ s,
            td.touchedTable ≠ some e.1 := by
          intro td htd hc
          rcases canonical_touched htd hc with
            ⟨_, _, hcl⟩ | ⟨_, _, hsl⟩ | ⟨_, e', he', h1, d', hfl, hne⟩
          · rw [hF] at hcl
            cases hcl
          · rw [hse] at hsl
            cases hsl
          · have : e' = e := pair_unique_of_nodup hsn he' he h1
            subst this
            rw [hF] at hfl
            injection hfl with hd
            subst hd
            exact hne hde
        rw [huntouched e.1 hnone, hF, hde]
      · have hmem : TableDiff.AlterTable e.1 ∈
            canonicalSchemaDiff ⟨x, filesAt st p⟩ s :=
          canonical_alter_mem he hF hde
        have := (key e.1).1 (Or.inr hmem)
        rw [hse] at this
        exact this
  · intro e he
    show (lookupT e.1 s.tables).isSome = true
    cases hS : lookupT e.1 s.tables with
    | some v => rfl
    | none =>
      exfalso
      have hesome := lookupT_isSome_of_mem he
      cases hF : lookupT e.1 (filesAt st p) with
      | some v =>
        have hFm : (e.1, v) ∈ filesAt st p := lookupT_some_mem hF
        have hmem : TableDiff.DropTable e.1 ∈
            canonicalSchemaDiff ⟨x, filesAt st p⟩ s :=
          canonical_drop_mem (e := ((e.1 : String), v)) hFm hS
        have := (key e.1).2 hmem
        rw [this] at hesome
        cases hesome
      | none =>
        have hnone : ∀ td ∈ canonicalSchemaDiff ⟨x, filesAt st p⟩ s,
            td.touchedTable ≠ some e.1 := by
          intro td htd hc
          rcases canonical_touched htd hc with
            ⟨_, ⟨e', he', h1⟩, _⟩ | ⟨_, hsl, _⟩ | ⟨_, e', he', h1, d', hfl, _⟩
          · have := lookupT_isSome_of_mem he'
            rw [h1, hS] at this
            cases this
          · rw [hF] at hsl
            cases hsl
          · rw [hF] at hfl
            cases hfl
        rw [huntouched e.1 hnone, hF] at hesome
        cases hesome

/-! ### Well-formedness of the directory graph -/

/-- Subdirectories have strictly longer paths than their parent (true of real
filesystem paths, where a subdirectory path extends the parent path). -/
def RankOK (dirs : List DirNode) : Prop :=
  ∀ n ∈ dirs, ∀ q ∈ n.subdirPaths, n.path.length < q.length

/-- Every directory is listed as a subdirectory of at most one directory. -/
def UniqParent (dirs : List DirNode) : Prop :=
  ∀ n ∈ dirs, ∀ m ∈ dirs, ∀ q : String, q ∈ n.subdirPaths → q ∈ m.subdirPaths → n = m

/-- No directory lists the same subdirectory twice. -/
def SubNodup (dirs : List DirNode) : Prop :=
  ∀ n ∈ dirs, n.subdirPaths.Nodup

/-- Every listed subdirectory path has a node. -/
def ClosedG (dirs : List DirNode) : Prop :=
  ∀ n ∈ dirs, ∀ q ∈ n.subdirPaths, (findNode q dirs).isSome = true

/-- A leaf directory's declared schema name is the first schema name its
configuration resolves to (the skeema file's `schema` value drives both). -/
def coherentB (w : World) (n : DirNode) : Bool :=
  match n.schemaField with
  | none => true
  | some nm =>
    match w.targetsOf n.path with
    | [] => false
    | t :: _ =>
      match t.schemaNames with
      | [] => false
      | sn :: _ => sn = nm

def SchemaCoherent (w : World) (dirs : List DirNode) : Prop :=
  ∀ n ∈ dirs, n.isLeaf = true → coherentB w n = true

def FilesNodup (dirs : List DirNode) : Prop :=
  ∀ n ∈ dirs, (n.files.map Prod.fst).Nodup

def PathsNodupL (dirs : List DirNode) : Prop := (dirs.map DirNode.path).Nodup

structure InvD (w : World) (dirs : List DirNode) : Prop where
  pathsNodup : PathsNodupL dirs
  rankOK : RankOK dirs
  uniqParent : UniqParent dirs
  subNodup : SubNodup dirs
  closedG : ClosedG dirs
  coherent : SchemaCoherent w dirs
  filesNodup : FilesNodup dirs

/-- The external world assumptions under which idempotence is stated: a
deterministic canonical diff engine over a single live instance whose schema
list `L` does not change, with duplicate-free table and schema names, and
populate-created directories configured for the schema they were created
for. -/
structure NiceWorld (w : World) (L : List Schema) : Prop where
  engine : w.newSchemaDiff = canonicalSchemaDiff
  live : ∀ p t ts, w.targetsOf p = t :: ts → t.schemas = L
  lnodup : ∀ s ∈ L, ((s.tables.map Prod.fst).Nodup)
  namesNodup : (L.map Schema.name).Nodup
  created : ∀ p s, s ∈ L → ∃ t ts sns,
    w.targetsOf (childPath p s.name) = t :: ts ∧ t.schemaNames = s.name :: sns

theorem paths_uniqueL {dirs : List DirNode} (h : PathsNodupL dirs) {n m : DirNode}
    (hn : n ∈ dirs) (hm : m ∈ dirs) (hp : n.path = m.path) : n = m :=
  List.inj_on_of_nodup_map h hn hm hp

theorem childPath_len (p nm : String) : p.length < (childPath p nm).length := by
  unfold childPath
  rw [String.length_append, String.length_append]
  have : (1 : Nat) ≤ ("/" : String).length := by decide
  omega

theorem ReachesL_trans {dirs : List DirNode} {a b c : String}
    (h1 : ReachesL dirs a b) (h2 : ReachesL dirs b c) : ReachesL dirs a c := by
  induction h2 with
  | base => exact h1
  | step hp hn hleaf hq ih => exact ReachesL.step ih hn hleaf hq

theorem ReachesL_rank {dirs : List DirNode} (hr : RankOK dirs) {a x : String}
    (h : ReachesL dirs a x) : a = x ∨ a.length < x.length := by
  induction h with
  | base => exact Or.inl rfl
  | @step p q n hp hn hleaf hq ih =>
    have hlt : n.path.length < q.length := hr n (findNode_mem hn) q hq
    rw [findNode_path hn] at hlt
    rcases ih with rfl | hl
    · exact Or.inr hlt
    · exact Or.inr (Nat.lt_trans hl hlt)

theorem ReachesL_decomp {dirs : List DirNode} {a x : String}
    (h : ReachesL dirs a x) :
    a = x ∨ ∃ n q, findNode a dirs = some n ∧ n.isLeaf = false ∧
      q ∈ n.subdirPaths ∧ ReachesL dirs q x := by
  induction h with
  | base => exact Or.inl rfl
  | @step p q n hp hn hleaf hq ih =>
    rcases ih with rfl | ⟨n0, q0, hn0, hl0, hq0, hr0⟩
    · exact Or.inr ⟨n, q, hn, hleaf, hq, ReachesL.base⟩
    · exact Or.inr ⟨n0, q0, hn0, hl0, hq0, ReachesL.step hr0 hn hleaf hq⟩

theorem ReachesL_last {dirs : List DirNode} {a x : String}
    (h : ReachesL dirs a x) (hne : a ≠ x) :
    ∃ y n, ReachesL dirs a y ∧ findNode y dirs = some n ∧ n.isLeaf = false ∧
      x ∈ n.subdirPaths := by
  cases h with
  | base => exact absurd rfl hne
  | step hp hn hleaf hq => exact ⟨_, _, hp, hn, hleaf, hq⟩

theorem ReachesL_join {dirs : List DirNode} (hu : UniqParent dirs)
    {a b x : String} (ha : ReachesL dirs a x) (hb : ReachesL dirs b x) :
    ReachesL dirs a b ∨ ReachesL dirs b a := by
  induction ha with
  | base => exact Or.inr hb
  | @step p q n hp hn hleaf hq ih =>
    cases hb with
    | base => exact Or.inl (ReachesL.step hp hn hleaf hq)
    | @step p2 x2 n2 hp2 hn2 hleaf2 hq2 =>
      have hnn : n = n2 := hu n (findNode_mem hn) n2 (findNode_mem hn2) _ hq hq2
      have hpp : p = p2 := by
        rw [← findNode_path hn, ← findNode_path hn2, hnn]
      rw [← hpp] at hp2
      exact ih hp2

theorem ReachClean_of_leaf {w : World} {dirs : List DirNode} {p : String}
    (hl : ∀ n, findNode p dirs = some n → n.isLeaf = true)
    (hc : CleanAtL w dirs p) : ReachCleanL w dirs p := by
  intro q hq
  rcases ReachesL_decomp hq with rfl | ⟨n, q0, hn, hnl, _, _⟩
  · exact hc
  · rw [hl n hn] at hnl
    cases hnl

theorem ReachClean_build {w : World} {dirs : List DirNode} {p : String}
    (hc : CleanAtL w dirs p)
    (hch : ∀ n, findNode p dirs = some n → n.isLeaf = false →
      ∀ q ∈ n.subdirPaths, ReachCleanL w dirs q) : ReachCleanL w dirs p := by
  intro q hq
  rcases ReachesL_decomp hq with rfl | ⟨n, q0, hn, hnl, hq0, hr0⟩
  · exact hc
  · exact hch n hn hnl q0 hq0 q hr0

theorem ReachClean_none {w : World} {dirs : List DirNode} {p : String}
    (h : findNode p dirs = none) : ReachCleanL w dirs p := by
  intro q hq
  rcases ReachesL_decomp hq with rfl | ⟨n, q0, hn, hnl, hq0, hr0⟩
  · intro n hn
    rw [h] at hn
    cases hn
  · rw [h] at hn
    cases hn

/-- How `pull` may transform the directory list: internal nodes persist with
their classification, and a new subdirectory entry of an internal node can
only point to a path that is clean and not internal afterwards. -/
def DirsEvolve (w : World) (pre post : List DirNode) : Prop :=
  ∀ x n', findNode x post = some n' → n'.isLeaf = false →
    ∃ n, findNode x pre = some n ∧ n.isLeaf = false ∧
      n.isInstanceWithLeafSubdirs = n'.isInstanceWithLeafSubdirs ∧
      ∀ q ∈ n'.subdirPaths, q ∈ n.subdirPaths ∨
        ((∀ mq, findNode q post = some mq → mq.isLeaf = true) ∧
          ReachCleanL w post q)

theorem DirsEvolve_refl (w : World) (dirs : List DirNode) : DirsEvolve w dirs dirs :=
  fun x n' hn' hl' => ⟨n', hn', hl', rfl, fun q hq => Or.inl hq⟩

theorem DirsEvolve_trans {w : World} {A B C : List DirNode}
    (h1 : DirsEvolve w A B) (h2 : DirsEvolve w B C)
    (hstab : ∀ x, ReachCleanL w B x → ReachCleanL w C x) :
    DirsEvolve w A C := by
  intro x n' hn' hl'
  obtain ⟨nb, hnb, hlb, hib, hqb⟩ := h2 x n' hn' hl'
  obtain ⟨na, hna, hla, hia, hqa⟩ := h1 x nb hnb hlb
  refine ⟨na, hna, hla, by rw [hia, hib], ?_⟩
  intro q hq
  rcases hqb q hq with hqB | ⟨hleafC, hrcC⟩
  · rcases hqa q hqB with hqA | ⟨hleafB, hrcB⟩
    · exact Or.inl hqA
    · refine Or.inr ⟨?_, hstab q hrcB⟩
      intro mq hmq
      by_contra hml
      rw [Bool.not_eq_true] at hml
      obtain ⟨nq, hnq, hlq, _, _⟩ := h2 q mq hmq hml
      rw [hleafB nq hnq] at hlq
      cases hlq
  · exact Or.inr ⟨hleafC, hrcC⟩

theorem ReachesL_back {w : World} {pre post : List DirNode}
    (hev : DirsEvolve w pre post) {a x : String} (h : ReachesL post a x) :
    ∀ nx, findNode x post = some nx → nx.isLeaf = false → ReachesL pre a x := by
  induction h with
  | base => intro _ _ _; exact ReachesL.base
  | @step p q n hp hn hleaf hq ih =>
    intro nx hnx hlx
    have hpre_p := ih n hn hleaf
    obtain ⟨np, hnp, hlp, _, hedges⟩ := hev p n hn hleaf
    rcases hedges q hq with hold | ⟨hlf, _⟩
    · exact ReachesL.step hpre_p hnp hlp hold
    · rw [hlf nx hnx] at hlx
      cases hlx

/-! ### Stability of cleanliness under the three kinds of mutation -/

/-- Two nodes that agree on everything but their files. -/
def SameShape (n n' : DirNode) : Prop :=
  n'.path = n.path ∧ n'.isLeaf = n.isLeaf ∧
  n'.isInstanceWithLeafSubdirs = n.isInstanceWithLeafSubdirs ∧
  n'.subdirPaths = n.subdirPaths ∧ n'.schemaField = n.schemaField

theorem SameShape_refl (n : DirNode) : SameShape n n := ⟨rfl, rfl, rfl, rfl, rfl⟩

theorem SameShape_trans {a b c : DirNode} (h1 : SameShape a b)
    (h2 : SameShape b c) : SameShape a c :=
  ⟨h2.1.trans h1.1, h2.2.1.trans h1.2.1, h2.2.2.1.trans h1.2.2.1,
   h2.2.2.2.1.trans h1.2.2.2.1, h2.2.2.2.2.trans h1.2.2.2.2⟩

theorem SameShape_symm {a b : DirNode} (h : SameShape a b) : SameShape b a :=
  ⟨h.1.symm, h.2.1.symm, h.2.2.1.symm, h.2.2.2.1.symm, h.2.2.2.2.symm⟩

/-- A transformation of the directory list that can change only the files of
the directory at `p`. -/
def FilesOnlyAt (p : String) (pre post : List DirNode) : Prop :=
  (∀ q, q ≠ p → findNode q post = findNode q pre) ∧
  (∀ n', findNode p post = some n' → ∃ n, findNode p pre = some n ∧ SameShape n n') ∧
  (∀ n, findNode p pre = some n → ∃ n', findNode p post = some n' ∧ SameShape n n')

theorem FilesOnlyAt_refl (p : String) (dirs : List DirNode) : FilesOnlyAt p dirs dirs :=
  ⟨fun _ _ => rfl, fun n' h => ⟨n', h, SameShape_refl n'⟩,
   fun n h => ⟨n, h, SameShape_refl n⟩⟩

theorem FilesOnlyAt_trans {p : String} {A B C : List DirNode}
    (h1 : FilesOnlyAt p A B) (h2 : FilesOnlyAt p B C) : FilesOnlyAt p A C := by
  refine ⟨fun q hq => ?_, fun n' h => ?_, fun n h => ?_⟩
  · rw [h2.1 q hq, h1.1 q hq]
  · obtain ⟨nb, hnb, hb⟩ := h2.2.1 n' h
    obtain ⟨na, hna, ha⟩ := h1.2.1 nb hnb
    exact ⟨na, hna, SameShape_trans ha hb⟩
  · obtain ⟨nb, hnb, hb⟩ := h1.2.2 n h
    obtain ⟨nc, hnc, hc⟩ := h2.2.2 nb hnb
    exact ⟨nc, hnc, SameShape_trans hb hc⟩

theorem FilesOnlyAt_setFileInDir (st : State) (p tn c : String) :
    FilesOnlyAt p st.dirs (setFileInDir st p tn c).dirs := by
  refine ⟨fun q hq => ?_, fun n' h => ?_, fun n h => ?_⟩
  · show findDir (setFileInDir st p tn c) q = findDir st q
    rw [findDir_setFileInDir]
    cases hf : findDir st q with
    | none => rfl
    | some n =>
      have := findDir_path hf
      simp [this, hq]
  · rw [show findNode p (setFileInDir st p tn c).dirs =
        findDir (setFileInDir st p tn c) p from rfl, findDir_setFileInDir] at h
    cases hf : findDir st p with
    | none => rw [hf] at h; cases h
    | some n =>
      rw [hf] at h
      rw [Option.map_some'] at h
      injection h with he
      refine ⟨n, hf, ?_⟩
      rw [← he]
      by_cases hc : n.path = p
      · rw [if_pos hc]
        exact ⟨rfl, rfl, rfl, rfl, rfl⟩
      · rw [if_neg hc]
        exact SameShape_refl n
  · rw [show findNode p (setFileInDir st p tn c).dirs =
        findDir (setFileInDir st p tn c) p from rfl, findDir_setFileInDir]
    have h' : findDir st p = some n := h
    rw [h', Option.map_some']
    refine ⟨_, rfl, ?_⟩
    by_cases hc : n.path = p
    · rw [if_pos hc]
      exact ⟨rfl, rfl, rfl, rfl, rfl⟩
    · rw [if_neg hc]
      exact SameShape_refl n

theorem FilesOnlyAt_removeFileInDir (st : State) (p tn : String) :
    FilesOnlyAt p st.dirs (removeFileInDir st p tn).dirs := by
  refine ⟨fun q hq => ?_, fun n' h => ?_, fun n h => ?_⟩
  · show findDir (removeFileInDir st p tn) q = findDir st q
    rw [findDir_removeFileInDir]
    cases hf : findDir st q with
    | none => rfl
    | some n =>
      have := findDir_path hf
      simp [this, hq]
  · rw [show findNode p (removeFileInDir st p tn).dirs =
        findDir (removeFileInDir st p tn) p from rfl, findDir_removeFileInDir] at h
    cases hf : findDir st p with
    | none => rw [hf] at h; cases h
    | some n =>
      rw [hf] at h
      rw [Option.map_some'] at h
      injection h with he
      refine ⟨n, hf, ?_⟩
      rw [← he]
      by_cases hc : n.path = p
      · rw [if_pos hc]
        exact ⟨rfl, rfl, rfl, rfl, rfl⟩
      · rw [if_neg hc]
        exact SameShape_refl n
  · rw [show findNode p (removeFileInDir st p tn).dirs =
        findDir (removeFileInDir st p tn) p from rfl, findDir_removeFileInDir]
    have h' : findDir st p = some n := h
    rw [h', Option.map_some']
    refine ⟨_, rfl, ?_⟩
    by_cases hc : n.path = p
    · rw [if_pos hc]
      exact ⟨rfl, rfl, rfl, rfl, rfl⟩
    · rw [if_neg hc]
      exact SameShape_refl n

theorem FilesOnlyAt_applyTableDiffs (w : World) (p : String) (s : Schema) :
    ∀ (D : List TableDiff) (st : State),
      FilesOnlyAt p st.dirs (applyTableDiffs w p s D st).2.dirs := by
  intro D
  induction D with
  | nil => intro st; exact FilesOnlyAt_refl p st.dirs
  | cons td rest ih =>
    intro st
    rcases applyTableDiffs_cons_split w p s td st with
      ⟨r, ext, _, _, _, heq⟩ | ⟨tn, c, htn, heq⟩ | ⟨tn, htn, heq⟩
    · rw [heq rest]
      exact FilesOnlyAt_refl p st.dirs
    · rw [heq rest]
      exact FilesOnlyAt_trans (FilesOnlyAt_setFileInDir st p tn c)
        (ih (addLog (setFileInDir st p tn c) (.wrote p (sqlName tn) c.length)))
    · rw [heq rest]
      exact FilesOnlyAt_trans (FilesOnlyAt_removeFileInDir st p tn)
        (ih (addLog (removeFileInDir st p tn) (.deletedFile p (sqlName tn))))

theorem ReachesL_of_FilesOnly {p : String} {pre post : List DirNode}
    (hf : FilesOnlyAt p pre post) {a x : String} (h : ReachesL post a x) :
    ReachesL pre a x := by
  induction h with
  | base => exact ReachesL.base
  | @step y q n hp hn hleaf hq ih =>
    by_cases hyp : y = p
    · subst hyp
      obtain ⟨n0, hn0, hsh⟩ := hf.2.1 n hn
      refine ReachesL.step ih hn0 ?_ ?_
      · rw [← hsh.2.1]; exact hleaf
      · rw [← hsh.2.2.2.1]; exact hq
    · rw [hf.1 y hyp] at hn
      exact ReachesL.step ih hn hleaf hq

/-- Transfer of node cleanliness between directory lists that preserve the
relevant structure. -/
theorem cleanNode_mono {w : World} {d1 d2 : List DirNode} {n n' : DirNode}
    (hpath : n'.path = n.path) (hleaf : n'.isLeaf = n.isLeaf)
    (hinst : n'.isInstanceWithLeafSubdirs = n.isInstanceWithLeafSubdirs)
    (hfiles : n'.files = n.files)
    (hwit : n.isLeaf = false → ∀ nm r, r ∈ n.subdirPaths →
      (∃ m, findNode r d1 = some m ∧ m.schemaField = some nm) →
      r ∈ n'.subdirPaths ∧ ∃ m', findNode r d2 = some m' ∧ m'.schemaField = some nm)
    (h : cleanNode w d1 n) : cleanNode w d2 n' := by
  unfold cleanNode at h ⊢
  rw [hleaf, hinst]
  by_cases hl : n.isLeaf = true
  · rw [if_pos hl] at h ⊢
    unfold cleanLeaf at h ⊢
    rw [hpath, hfiles]
    exact h
  · rw [if_neg hl] at h ⊢
    by_cases hi : n.isInstanceWithLeafSubdirs = true
    · rw [if_pos hi] at h ⊢
      unfold cleanInstance at h ⊢
      rw [hpath]
      obtain ⟨t, ts, ht, hcov⟩ := h
      refine ⟨t, ts, ht, fun s hs => ?_⟩
      obtain ⟨r, hr, m, hm, hfm⟩ := hcov s hs
      obtain ⟨hr', m', hm', hfm'⟩ :=
        hwit (by rw [Bool.not_eq_true] at hl; exact hl) s.name r hr ⟨m, hm, hfm⟩
      exact ⟨r, hr', m', hm', hfm'⟩
    · rw [if_neg hi] at h ⊢
      exact trivial

/-- Rewriting files of a directory that is not clean preserves every clean
reachable region. -/
theorem ReachClean_FilesOnly {w : World} {p : String} {pre post : List DirNode}
    (hf : FilesOnlyAt p pre post) (hdirty : ¬ CleanAtL w pre p) :
    ∀ x, ReachCleanL w pre x → ReachCleanL w post x := by
  intro x hrc q hq n' hn'
  have hqpre : ReachesL pre x q := ReachesL_of_FilesOnly hf hq
  by_cases hqp : q = p
  · subst hqp
    exact absurd (hrc _ hqpre) hdirty
  · have hsame : findNode q post = findNode q pre := hf.1 q hqp
    rw [hsame] at hn'
    have hcn := hrc _ hqpre n' hn'
    refine cleanNode_mono rfl rfl rfl rfl ?_ hcn
    intro _ nm r hr ⟨m, hm, hfm⟩
    by_cases hrp : r = p
    · subst hrp
      obtain ⟨m', hm', hsh⟩ := hf.2.2 m hm
      exact ⟨hr, m', hm', by rw [hsh.2.2.2.2, hfm]⟩
    · exact ⟨hr, m, by rw [hf.1 r hrp]; exact hm, hfm⟩

theorem mem_stripPath {p r : String} :
    ∀ {l : List String}, r ∈ stripPath p l ↔ (r ∈ l ∧ r ≠ p) := by
  intro l
  induction l with
  | nil => simp [stripPath]
  | cons q rest ih =>
    unfold stripPath
    by_cases hq : q = p
    · subst hq
      rw [if_pos rfl, ih]
      constructor
      · rintro ⟨h1, h2⟩
        exact ⟨List.mem_cons_of_mem _ h1, h2⟩
      · rintro ⟨h1, h2⟩
        rcases List.mem_cons.mp h1 with rfl | h1'
        · exact absurd rfl h2
        · exact ⟨h1', h2⟩
    · rw [if_neg hq]
      constructor
      · intro h1
        rcases List.mem_cons.mp h1 with rfl | h1'
        · exact ⟨List.mem_cons_self _ _, hq⟩
        · obtain ⟨ha, hb⟩ := ih.mp h1'
          exact ⟨List.mem_cons_of_mem _ ha, hb⟩
      · rintro ⟨h1, h2⟩
        rcases List.mem_cons.mp h1 with rfl | h1'
        · exact List.mem_cons_self _ _
        · exact List.mem_cons_of_mem _ (ih.mpr ⟨h1', h2⟩)

theorem ReachesL_of_delete {v : String} {dirs : List DirNode} {a x : String}
    (h : ReachesL (deleteDirNodes v dirs) a x) : ReachesL dirs a x := by
  induction h with
  | base => exact ReachesL.base
  | @step y q n hp hn hleaf hq ih =>
    by_cases hyv : y = v
    · subst hyv
      rw [findNode_deleteDirNodes_self] at hn
      cases hn
    · rw [findNode_deleteDirNodes_ne hyv] at hn
      cases hf : findNode y dirs with
      | none => rw [hf] at hn; cases hn
      | some n0 =>
        rw [hf, Option.map_some'] at hn
        injection hn with he
        refine ReachesL.step ih hf ?_ ?_
        · rw [← he] at hleaf
          exact hleaf
        · rw [← he] at hq
          exact (mem_stripPath.mp hq).1

/-- Deleting a directory that is not clean preserves every clean reachable
region. -/
theorem ReachClean_delete {w : World} {v : String} {dirs : List DirNode}
    (hdirty : ¬ CleanAtL w dirs v) :
    ∀ x, ReachCleanL w dirs x → ReachCleanL w (deleteDirNodes v dirs) x := by
  intro x hrc q hq n' hn'
  have hqpre : ReachesL dirs x q := ReachesL_of_delete hq
  by_cases hqv : q = v
  · subst hqv
    rw [findNode_deleteDirNodes_self] at hn'
    cases hn'
  · rw [findNode_deleteDirNodes_ne hqv] at hn'
    cases hf : findNode q dirs with
    | none => rw [hf] at hn'; cases hn'
    | some n =>
      rw [hf, Option.map_some'] at hn'
      injection hn' with he
      have hcn := hrc _ hqpre n hf
      refine cleanNode_mono (by rw [← he]) (by rw [← he]) (by rw [← he])
        (by rw [← he]) ?_ hcn
      intro hnl nm r hr ⟨m, hm, hfm⟩
      have hrv : r ≠ v := by
        intro hre
        subst hre
        have : ReachesL dirs x r := ReachesL.step hqpre hf hnl hr
        exact absurd (hrc _ this) hdirty
      constructor
      · rw [← he]
        show r ∈ stripPath v n.subdirPaths
        exact mem_stripPath.mpr ⟨hr, hrv⟩
      · rw [findNode_deleteDirNodes_ne hrv, hm, Option.map_some']
        exact ⟨_, rfl, hfm⟩

/-! ### Persistence relations between directory lists -/

/-- A path whose node survives any pull activity: an internal directory, or a
leaf whose declared schema still exists on the live instance. -/
def SafePath (L : List Schema) (dirs : List DirNode) (q : String) : Prop :=
  ∃ mq, findNode q dirs = some mq ∧
    (mq.isLeaf = false ∨
      ∃ nm, mq.schemaField = some nm ∧ (findSchema nm L).isSome = true)

def SeenInv (st : State) : Prop :=
  ∀ x, elemStr x st.seen = true →
    ∃ nx, findNode x st.dirs = some nx ∧ nx.isLeaf = false

def SeenAway (st : State) (p : String) : Prop :=
  ∀ x, elemStr x st.seen = true → ¬ ReachesL st.dirs p x

/-- Every node persists, with everything but its subdirectory list unchanged
and its subdirectory list only extended (the populate-only transformations). -/
def FindExtend (pre post : List DirNode) : Prop :=
  ∀ q m, findNode q pre = some m → ∃ m', findNode q post = some m' ∧
    m'.path = m.path ∧ m'.isLeaf = m.isLeaf ∧
    m'.isInstanceWithLeafSubdirs = m.isInstanceWithLeafSubdirs ∧
    m'.schemaField = m.schemaField ∧ m'.files = m.files ∧
    ∀ r ∈ m.subdirPaths, r ∈ m'.subdirPaths

theorem FindExtend_refl (dirs : List DirNode) : FindExtend dirs dirs :=
  fun q m h => ⟨m, h, rfl, rfl, rfl, rfl, rfl, fun r hr => hr⟩

theorem FindExtend_trans {A B C : List DirNode} (h1 : FindExtend A B)
    (h2 : FindExtend B C) : FindExtend A C := by
  intro q m h
  obtain ⟨mb, hb, e1, e2, e3, e4, e5, e6⟩ := h1 q m h
  obtain ⟨mc, hc, f1, f2, f3, f4, f5, f6⟩ := h2 q mb hb
  exact ⟨mc, hc, f1.trans e1, f2.trans e2, f3.trans e3, f4.trans e4, f5.trans e5,
    fun r hr => f6 r (e6 r hr)⟩

theorem elemStr_append_singleton {x p : String} {l : List String}
    (h : elemStr x (l ++ [p]) = true) : elemStr x l = true ∨ x = p := by
  rw [elemStr_true_iff, List.mem_append] at h
  rcases h with h | h
  · exact Or.inl (elemStr_true_iff x l |>.mpr h)
  · rcases List.mem_cons.mp h with rfl | h'
    · exact Or.inr rfl
    · cases h'

/-- Two distinct subdirectories of the same internal node cannot reach one
another in a well-formed graph. -/
theorem siblings_no_reach {dirs : List DirNode} (hnd : PathsNodupL dirs)
    (hrk : RankOK dirs) (hup : UniqParent dirs) {p : String} {nodeP : DirNode}
    (hfind : findNode p dirs = some nodeP) {c q : String}
    (hc : c ∈ nodeP.subdirPaths) (hq : q ∈ nodeP.subdirPaths) (hne : c ≠ q) :
    ¬ ReachesL dirs c q := by
  intro h
  obtain ⟨y, nst, hry, hfy, hly, hqy⟩ := ReachesL_last h hne
  have heq : nst = nodeP := hup nst (findNode_mem hfy) nodeP (findNode_mem hfind) q hqy hq
  have hyp : y = p := by
    rw [← findNode_path hfy, ← findNode_path hfind, heq]
  subst hyp
  have hrank1 : nodeP.path.length < c.length :=
    hrk nodeP (findNode_mem hfind) c hc
  rw [findNode_path hfind] at hrank1
  rcases ReachesL_rank hrk hry with rfl | hlt
  · exact Nat.lt_irrefl _ hrank1
  · exact Nat.lt_irrefl _ (Nat.lt_trans hrank1 hlt)

theorem SafePath_mono {L : List Schema} {pre post : List DirNode}
    (hper : ∀ r nm m, findNode r pre = some m → m.schemaField = some nm →
      (findSchema nm L).isSome = true → ∃ m', findNode r post = some m' ∧
        m'.schemaField = some nm)
    (hint : ∀ x n, findNode x pre = some n → n.isLeaf = false →
      ∃ n', findNode x post = some n' ∧ n'.isLeaf = false)
    {q : String} (h : SafePath L pre q) : SafePath L post q := by
  obtain ⟨mq, hmq, hcond⟩ := h
  rcases hcond with hil | ⟨nm, hnm, hres⟩
  · obtain ⟨n', hn', hl'⟩ := hint q mq hmq hil
    exact ⟨n', hn', Or.inl hl'⟩
  · obtain ⟨m', hm', hnm'⟩ := hper q nm mq hmq hnm hres
    exact ⟨m', hm', Or.inr ⟨nm, hnm', hres⟩⟩

/-! ### The populate transformation of the directory list -/

def popDirs (par : String) (sch : Schema) (dirs : List DirNode) : List DirNode :=
  (dirs.map (fun n =>
    if n.path = par then
      { n with subdirPaths := n.subdirPaths ++ [childPath par sch.name] }
    else n))
  ++ [⟨childPath par sch.name, true, false, [], some sch.name, sch.tables⟩]

theorem PopulateSchemaDir_ok_dirs {w : World} {sch : Schema} {par : String}
    (st : State) (hf : w.populateSchemaDirFails par sch.name = false)
    (hx : findDir st (childPath par sch.name) = none) :
    (PopulateSchemaDir w sch par st).2.dirs = popDirs par sch st.dirs := by
  rw [PopulateSchemaDir_ok st hf hx]
  rfl

theorem findNode_popDirs_ne {par : String} {sch : Schema} {dirs : List DirNode}
    {q : String} (hq : q ≠ childPath par sch.name) :
    findNode q (popDirs par sch dirs) =
      (findNode q dirs).map (fun n =>
        if n.path = par then
          { n with subdirPaths := n.subdirPaths ++ [childPath par sch.name] }
        else n) := by
  unfold popDirs
  rw [findNode_append]
  rw [findNode_map_preserve _ (fun n => by by_cases hc : n.path = par <;> simp [hc])]
  cases hf : findNode q dirs with
  | none =>
    rw [Option.map_none']
    show findNode q [_] = none
    unfold findNode
    rw [if_neg]
    · rfl
    · show ¬(childPath par sch.name = q)
      exact fun hc => hq hc.symm
  | some n => rw [Option.map_some']

theorem findNode_popDirs_self {par : String} {sch : Schema} {dirs : List DirNode}
    (hfresh : findNode (childPath par sch.name) dirs = none) :
    findNode (childPath par sch.name) (popDirs par sch dirs) =
      some ⟨childPath par sch.name, true, false, [], some sch.name, sch.tables⟩ := by
  unfold popDirs
  rw [findNode_append]
  rw [findNode_map_preserve _ (fun n => by by_cases hc : n.path = par <;> simp [hc]),
    hfresh]
  rw [Option.map_none']
  show findNode _ [_] = _
  unfold findNode
  rw [if_pos rfl]

theorem FindExtend_popDirs {par : String} {sch : Schema} {dirs : List DirNode}
    (hfresh : findNode (childPath par sch.name) dirs = none) :
    FindExtend dirs (popDirs par sch dirs) := by
  intro q m h
  have hq : q ≠ childPath par sch.name := by
    intro hc
    rw [hc, hfresh] at h
    cases h
  rw [findNode_popDirs_ne hq, h, Option.map_some']
  by_cases hc : m.path = par
  · rw [if_pos hc]
    exact ⟨_, rfl, rfl, rfl, rfl, rfl, rfl,
      fun r hr => List.mem_append_left _ hr⟩
  · rw [if_neg hc]
    exact ⟨m, rfl, rfl, rfl, rfl, rfl, rfl, fun r hr => hr⟩

theorem ReachesL_of_pop {par : String} {sch : Schema} {dirs : List DirNode}
    (hfresh : findNode (childPath par sch.name) dirs = none)
    {a x : String} (h : ReachesL (popDirs par sch dirs) a x) :
    ReachesL dirs a x ∨
      (x = childPath par sch.name ∧ (a = x ∨ ReachesL dirs a par)) := by
  induction h with
  | base => exact Or.inl ReachesL.base
  | @step y q n hp hn hleaf hq ih =>
    have hyc : y ≠ childPath par sch.name := by
      intro hc
      subst hc
      rw [findNode_popDirs_self hfresh] at hn
      injection hn with he
      rw [← he] at hleaf
      cases hleaf
    rw [findNode_popDirs_ne hyc] at hn
    cases hf : findNode y dirs with
    | none => rw [hf] at hn; cases hn
    | some n0 =>
      rw [hf, Option.map_some'] at hn
      injection hn with he
      have hrel : ReachesL dirs a y := by
        rcases ih with hv | ⟨hxc, _⟩
        · exact hv
        · exact absurd hxc hyc
      by_cases hcpar : n0.path = par
      · rw [if_pos hcpar] at he
        rw [← he] at hleaf hq
        rcases List.mem_append.mp hq with hold | hnew
        · exact Or.inl (ReachesL.step hrel hf hleaf hold)
        · rcases List.mem_cons.mp hnew with rfl | hc
          · refine Or.inr ⟨rfl, Or.inr ?_⟩
            rw [← hcpar, findNode_path hf]
            exact hrel
          · cases hc
      · rw [if_neg hcpar] at he
        rw [← he] at hleaf hq
        exact Or.inl (ReachesL.step hrel hf hleaf hq)

/-- Populating a fresh clean leaf preserves every clean reachable region. -/
theorem ReachClean_pop {w : World} {par : String} {sch : Schema}
    {dirs : List DirNode}
    (hfresh : findNode (childPath par sch.name) dirs = none)
    (hcl : ClosedG dirs)
    (hcc : cleanNode w (popDirs par sch dirs)
      ⟨childPath par sch.name, true, false, [], some sch.name, sch.tables⟩) :
    ∀ x, ReachCleanL w dirs x → ReachCleanL w (popDirs par sch dirs) x := by
  intro x hrc q hq n' hn'
  by_cases hqc : q = childPath par sch.name
  · subst hqc
    rw [findNode_popDirs_self hfresh] at hn'
    injection hn' with he
    rw [← he]
    exact hcc
  · rcases ReachesL_of_pop hfresh hq with hv | ⟨hxc, _⟩
    · rw [findNode_popDirs_ne hqc] at hn'
      cases hf : findNode q dirs with
      | none => rw [hf] at hn'; cases hn'
      | some n0 =>
        rw [hf, Option.map_some'] at hn'
        injection hn' with he
        have hcn := hrc _ hv n0 hf
        refine cleanNode_mono ?_ ?_ ?_ ?_ ?_ hcn
        · rw [← he]; by_cases hc : n0.path = par <;> simp [hc]
        · rw [← he]; by_cases hc : n0.path = par <;> simp [hc]
        · rw [← he]; by_cases hc : n0.path = par <;> simp [hc]
        · rw [← he]; by_cases hc : n0.path = par <;> simp [hc]
        · intro _ nm r hr ⟨m, hm, hfm⟩
          have hrne : r ≠ childPath par sch.name := by
            intro hc
            rw [hc, hfresh] at hm
            cases hm
          constructor
          · rw [← he]
            by_cases hc : n0.path = par
            · rw [if_pos hc]
              show r ∈ n0.subdirPaths ++ [childPath par sch.name]
              exact List.mem_append_left _ hr
            · rw [if_neg hc]
              exact hr
          · rw [findNode_popDirs_ne hrne, hm, Option.map_some']
            refine ⟨_, rfl, ?_⟩
            by_cases hc : m.path = par <;> simp [hc, hfm]
    · exact absurd hxc hqc

/-! ### Evolution facts for the three mutations -/

theorem DirsEvolve_FilesOnly {w : World} {p : String} {pre post : List DirNode}
    (hf : FilesOnlyAt p pre post) : DirsEvolve w pre post := by
  intro x n' hn' hl'
  by_cases hxp : x = p
  · subst hxp
    obtain ⟨n, hn, hsh⟩ := hf.2.1 n' hn'
    exact ⟨n, hn, by rw [← hsh.2.1]; exact hl', by rw [hsh.2.2.1],
      fun q hq => Or.inl (by rw [← hsh.2.2.2.1]; exact hq)⟩
  · rw [hf.1 x hxp] at hn'
    exact ⟨n', hn', hl', rfl, fun q hq => Or.inl hq⟩

theorem DirsEvolve_delete {w : World} {v : String} {dirs : List DirNode} :
    DirsEvolve w dirs (deleteDirNodes v dirs) := by
  intro x n' hn' hl'
  by_cases hxv : x = v
  · subst hxv
    rw [findNode_deleteDirNodes_self] at hn'
    cases hn'
  · rw [findNode_deleteDirNodes_ne hxv] at hn'
    cases hf : findNode x dirs with
    | none => rw [hf] at hn'; cases hn'
    | some n =>
      rw [hf, Option.map_some'] at hn'
      injection hn' with he
      refine ⟨n, rfl, by rw [← he] at hl'; exact hl', by rw [← he], ?_⟩
      intro q hq
      rw [← he] at hq
      exact Or.inl (mem_stripPath.mp hq).1

theorem DirsEvolve_pop {w : World} {par : String} {sch : Schema}
    {dirs : List DirNode}
    (hfresh : findNode (childPath par sch.name) dirs = none)
    (hcl : ClosedG dirs)
    (hcc : cleanNode w (popDirs par sch dirs)
      ⟨childPath par sch.name, true, false, [], some sch.name, sch.tables⟩) :
    DirsEvolve w dirs (popDirs par sch dirs) := by
  intro x n' hn' hl'
  by_cases hxc : x = childPath par sch.name
  · subst hxc
    rw [findNode_popDirs_self hfresh] at hn'
    injection hn' with he
    rw [← he] at hl'
    cases hl'
  · rw [findNode_popDirs_ne hxc] at hn'
    cases hf : findNode x dirs with
    | none => rw [hf] at hn'; cases hn'
    | some n =>
      rw [hf, Option.map_some'] at hn'
      injection hn' with he
      refine ⟨n, rfl, ?_, ?_, ?_⟩
      · rw [← he] at hl'
        by_cases hc : n.path = par
        · rw [if_pos hc] at hl'; exact hl'
        · rw [if_neg hc] at hl'; exact hl'
      · rw [← he]
        by_cases hc : n.path = par <;> simp [hc]
      · intro q hq
        rw [← he] at hq
        by_cases hc : n.path = par
        · rw [if_pos hc] at hq
          rcases List.mem_append.mp hq with hold | hnew
          · exact Or.inl hold
          · rcases List.mem_cons.mp hnew with rfl | hx
            · refine Or.inr ⟨?_, ?_⟩
              · intro mq hmq
                rw [findNode_popDirs_self hfresh] at hmq
                injection hmq with hee
                rw [← hee]
              · intro z hz nz hnz
                by_cases hzc : z = childPath par sch.name
                · subst hzc
                  rw [findNode_popDirs_self hfresh] at hnz
                  injection hnz with hee
                  rw [← hee]
                  exact hcc
                · exfalso
                  rcases ReachesL_of_pop hfresh hz with hv | ⟨hxc2, _⟩
                  · rcases ReachesL_decomp hv with rfl | ⟨nn, q0, hnn, hln, _, _⟩
                    · exact hzc rfl
                    · rw [hfresh] at hnn
                      cases hnn
                  · exact hzc hxc2
            · cases hx
        · rw [if_neg hc] at hq
          exact Or.inl hq

/-! ### Preservation of the well-formedness invariants -/

theorem mem_keys_setEntry {k v x : String} :
    ∀ {l : List (String × String)}, x ∈ (setEntry k v l).map Prod.fst →
      x ∈ l.map Prod.fst ∨ x = k := by
  intro l
  induction l with
  | nil =>
    intro h
    rcases List.mem_map.mp h with ⟨e, he, rfl⟩
    rcases List.mem_cons.mp he with rfl | he'
    · exact Or.inr rfl
    · cases he'
  | cons e r ih =>
    intro h
    by_cases hc : e.1 = k
    · rw [show setEntry k v (e :: r) = (k, v) :: r by rw [setEntry, if_pos hc]] at h
      rw [List.map_cons] at h
      rcases List.mem_cons.mp h with rfl | h'
      · exact Or.inr rfl
      · exact Or.inl (List.mem_cons_of_mem _ h')
    · rw [show setEntry k v (e :: r) = e :: setEntry k v r by
        rw [setEntry, if_neg hc]] at h
      rw [List.map_cons] at h
      rcases List.mem_cons.mp h with rfl | h'
      · exact Or.inl (List.mem_cons_self _ _)
      · rcases ih h' with ha | hb
        · exact Or.inl (List.mem_cons_of_mem _ ha)
        · exact Or.inr hb

theorem setEntry_keys_nodup {k v : String} :
    ∀ {l : List (String × String)}, (l.map Prod.fst).Nodup →
      ((setEntry k v l).map Prod.fst).Nodup := by
  intro l
  induction l with
  | nil => intro _; simp [setEntry]
  | cons e r ih =>
    intro h
    rw [List.map_cons, List.nodup_cons] at h
    by_cases hc : e.1 = k
    · rw [show setEntry k v (e :: r) = (k, v) :: r by rw [setEntry, if_pos hc]]
      rw [List.map_cons, List.nodup_cons]
      refine ⟨?_, h.2⟩
      show (k : String) ∉ r.map Prod.fst
      rw [← hc]
      exact h.1
    · rw [show setEntry k v (e :: r) = e :: setEntry k v r by
        rw [setEntry, if_neg hc]]
      rw [List.map_cons, List.nodup_cons]
      refine ⟨?_, ih h.2⟩
      intro hmem
      rcases mem_keys_setEntry hmem with ha | hb
      · exact h.1 ha
      · exact hc hb

theorem removeEntry_keys_sublist {k : String} :
    ∀ (l : List (String × String)),
      ((removeEntry k l).map Prod.fst).Sublist (l.map Prod.fst) := by
  intro l
  induction l with
  | nil => simp [removeEntry]
  | cons e r ih =>
    by_cases hc : e.1 = k
    · rw [show removeEntry k (e :: r) = removeEntry k r by
        rw [removeEntry, if_pos hc]]
      rw [List.map_cons]
      exact ih.cons _
    · rw [show removeEntry k (e :: r) = e :: removeEntry k r by
        rw [removeEntry, if_neg hc]]
      rw [List.map_cons, List.map_cons]
      exact List.Sublist.cons₂ _ ih

theorem coherentB_congr {w : World} {n n' : DirNode} (hp : n'.path = n.path)
    (hs : n'.schemaField = n.schemaField) : coherentB w n' = coherentB w n := by
  unfold coherentB
  rw [hp, hs]

theorem InvD_map_shape {w : World} {dirs : List DirNode} (f : DirNode → DirNode)
    (hsh : ∀ n, (f n).path = n.path ∧ (f n).isLeaf = n.isLeaf ∧
      (f n).isInstanceWithLeafSubdirs = n.isInstanceWithLeafSubdirs ∧
      (f n).subdirPaths = n.subdirPaths ∧ (f n).schemaField = n.schemaField)
    (hfl : ∀ n, (n.files.map Prod.fst).Nodup → ((f n).files.map Prod.fst).Nodup)
    (hinv : InvD w dirs) : InvD w (dirs.map f) := by
  constructor
  · show ((dirs.map f).map DirNode.path).Nodup
    rw [List.map_map]
    have hcomp : DirNode.path ∘ f = DirNode.path := funext (fun n => (hsh n).1)
    rw [hcomp]
    exact hinv.pathsNodup
  · intro n' hn' q hq
    obtain ⟨n, hn, rfl⟩ := List.mem_map.mp hn'
    rw [(hsh n).2.2.2.1] at hq
    rw [(hsh n).1]
    exact hinv.rankOK n hn q hq
  · intro n' hn' m' hm' q hqn hqm
    obtain ⟨n, hn, rfl⟩ := List.mem_map.mp hn'
    obtain ⟨m, hm, rfl⟩ := List.mem_map.mp hm'
    rw [(hsh n).2.2.2.1] at hqn
    rw [(hsh m).2.2.2.1] at hqm
    rw [hinv.uniqParent n hn m hm q hqn hqm]
  · intro n' hn'
    obtain ⟨n, hn, rfl⟩ := List.mem_map.mp hn'
    rw [(hsh n).2.2.2.1]
    exact hinv.subNodup n hn
  · intro n' hn' q hq
    obtain ⟨n, hn, rfl⟩ := List.mem_map.mp hn'
    rw [(hsh n).2.2.2.1] at hq
    rw [findNode_map_preserve f (fun n => (hsh n).1)]
    have := hinv.closedG n hn q hq
    cases hf : findNode q dirs with
    | none => rw [hf] at this; cases this
    | some m => rw [Option.map_some']; rfl
  · intro n' hn' hl'
    obtain ⟨n, hn, rfl⟩ := List.mem_map.mp hn'
    rw [(hsh n).2.1] at hl'
    rw [coherentB_congr (hsh n).1 (hsh n).2.2.2.2]
    exact hinv.coherent n hn hl'
  · intro n' hn'
    obtain ⟨n, hn, rfl⟩ := List.mem_map.mp hn'
    exact hfl n (hinv.filesNodup n hn)

theorem InvD_setFileInDir {w : World} {st : State} {p tn c : String}
    (hinv : InvD w st.dirs) : InvD w (setFileInDir st p tn c).dirs := by
  refine InvD_map_shape _ (fun n => ?_) (fun n hn => ?_) hinv
  · by_cases hc : n.path = p <;> simp [hc]
  · by_cases hc : n.path = p
    · rw [if_pos hc]
      exact setEntry_keys_nodup hn
    · rw [if_neg hc]
      exact hn

theorem InvD_removeFileInDir {w : World} {st : State} {p tn : String}
    (hinv : InvD w st.dirs) : InvD w (removeFileInDir st p tn).dirs := by
  refine InvD_map_shape _ (fun n => ?_) (fun n hn => ?_) hinv
  · by_cases hc : n.path = p <;> simp [hc]
  · by_cases hc : n.path = p
    · rw [if_pos hc]
      exact hn.sublist (removeEntry_keys_sublist n.files)
    · rw [if_neg hc]
      exact hn

theorem mem_deleteDirNodes_full {p0 : String} :
    ∀ {l : List DirNode} {n' : DirNode}, n' ∈ deleteDirNodes p0 l →
      ∃ n, n ∈ l ∧ n.path ≠ p0 ∧
        n' = { n with subdirPaths := stripPath p0 n.subdirPaths } := by
  intro l
  induction l with
  | nil => intro n' h; cases h
  | cons n r ih =>
    intro n' h
    by_cases hp : n.path = p0
    · rw [deleteDirNodes, if_pos hp] at h
      obtain ⟨m, hm, h1, h2⟩ := ih h
      exact ⟨m, List.mem_cons_of_mem _ hm, h1, h2⟩
    · rw [deleteDirNodes, if_neg hp] at h
      rcases List.mem_cons.mp h with rfl | h'
      · exact ⟨n, List.mem_cons_self _ _, hp, rfl⟩
      · obtain ⟨m, hm, h1, h2⟩ := ih h'
        exact ⟨m, List.mem_cons_of_mem _ hm, h1, h2⟩

theorem deleteDirNodes_paths_sublist (v : String) :
    ∀ (l : List DirNode),
      ((deleteDirNodes v l).map DirNode.path).Sublist (l.map DirNode.path) := by
  intro l
  induction l with
  | nil => simp [deleteDirNodes]
  | cons n r ih =>
    by_cases hp : n.path = v
    · rw [deleteDirNodes, if_pos hp, List.map_cons]
      exact ih.cons _
    · rw [deleteDirNodes, if_neg hp, List.map_cons, List.map_cons]
      exact List.Sublist.cons₂ _ ih

theorem stripPath_sublist (v : String) :
    ∀ (l : List String), (stripPath v l).Sublist l := by
  intro l
  induction l with
  | nil => simp [stripPath]
  | cons q r ih =>
    by_cases hq : q = v
    · rw [stripPath, if_pos hq]
      exact ih.cons _
    · rw [stripPath, if_neg hq]
      exact List.Sublist.cons₂ _ ih

theorem InvD_delete {w : World} {v : String} {dirs : List DirNode}
    (hinv : InvD w dirs) : InvD w (deleteDirNodes v dirs) := by
  constructor
  · show ((deleteDirNodes v dirs).map DirNode.path).Nodup
    exact hinv.pathsNodup.sublist (deleteDirNodes_paths_sublist v dirs)
  · intro n' hn' q hq
    obtain ⟨n, hn, hnp, rfl⟩ := mem_deleteDirNodes_full hn'
    have hq' : q ∈ n.subdirPaths := (mem_stripPath.mp hq).1
    exact hinv.rankOK n hn q hq'
  · intro n' hn' m' hm' q hqn hqm
    obtain ⟨n, hn, hnp, rfl⟩ := mem_deleteDirNodes_full hn'
    obtain ⟨m, hm, hmp, rfl⟩ := mem_deleteDirNodes_full hm'
    have hq1 : q ∈ n.subdirPaths := (mem_stripPath.mp hqn).1
    have hq2 : q ∈ m.subdirPaths := (mem_stripPath.mp hqm).1
    rw [hinv.uniqParent n hn m hm q hq1 hq2]
  · intro n' hn'
    obtain ⟨n, hn, hnp, rfl⟩ := mem_deleteDirNodes_full hn'
    exact (hinv.subNodup n hn).sublist (stripPath_sublist v n.subdirPaths)
  · intro n' hn' q hq
    obtain ⟨n, hn, hnp, rfl⟩ := mem_deleteDirNodes_full hn'
    obtain ⟨hq', hqv⟩ := mem_stripPath.mp hq
    have := hinv.closedG n hn q hq'
    rw [findNode_deleteDirNodes_ne hqv]
    cases hf : findNode q dirs with
    | none => rw [hf] at this; cases this
    | some m => rw [Option.map_some']; rfl
  · intro n' hn' hl'
    obtain ⟨n, hn, hnp, rfl⟩ := mem_deleteDirNodes_full hn'
    have hcg : coherentB w
        { n with subdirPaths := stripPath v n.subdirPaths } = coherentB w n :=
      coherentB_congr rfl rfl
    rw [hcg]
    exact hinv.coherent n hn hl'
  · intro n' hn'
    obtain ⟨n, hn, hnp, rfl⟩ := mem_deleteDirNodes_full hn'
    exact hinv.filesNodup n hn

theorem InvD_popDirs {w : World} {par : String} {sch : Schema}
    {dirs : List DirNode}
    (hfresh : findNode (childPath par sch.name) dirs = none)
    (htn : (sch.tables.map Prod.fst).Nodup)
    (hcoh : coherentB w
      ⟨childPath par sch.name, true, false, [], some sch.name, sch.tables⟩ = true)
    (hinv : InvD w dirs) : InvD w (popDirs par sch dirs) := by
  have hmemchar : ∀ {n' : DirNode}, n' ∈ popDirs par sch dirs →
      (∃ n, n ∈ dirs ∧ n' = (if n.path = par then
        { n with subdirPaths := n.subdirPaths ++ [childPath par sch.name] }
        else n)) ∨
      n' = ⟨childPath par sch.name, true, false, [], some sch.name, sch.tables⟩ := by
    intro n' h
    rcases List.mem_append.mp h with h1 | h2
    · obtain ⟨n, hn, rfl⟩ := List.mem_map.mp h1
      exact Or.inl ⟨n, hn, rfl⟩
    · rcases List.mem_cons.mp h2 with rfl | h3
      · exact Or.inr rfl
      · cases h3
  have hedge : ∀ {n : DirNode} {q : String}, n ∈ dirs →
      q ∈ (if n.path = par then
        { n with subdirPaths := n.subdirPaths ++ [childPath par sch.name] }
        else n).subdirPaths →
      q ∈ n.subdirPaths ∨ (n.path = par ∧ q = childPath par sch.name) := by
    intro n q hn hq
    by_cases hc : n.path = par
    · rw [if_pos hc] at hq
      rcases List.mem_append.mp hq with h1 | h2
      · exact Or.inl h1
      · rcases List.mem_cons.mp h2 with rfl | h3
        · exact Or.inr ⟨hc, rfl⟩
        · cases h3
    · rw [if_neg hc] at hq
      exact Or.inl hq
  have hnoc : ∀ {n : DirNode}, n ∈ dirs →
      childPath par sch.name ∉ n.subdirPaths := by
    intro n hn hc
    have := hinv.closedG n hn _ hc
    rw [hfresh] at this
    cases this
  constructor
  · show ((popDirs par sch dirs).map DirNode.path).Nodup
    unfold popDirs
    rw [List.map_append, List.map_map]
    have hcomp : DirNode.path ∘ (fun n => if n.path = par then
        { n with subdirPaths := n.subdirPaths ++ [childPath par sch.name] }
        else n) = DirNode.path := by
      funext n
      by_cases hc : n.path = par <;> simp [hc]
    rw [hcomp]
    refine List.Nodup.append hinv.pathsNodup (by simp) ?_
    intro a ha hb
    simp at hb
    subst hb
    obtain ⟨n, hn, hp⟩ := List.mem_map.mp ha
    exact findNode_none_forall hfresh n hn hp
  · intro n' hn' q hq
    rcases hmemchar hn' with ⟨n, hn, rfl⟩ | rfl
    · have hpath : (if n.path = par then
          { n with subdirPaths := n.subdirPaths ++ [childPath par sch.name] }
          else n).path = n.path := by
        by_cases hc : n.path = par <;> simp [hc]
      rw [hpath]
      rcases hedge hn hq with h1 | ⟨hp, rfl⟩
      · exact hinv.rankOK n hn q h1
      · rw [hp]
        exact childPath_len par sch.name
    · cases hq
  · intro n' hn' m' hm' q hqn hqm
    rcases hmemchar hn' with ⟨n, hn, rfl⟩ | rfl
    · rcases hmemchar hm' with ⟨m, hm, rfl⟩ | rfl
      · rcases hedge hn hqn with h1 | ⟨hpn, rfl⟩
        · rcases hedge hm hqm with h2 | ⟨hpm, hqc⟩
          · rw [hinv.uniqParent n hn m hm q h1 h2]
          · rw [hqc] at h1
            exact absurd h1 (hnoc hn)
        · rcases hedge hm hqm with h2 | ⟨hpm, _⟩
          · exact absurd h2 (hnoc hm)
          · rw [paths_uniqueL hinv.pathsNodup hn hm (hpn.trans hpm.symm)]
      · cases hqm
    · cases hqn
  · intro n' hn'
    rcases hmemchar hn' with ⟨n, hn, rfl⟩ | rfl
    · by_cases hc : n.path = par
      · rw [if_pos hc]
        show (n.subdirPaths ++ [childPath par sch.name]).Nodup
        rw [List.nodup_append]
        exact ⟨hinv.subNodup n hn, by simp, by
          intro a ha hb
          simp at hb
          subst hb
          exact (hnoc hn) ha⟩
      · rw [if_neg hc]
        exact hinv.subNodup n hn
    · simp
  · intro n' hn' q hq
    rcases hmemchar hn' with ⟨n, hn, rfl⟩ | rfl
    · rcases hedge hn hq with h1 | ⟨hp, rfl⟩
      · have := hinv.closedG n hn q h1
        have hqc : q ≠ childPath par sch.name := by
          intro hc
          rw [hc, hfresh] at this
          cases this
        rw [findNode_popDirs_ne hqc]
        cases hf : findNode q dirs with
        | none => rw [hf] at this; cases this
        | some m => rw [Option.map_some']; rfl
      · rw [findNode_popDirs_self hfresh]
        rfl
    · cases hq
  · intro n' hn' hl'
    rcases hmemchar hn' with ⟨n, hn, rfl⟩ | rfl
    · have h1 : (if n.path = par then
          { n with subdirPaths := n.subdirPaths ++ [childPath par sch.name] }
          else n).path = n.path := by
        by_cases hc : n.path = par <;> simp [hc]
      have h2 : (if n.path = par then
          { n with subdirPaths := n.subdirPaths ++ [childPath par sch.name] }
          else n).schemaField = n.schemaField := by
        by_cases hc : n.path = par <;> simp [hc]
      have h3 : (if n.path = par then
          { n with subdirPaths := n.subdirPaths ++ [childPath par sch.name] }
          else n).isLeaf = n.isLeaf := by
        by_cases hc : n.path = par <;> simp [hc]
      rw [coherentB_congr h1 h2]
      rw [h3] at hl'
      exact hinv.coherent n hn hl'
    · exact hcoh
  · intro n' hn'
    rcases hmemchar hn' with ⟨n, hn, rfl⟩ | rfl
    · have : (if n.path = par then
          { n with subdirPaths := n.subdirPaths ++ [childPath par sch.name] }
          else n).files = n.files := by
        by_cases hc : n.path = par <;> simp [hc]
      rw [this]
      exact hinv.filesNodup n hn
    · exact htn

theorem applyTableDiffs_InvD (w : World) (p : String) (s : Schema) :
    ∀ (D : List TableDiff) (st : State), InvD w st.dirs →
      InvD w (applyTableDiffs w p s D st).2.dirs := by
  intro D
  induction D with
  | nil => intro st h; exact h
  | cons td rest ih =>
    intro st h
    rcases applyTableDiffs_cons_split w p s td st with
      ⟨r, ext, _, _, _, heq⟩ | ⟨tn, c, htn, heq⟩ | ⟨tn, htn, heq⟩
    · rw [heq rest]
      exact h
    · rw [heq rest]
      exact ih _ (InvD_setFileInDir h)
    · rw [heq rest]
      exact ih _ (InvD_removeFileInDir h)

theorem created_cleanNode {w : World} {L : List Schema} (hw : NiceWorld w L)
    {par : String} {sch : Schema} (hs : sch ∈ L) (dirs : List DirNode) :
    cleanNode w dirs
      ⟨childPath par sch.name, true, false, [], some sch.name, sch.tables⟩ := by
  obtain ⟨t, ts, sns, htc, hsn⟩ := hw.created par sch hs
  unfold cleanNode
  rw [if_pos rfl]
  refine ⟨t, ts, sch.name, sns, sch, htc, hsn, ?_, ?_⟩
  · show Target.Schema t sch.name = some sch
    unfold Target.Schema
    rw [hw.live _ t ts htc]
    exact findSchema_self hw.namesNodup hs
  · rw [hw.engine]
    exact canonicalSchemaDiff_self (hw.lnodup sch hs)

theorem created_coherentB {w : World} {L : List Schema} (hw : NiceWorld w L)
    {par : String} {sch : Schema} (hs : sch ∈ L) :
    coherentB w
      ⟨childPath par sch.name, true, false, [], some sch.name, sch.tables⟩ = true := by
  obtain ⟨t, ts, sns, htc, hsn⟩ := hw.created par sch hs
  unfold coherentB
  simp [htc, hsn]

/-- Composite postcondition of the schema-discovery loop. -/
theorem discover_post {w : World} {L : List Schema} (hw : NiceWorld w L)
    (par : String) (seenS : List String) :
    ∀ (schemas : List Schema) (st : State) (ret : Nat) (st' : State),
      discoverSchemas w par seenS schemas st = (ret, st') →
      (∀ s ∈ schemas, s ∈ L) →
      InvD w st.dirs →
      (∃ nP, findNode par st.dirs = some nP) →
      InvD w st'.dirs ∧
      FindExtend st.dirs st'.dirs ∧
      DirsEvolve w st.dirs st'.dirs ∧
      (∀ x, ReachCleanL w st.dirs x → ReachCleanL w st'.dirs x) ∧
      (ret = 0 → ∀ s ∈ schemas, elemStr s.name seenS = true ∨
        (∃ m', findNode (childPath par s.name) st'.dirs = some m' ∧
          m'.schemaField = some s.name) ∧
        (∃ n', findNode par st'.dirs = some n' ∧
          childPath par s.name ∈ n'.subdirPaths)) := by
  intro schemas
  induction schemas with
  | nil =>
    intro st ret st' hrun _ hinv _
    rw [discoverSchemas] at hrun
    injection hrun with h1 h2
    subst h2
    exact ⟨hinv, FindExtend_refl _, DirsEvolve_refl w _, fun x h => h,
      fun _ s hs => (by cases hs)⟩
  | cons sch rest ih =>
    intro st ret st' hrun hsub hinv hpar
    rw [discoverSchemas] at hrun
    by_cases hseen : elemStr sch.name seenS = true
    · rw [if_pos hseen] at hrun
      obtain ⟨c1, c2, c3, c4, c5⟩ := ih st ret st' hrun
        (fun s hs => hsub s (List.mem_cons_of_mem _ hs)) hinv hpar
      refine ⟨c1, c2, c3, c4, fun hret s hs => ?_⟩
      rcases List.mem_cons.mp hs with rfl | hs'
      · exact Or.inl hseen
      · exact c5 hret s hs'
    · rw [if_neg hseen] at hrun
      by_cases hflag : w.populateSchemaDirFails par sch.name = true
      · rw [PopulateSchemaDir_flagfail st hflag] at hrun
        injection hrun with h1 h2
        subst h2
        refine ⟨hinv, FindExtend_refl _, DirsEvolve_refl w _, fun x h => h,
          fun hret => ?_⟩
        rw [← h1] at hret
        cases hret
      · rw [Bool.not_eq_true] at hflag
        cases hx : findDir st (childPath par sch.name) with
        | some n =>
          rw [PopulateSchemaDir_exists st hflag hx] at hrun
          injection hrun with h1 h2
          subst h2
          refine ⟨hinv, FindExtend_refl _, DirsEvolve_refl w _, fun x h => h,
            fun hret => ?_⟩
          rw [← h1] at hret
          cases hret
        | none =>
          rw [PopulateSchemaDir_ok st hflag hx] at hrun
          have hschL : sch ∈ L := hsub sch (List.mem_cons_self _ _)
          have hfresh : findNode (childPath par sch.name) st.dirs = none := hx
          have hclc : cleanNode w (popDirs par sch st.dirs)
              ⟨childPath par sch.name, true, false, [], some sch.name,
                sch.tables⟩ :=
            created_cleanNode hw hschL (popDirs par sch st.dirs)
          have hinv'' : InvD w (popDirs par sch st.dirs) :=
            InvD_popDirs hfresh (hw.lnodup sch hschL)
              (created_coherentB hw hschL) hinv
          obtain ⟨nP, hnP⟩ := hpar
          have hparc : par ≠ childPath par sch.name := by
            intro hc
            rw [← hc] at hfresh
            rw [hfresh] at hnP
            cases hnP
          have hparPop : findNode par (popDirs par sch st.dirs) =
              some { nP with subdirPaths :=
                nP.subdirPaths ++ [childPath par sch.name] } := by
            rw [findNode_popDirs_ne hparc, hnP, Option.map_some',
              if_pos (findNode_path hnP)]
          have hstep : ∀ x, ReachCleanL w st.dirs x →
              ReachCleanL w (popDirs par sch st.dirs) x :=
            ReachClean_pop hfresh hinv.closedG hclc
          have hevolstep : DirsEvolve w st.dirs (popDirs par sch st.dirs) :=
            DirsEvolve_pop hfresh hinv.closedG hclc
          have hext : FindExtend st.dirs (popDirs par sch st.dirs) :=
            FindExtend_popDirs hfresh
          obtain ⟨c1, c2, c3, c4, c5⟩ := ih
            { st with dirs := popDirs par sch st.dirs } ret st' hrun
            (fun s hs => hsub s (List.mem_cons_of_mem _ hs)) hinv''
            ⟨_, hparPop⟩
          refine ⟨c1, FindExtend_trans hext c2,
            DirsEvolve_trans hevolstep c3 c4,
            fun x h => c4 x (hstep x h), fun hret s hs => ?_⟩
          rcases List.mem_cons.mp hs with rfl | hs'
          · refine Or.inr ⟨?_, ?_⟩
            · obtain ⟨m', hm', h1, h2, h3, h4, h5, h6⟩ := c2 _ _
                (findNode_popDirs_self hfresh)
              exact ⟨m', hm', by rw [h4]⟩
            · obtain ⟨n', hn', h1, h2, h3, h4, h5, h6⟩ := c2 _ _ hparPop
              refine ⟨n', hn', h6 _ ?_⟩
              exact List.mem_append_right _ (List.mem_cons_self _ _)
          · exact c5 hret s hs'

/-! ### The per-call postcondition of `pull` -/

/-- Everything one recursive `pull` call guarantees: invariant preservation,
survival of protected nodes and edges, provenance of new seen-marks, stability
of clean regions, evolution of the graph, and — on success from a seen-set
disjoint from the subtree — cleanliness of everything reachable. -/
structure PullPost (w : World) (L : List Schema) (p : String) (st : State)
    (res : Outcome) (st' : State) : Prop where
  inv : InvD w st'.dirs
  seenInv : SeenInv st'
  persist : ∀ r nm m, findNode r st.dirs = some m → m.schemaField = some nm →
    (findSchema nm L).isSome = true → ∃ m', findNode r st'.dirs = some m' ∧
      m'.schemaField = some nm
  intPersist : ∀ x n, findNode x st.dirs = some n → n.isLeaf = false →
    ∃ n', findNode x st'.dirs = some n' ∧ n'.isLeaf = false ∧
      n'.isInstanceWithLeafSubdirs = n.isInstanceWithLeafSubdirs ∧
      ∀ q ∈ n.subdirPaths, SafePath L st.dirs q → q ∈ n'.subdirPaths
  marks : ∀ x, elemStr x st'.seen = true → elemStr x st.seen = true ∨
    (ReachesL st.dirs p x ∧ ∃ nx, findNode x st'.dirs = some nx ∧ nx.isLeaf = false)
  stab : ∀ x, ReachCleanL w st.dirs x → ReachCleanL w st'.dirs x
  evolve : DirsEvolve w st.dirs st'.dirs
  clean : res = Outcome.exit 0 → SeenAway st p → ReachCleanL w st'.dirs p

theorem PullPost_triv {w : World} {L : List Schema} {p : String} {st : State}
    {res : Outcome} {st' : State} (hd : st'.dirs = st.dirs)
    (hs : st'.seen = st.seen) (hinv : InvD w st.dirs) (hsi : SeenInv st)
    (hcln : res = Outcome.exit 0 → ReachCleanL w st.dirs p) :
    PullPost w L p st res st' := by
  constructor
  · rw [hd]; exact hinv
  · intro x hx
    rw [hs] at hx
    obtain ⟨nx, h1, h2⟩ := hsi x hx
    rw [hd]
    exact ⟨nx, h1, h2⟩
  · intro r nm m h1 h2 h3
    rw [hd]
    exact ⟨m, h1, h2⟩
  · intro x n h1 h2
    rw [hd]
    exact ⟨n, h1, h2, rfl, fun q hq _ => hq⟩
  · intro x hx
    rw [hs] at hx
    exact Or.inl hx
  · intro x hx
    rw [hd]
    exact hx
  · rw [hd]
    exact DirsEvolve_refl w st.dirs
  · intro h1 _
    rw [hd]
    exact hcln h1

theorem PullPost_filesOnly {w : World} {L : List Schema} {p : String}
    {st : State} {res : Outcome} {st' : State}
    (hfo : FilesOnlyAt p st.dirs st'.dirs) (hs : st'.seen = st.seen)
    (hdirty : ¬ CleanAtL w st.dirs p) (hinv' : InvD w st'.dirs)
    (hsi : SeenInv st)
    (hcln : res = Outcome.exit 0 → ReachCleanL w st'.dirs p) :
    PullPost w L p st res st' := by
  constructor
  · exact hinv'
  · intro x hx
    rw [hs] at hx
    obtain ⟨nx, h1, h2⟩ := hsi x hx
    by_cases hxp : x = p
    · subst hxp
      obtain ⟨nx', h1', hsh⟩ := hfo.2.2 nx h1
      exact ⟨nx', h1', by rw [hsh.2.1]; exact h2⟩
    · rw [← hfo.1 x hxp] at h1
      exact ⟨nx, h1, h2⟩
  · intro r nm m h1 h2 h3
    by_cases hrp : r = p
    · subst hrp
      obtain ⟨m', h1', hsh⟩ := hfo.2.2 m h1
      exact ⟨m', h1', by rw [hsh.2.2.2.2]; exact h2⟩
    · rw [← hfo.1 r hrp] at h1
      exact ⟨m, h1, h2⟩
  · intro x n h1 h2
    by_cases hxp : x = p
    · subst hxp
      obtain ⟨n', h1', hsh⟩ := hfo.2.2 n h1
      exact ⟨n', h1', by rw [hsh.2.1]; exact h2, by rw [hsh.2.2.1],
        fun q hq _ => by rw [hsh.2.2.2.1]; exact hq⟩
    · rw [← hfo.1 x hxp] at h1
      exact ⟨n, h1, h2, rfl, fun q hq _ => hq⟩
  · intro x hx
    rw [hs] at hx
    exact Or.inl hx
  · exact ReachClean_FilesOnly hfo hdirty
  · exact DirsEvolve_FilesOnly hfo
  · intro h1 _
    exact hcln h1

theorem coherent_resolves {w : World} {L : List Schema} (hw : NiceWorld w L)
    {node : DirNode} (hcoh : coherentB w node = true) {nm : String}
    (hnm : node.schemaField = some nm) :
    ∃ t ts sns, w.targetsOf node.path = t :: ts ∧ t.schemaNames = nm :: sns ∧
      Target.Schema t nm = findSchema nm L := by
  unfold coherentB at hcoh
  rw [hnm] at hcoh
  cases htg : w.targetsOf node.path with
  | nil =>
    simp only [htg] at hcoh
    cases hcoh
  | cons t ts =>
    simp only [htg] at hcoh
    cases hsn : t.schemaNames with
    | nil =>
      simp only [hsn] at hcoh
      cases hcoh
    | cons sn sns =>
      simp only [hsn, decide_eq_true_eq] at hcoh
      subst hcoh
      refine ⟨t, ts, sns, rfl, hsn, ?_⟩
      unfold Target.Schema
      rw [hw.live _ t ts htg]

/-- Postcondition of one leaf visit. -/
theorem pullLeaf_post {w : World} {L : List Schema} (hw : NiceWorld w L)
    {p : String} {node : DirNode} {st : State}
    (hfind : findDir st p = some node) (hleaf : node.isLeaf = true)
    (hinv : InvD w st.dirs) (hsi : SeenInv st)
    {res : Outcome} {st' : State}
    (hrun : pullLeaf w p node st = (res, st')) :
    PullPost w L p st res st' := by
  cases htarg : w.targetsOf p with
  | nil =>
    rw [pullLeaf_no_targets node st htarg] at hrun
    injection hrun with h1 h2
    subst h1
    subst h2
    exact PullPost_triv rfl rfl hinv hsi (fun hc => by cases hc)
  | cons t ts =>
    cases hsn : t.schemaNames with
    | nil =>
      rw [pullLeaf_no_schemaNames node st htarg hsn] at hrun
      injection hrun with h1 h2
      subst h1
      subst h2
      exact PullPost_triv rfl rfl hinv hsi (fun hc => by cases hc)
    | cons sn sns =>
      cases hto : Target.Schema t sn with
      | none =>
        by_cases hdel : w.deleteDirFails p = true
        · rw [pullLeaf_gone_fail node st htarg hsn hto hdel] at hrun
          injection hrun with h1 h2
          subst h1
          subst h2
          exact PullPost_triv rfl rfl hinv hsi (fun hc => by cases hc)
        · rw [Bool.not_eq_true] at hdel
          rw [pullLeaf_gone_ok node st htarg hsn hto hdel] at hrun
          injection hrun with h1 h2
          subst h1
          subst h2
          have hdirty : ¬ CleanAtL w st.dirs p := by
            intro hcl
            have hcn := hcl node hfind
            rw [cleanNode, if_pos hleaf] at hcn
            obtain ⟨t', ts', sn', sns', s', ht', hsn', hto', _⟩ := hcn
            rw [findDir_path hfind, htarg] at ht'
            injection ht' with he1 he2
            subst he1
            rw [hsn] at hsn'
            injection hsn' with he3 he4
            subst he3
            rw [hto] at hto'
            cases hto'
          have hnodel : ∀ nm, node.schemaField = some nm →
              (findSchema nm L).isSome = true → False := by
            intro nm hnm hres
            obtain ⟨t', ts', sns', htg', hsn', hts⟩ := coherent_resolves hw
              (hinv.coherent node (findNode_mem hfind) hleaf) hnm
            rw [findDir_path hfind, htarg] at htg'
            injection htg' with he1 he2
            subst he1
            rw [hsn] at hsn'
            injection hsn' with he3 he4
            subst he3
            rw [hts] at hto
            rw [hto] at hres
            cases hres
          constructor
          · show InvD w (deleteDirNodes p _)
            exact InvD_delete hinv
          · intro x hx
            obtain ⟨nx, h1, h2⟩ := hsi x hx
            have hxp : x ≠ p := by
              intro hc
              subst hc
              have he0 := hfind.symm.trans h1
              injection he0 with he
              rw [← he] at h2
              rw [hleaf] at h2
              cases h2
            show ∃ nx', findNode x (deleteDirNodes p st.dirs) = some nx' ∧ _
            rw [findNode_deleteDirNodes_ne hxp, h1, Option.map_some']
            exact ⟨_, rfl, h2⟩
          · intro r nm m h1 h2 h3
            have hrp : r ≠ p := by
              intro hc
              subst hc
              have he0 := hfind.symm.trans h1
              injection he0 with he
              rw [← he] at h2
              exact hnodel nm h2 h3
            show ∃ m', findNode r (deleteDirNodes p st.dirs) = some m' ∧ _
            rw [findNode_deleteDirNodes_ne hrp, h1, Option.map_some']
            exact ⟨_, rfl, h2⟩
          · intro x n h1 h2
            have hxp : x ≠ p := by
              intro hc
              subst hc
              have he0 := hfind.symm.trans h1
              injection he0 with he
              rw [← he] at h2
              rw [hleaf] at h2
              cases h2
            show ∃ n', findNode x (deleteDirNodes p st.dirs) = some n' ∧ _
            rw [findNode_deleteDirNodes_ne hxp, h1, Option.map_some']
            refine ⟨_, rfl, h2, rfl, ?_⟩
            intro q hq hsafe
            have hqp : q ≠ p := by
              intro hc
              subst hc
              obtain ⟨mq, hmq, hcond⟩ := hsafe
              have he1 := hfind.symm.trans hmq
              injection he1 with he2
              rw [← he2] at hcond
              rcases hcond with hil | ⟨nm, hnm, hres⟩
              · rw [hleaf] at hil
                cases hil
              · exact hnodel nm hnm hres
            show q ∈ stripPath p n.subdirPaths
            exact mem_stripPath.mpr ⟨hq, hqp⟩
          · intro x hx
            exact Or.inl hx
          · exact ReachClean_delete hdirty
          · exact DirsEvolve_delete
          · intro _ _
            show ReachCleanL w (deleteDirNodes p st.dirs) p
            exact ReachClean_none (findNode_deleteDirNodes_self p st.dirs)
      | some toSchema =>
        by_cases hpop : w.populateTempFails p = true
        · rw [pullLeaf_popfail node st htarg hsn hto hpop] at hrun
          injection hrun with h1 h2
          subst h1
          subst h2
          exact PullPost_triv rfl rfl hinv hsi (fun hc => by cases hc)
        · rw [Bool.not_eq_true] at hpop
          rw [pullLeaf_main node st htarg hsn hto hpop] at hrun
          have hmemL : toSchema ∈ L := by
            have : Target.Schema t sn = findSchema sn t.schemas := rfl
            rw [hw.live _ t ts htarg] at this
            rw [this] at hto
            exact (findSchema_mem hto).1
          by_cases hcl : CleanAtL w st.dirs p
          · have hcn := hcl node hfind
            rw [cleanNode, if_pos hleaf] at hcn
            obtain ⟨t', ts', sn', sns', s', ht', hsn', hto', hdiff⟩ := hcn
            rw [findDir_path hfind, htarg] at ht'
            injection ht' with he1 he2
            subst he1
            rw [hsn] at hsn'
            injection hsn' with he3 he4
            subst he3
            rw [hto] at hto'
            injection hto' with he5
            subst he5
            rw [hdiff, applyTableDiffs_nil] at hrun
            have hleafall : ∀ n, findNode p st.dirs = some n → n.isLeaf = true := by
              intro n h1
              have he0 := hfind.symm.trans h1
              injection he0 with he
              rw [← he]
              exact hleaf
            by_cases hdrop : w.dropTempFails p = true
            · simp only [hdrop, if_true] at hrun
              injection hrun with h1 h2
              subst h1
              subst h2
              exact PullPost_triv rfl rfl hinv hsi (fun hc => by cases hc)
            · simp only [hdrop, Bool.false_eq_true, if_false] at hrun
              injection hrun with h1 h2
              subst h1
              subst h2
              refine PullPost_triv rfl rfl hinv hsi (fun _ => ?_)
              exact ReachClean_of_leaf hleafall hcl
          · cases happ : applyTableDiffs w p toSchema
                (w.newSchemaDiff ⟨"_skeema_tmp", node.files⟩ toSchema)
                (addLog { addLog st (.updating p) with tempLive := true }
                  (.populatedTemp p)) with
            | mk r1 st2 =>
              rw [happ] at hrun
              have hfo : FilesOnlyAt p st.dirs st2.dirs := by
                have := FilesOnlyAt_applyTableDiffs w p toSchema
                  (w.newSchemaDiff ⟨"_skeema_tmp", node.files⟩ toSchema)
                  (addLog { addLog st (.updating p) with tempLive := true }
                    (.populatedTemp p))
                rw [happ] at this
                exact this
              have hseen2 : st2.seen = st.seen := by
                have := applyTableDiffs_ghost w p toSchema
                  (w.newSchemaDiff ⟨"_skeema_tmp", node.files⟩ toSchema)
                  (addLog { addLog st (.updating p) with tempLive := true }
                    (.populatedTemp p))
                rw [happ] at this
                exact this.2.1
              have hinv2 : InvD w st2.dirs := by
                have := applyTableDiffs_InvD w p toSchema
                  (w.newSchemaDiff ⟨"_skeema_tmp", node.files⟩ toSchema)
                  (addLog { addLog st (.updating p) with tempLive := true }
                    (.populatedTemp p)) hinv
                rw [happ] at this
                exact this
              cases r1 with
              | exit c =>
                cases c with
                | zero =>
                  by_cases hdrop : w.dropTempFails p = true
                  · simp only [hdrop, if_true] at hrun
                    injection hrun with h1 h2
                    subst h1
                    subst h2
                    exact PullPost_filesOnly hfo hseen2 hcl hinv2 hsi
                      (fun hc => by cases hc)
                  · simp only [hdrop, Bool.false_eq_true, if_false] at hrun
                    injection hrun with h1 h2
                    subst h1
                    subst h2
                    have hfilesmid : filesAt (addLog { addLog st (.updating p)
                        with tempLive := true } (.populatedTemp p)) p =
                        node.files := by
                      unfold filesAt
                      rw [show findDir (addLog { addLog st (.updating p) with
                          tempLive := true } (.populatedTemp p)) p =
                          findDir st p from rfl, hfind]
                    have hexx : (findDir (addLog { addLog st (.updating p) with
                        tempLive := true } (.populatedTemp p)) p).isSome =
                        true := by
                      rw [show findDir (addLog { addLog st (.updating p) with
                          tempLive := true } (.populatedTemp p)) p =
                          findDir st p from rfl, hfind]
                      rfl
                    have hfnn : ((filesAt (addLog { addLog st (.updating p) with
                        tempLive := true } (.populatedTemp p)) p).map
                        Prod.fst).Nodup := by
                      rw [hfilesmid]
                      exact hinv.filesNodup node (findNode_mem hfind)
                    have happ2 : applyTableDiffs w p toSchema
                        (canonicalSchemaDiff ⟨"_skeema_tmp",
                          filesAt (addLog { addLog st (.updating p) with
                            tempLive := true } (.populatedTemp p)) p⟩ toSchema)
                        (addLog { addLog st (.updating p) with
                          tempLive := true } (.populatedTemp p)) =
                        (.exit 0, st2) := by
                      rw [hfilesmid, ← hw.engine]
                      exact happ
                    have hsync : canonicalSchemaDiff
                        ⟨"_skeema_tmp", filesAt st2 p⟩ toSchema = [] :=
                      applyTableDiffs_sync hexx (hw.lnodup toSchema hmemL)
                        hfnn happ2
                    refine PullPost_filesOnly hfo hseen2 hcl hinv2 hsi
                      (fun _ => ?_)
                    have hleafall2 : ∀ n, findNode p st2.dirs = some n →
                        n.isLeaf = true := by
                      intro n h1
                      obtain ⟨n0, hn0, hsh⟩ := hfo.2.1 n h1
                      have he0 := hfind.symm.trans hn0
                      injection he0 with he
                      rw [hsh.2.1, ← he]
                      exact hleaf
                    refine ReachClean_of_leaf hleafall2 ?_
                    intro nn hnn
                    have hnn2 : findNode p st2.dirs = some nn := hnn
                    rw [cleanNode, if_pos (hleafall2 nn hnn)]
                    refine ⟨t, ts, sn, sns, toSchema, ?_, hsn, hto, ?_⟩
                    · rw [findNode_path hnn2]
                      exact htarg
                    · rw [hw.engine]
                      rw [show nn.files = filesAt st2 p from by
                        unfold filesAt
                        rw [show findDir st2 p = findNode p st2.dirs from rfl,
                          hnn2]]
                      exact hsync
                | succ c =>
                  injection hrun with h1 h2
                  subst h1
                  subst h2
                  exact PullPost_filesOnly hfo hseen2 hcl hinv2 hsi
                    (fun hc => by cases hc)
              | panicked msg =>
                injection hrun with h1 h2
                subst h1
                subst h2
                exact PullPost_filesOnly hfo hseen2 hcl hinv2 hsi
                  (fun hc => by cases hc)
              | outOfFuel =>
                injection hrun with h1 h2
                subst h1
                subst h2
                exact PullPost_filesOnly hfo hseen2 hcl hinv2 hsi
                  (fun hc => by cases hc)

/-- Postcondition of the subdirectory loop, relative to the entry state of the
enclosing internal-directory visit. -/
theorem pullSubdirs_post {w : World} {L : List Schema} (hw : NiceWorld w L)
    (recur : String → State → Outcome × State)
    (hrec : ∀ q st res st', recur q st = (res, st') → InvD w st.dirs →
      SeenInv st → PullPost w L q st res st')
    (st0 : State) (p : String) (nodeP : DirNode)
    (hfindP : findNode p st0.dirs = some nodeP) (hleafP : nodeP.isLeaf = false)
    (hinv0 : InvD w st0.dirs) :
    ∀ (pre rest : List String), ∀ (stc : State) (res : Outcome) (st' : State),
      pullSubdirsAux recur rest stc = (res, st') →
      (∀ q ∈ pre ++ rest, q ∈ nodeP.subdirPaths) →
      (pre ++ rest).Nodup →
      InvD w stc.dirs → SeenInv stc →
      DirsEvolve w st0.dirs stc.dirs →
      (∃ nP, findNode p stc.dirs = some nP ∧ nP.isLeaf = false) →
      (∀ x, elemStr x stc.seen = true → elemStr x st0.seen = true ∨ x = p ∨
        (∃ c, c ∈ pre ∧ ReachesL st0.dirs c x ∧
          ∃ nx, findNode x stc.dirs = some nx ∧ nx.isLeaf = false)) →
      InvD w st'.dirs ∧ SeenInv st' ∧
      (∀ r nm m, findNode r stc.dirs = some m → m.schemaField = some nm →
        (findSchema nm L).isSome = true → ∃ m', findNode r st'.dirs = some m' ∧
          m'.schemaField = some nm) ∧
      (∀ x n, findNode x stc.dirs = some n → n.isLeaf = false →
        ∃ n', findNode x st'.dirs = some n' ∧ n'.isLeaf = false ∧
          n'.isInstanceWithLeafSubdirs = n.isInstanceWithLeafSubdirs ∧
          ∀ q ∈ n.subdirPaths, SafePath L stc.dirs q → q ∈ n'.subdirPaths) ∧
      (∀ x, elemStr x st'.seen = true → elemStr x stc.seen = true ∨
        (∃ c, c ∈ rest ∧ ReachesL st0.dirs c x ∧
          ∃ nx, findNode x st'.dirs = some nx ∧ nx.isLeaf = false)) ∧
      (∀ x, ReachCleanL w stc.dirs x → ReachCleanL w st'.dirs x) ∧
      DirsEvolve w stc.dirs st'.dirs ∧
      (SeenAway st0 p → res = Outcome.exit 0 →
        ∀ q ∈ rest, ReachCleanL w st'.dirs q) := by
  intro pre rest
  induction rest generalizing pre with
  | nil =>
    intro stc res st' hrun hsubs hnd hinvc hsic hevol hintP hment
    rw [pullSubdirsAux_nil] at hrun
    injection hrun with h1 h2
    subst h1
    subst h2
    exact ⟨hinvc, hsic, fun r nm m a b c => ⟨m, a, b⟩,
      fun x n a b => ⟨n, a, b, rfl, fun q hq _ => hq⟩,
      fun x hx => Or.inl hx, fun x h => h, DirsEvolve_refl w _,
      fun _ _ q hq => (by cases hq)⟩
  | cons q rest' ih =>
    intro stc res st' hrun hsubs hnd hinvc hsic hevol hintP hment
    have hqsub : q ∈ nodeP.subdirPaths :=
      hsubs q (List.mem_append_right _ (List.mem_cons_self _ _))
    have hsubs' : ∀ x ∈ (pre ++ [q]) ++ rest', x ∈ nodeP.subdirPaths := by
      intro x hx
      apply hsubs
      rw [List.append_assoc] at hx
      rw [show [q] ++ rest' = q :: rest' from rfl] at hx
      exact hx
    have hnd' : ((pre ++ [q]) ++ rest').Nodup := by
      rw [List.append_assoc]
      exact hnd
    have hdisj : List.Disjoint pre (q :: rest') :=
      List.disjoint_of_nodup_append hnd
    have hstep0 : ReachesL st0.dirs p q :=
      ReachesL.step ReachesL.base hfindP hleafP hqsub
    have hskipFalse : SeenAway st0 p → elemStr q stc.seen = true → False := by
      intro hsa hskip
      rcases hment q hskip with h0 | h0 | ⟨c, hcpre, hreach, _, _, _⟩
      · exact hsa q h0 hstep0
      · have hrank := hinv0.rankOK nodeP (findNode_mem hfindP) q hqsub
        rw [findNode_path hfindP] at hrank
        rw [h0] at hrank
        exact Nat.lt_irrefl _ hrank
      · have hcq : c ≠ q := by
          intro hc
          subst hc
          exact hdisj hcpre (List.mem_cons_self _ _)
        exact siblings_no_reach hinv0.pathsNodup hinv0.rankOK hinv0.uniqParent
          hfindP (hsubs c (List.mem_append_left _ hcpre)) hqsub hcq hreach
    by_cases hskip : elemStr q stc.seen = true
    · rw [pullSubdirsAux_skip rest' hskip] at hrun
      have hment' : ∀ x, elemStr x stc.seen = true →
          elemStr x st0.seen = true ∨ x = p ∨
          (∃ c, c ∈ pre ++ [q] ∧ ReachesL st0.dirs c x ∧
            ∃ nx, findNode x stc.dirs = some nx ∧ nx.isLeaf = false) := by
        intro x hx
        rcases hment x hx with h0 | h0 | ⟨c, hcpre, h1, h2⟩
        · exact Or.inl h0
        · exact Or.inr (Or.inl h0)
        · exact Or.inr (Or.inr ⟨c, List.mem_append_left _ hcpre, h1, h2⟩)
      obtain ⟨c1, c2, c3, c4, c5, c6, c7, c8⟩ := ih (pre ++ [q]) stc res st'
        hrun hsubs' hnd' hinvc hsic hevol hintP hment'
      refine ⟨c1, c2, c3, c4, ?_, c6, c7, ?_⟩
      · intro x hx
        rcases c5 x hx with h0 | ⟨c, hc, h1, h2⟩
        · exact Or.inl h0
        · exact Or.inr ⟨c, List.mem_cons_of_mem _ hc, h1, h2⟩
      · intro hsa hres q' hq'
        rcases List.mem_cons.mp hq' with rfl | hq''
        · exact absurd hskip (fun hc => hskipFalse hsa hc)
        · exact c8 hsa hres q' hq''
    · rw [Bool.not_eq_true] at hskip
      cases hq1 : recur q stc with
      | mk r1 st1 =>
        have hpost := hrec q stc r1 st1 hq1 hinvc hsic
        have htransl : ∀ x, ReachesL stc.dirs q x →
            (∃ nx, findNode x stc.dirs = some nx ∧ nx.isLeaf = false) →
            ReachesL st0.dirs q x := by
          intro x hr ⟨nx, h1, h2⟩
          exact ReachesL_back hevol hr nx h1 h2
        by_cases hr1 : r1 = Outcome.exit 0
        · subst hr1
          rw [pullSubdirsAux_ok rest' hskip hq1] at hrun
          have hevol1 : DirsEvolve w st0.dirs st1.dirs :=
            DirsEvolve_trans hevol hpost.evolve hpost.stab
          have hintP1 : ∃ nP, findNode p st1.dirs = some nP ∧
              nP.isLeaf = false := by
            obtain ⟨nP, h1, h2⟩ := hintP
            obtain ⟨nP', h1', h2', _, _⟩ := hpost.intPersist p nP h1 h2
            exact ⟨nP', h1', h2'⟩
          have hment1 : ∀ x, elemStr x st1.seen = true →
              elemStr x st0.seen = true ∨ x = p ∨
              (∃ c, c ∈ pre ++ [q] ∧ ReachesL st0.dirs c x ∧
                ∃ nx, findNode x st1.dirs = some nx ∧ nx.isLeaf = false) := by
            intro x hx
            rcases hpost.marks x hx with h0 | ⟨hreach, nx, hnx, hnxl⟩
            · rcases hment x h0 with g0 | g0 | ⟨c, hcpre, g1, nx, hnx, hnxl⟩
              · exact Or.inl g0
              · exact Or.inr (Or.inl g0)
              · obtain ⟨nx', h1', h2', _, _⟩ := hpost.intPersist x nx hnx hnxl
                exact Or.inr (Or.inr ⟨c, List.mem_append_left _ hcpre, g1,
                  nx', h1', h2'⟩)
            · have hintx : ∃ nx0, findNode x stc.dirs = some nx0 ∧
                  nx0.isLeaf = false := by
                obtain ⟨nx0, h1', h2', _, _⟩ := hpost.evolve x nx hnx hnxl
                exact ⟨nx0, h1', h2'⟩
              exact Or.inr (Or.inr ⟨q,
                List.mem_append_right _ (List.mem_cons_self _ _),
                htransl x hreach hintx, nx, hnx, hnxl⟩)
          obtain ⟨c1, c2, c3, c4, c5, c6, c7, c8⟩ := ih (pre ++ [q]) st1 res st'
            hrun hsubs' hnd' hpost.inv hpost.seenInv hevol1 hintP1 hment1
          refine ⟨c1, c2, ?_, ?_, ?_, ?_, ?_, ?_⟩
          · intro r nm m h1 h2 h3
            obtain ⟨m', h1', h2'⟩ := hpost.persist r nm m h1 h2 h3
            exact c3 r nm m' h1' h2' h3
          · intro x n h1 h2
            obtain ⟨n', h1', h2', h3', h4'⟩ := hpost.intPersist x n h1 h2
            obtain ⟨n'', h1'', h2'', h3'', h4''⟩ := c4 x n' h1' h2'
            refine ⟨n'', h1'', h2'', h3''.trans h3', ?_⟩
            intro z hz hsafe
            refine h4'' z (h4' z hz hsafe) ?_
            exact SafePath_mono hpost.persist
              (fun a b c d => by
                obtain ⟨n0, e1, e2, _, _⟩ := hpost.intPersist a b c d
                exact ⟨n0, e1, e2⟩) hsafe
          · intro x hx
            rcases c5 x hx with h0 | ⟨c, hc, h1, h2⟩
            · rcases hpost.marks x h0 with g0 | ⟨hreach, nx, hnx, hnxl⟩
              · exact Or.inl g0
              · have hintx : ∃ nx0, findNode x stc.dirs = some nx0 ∧
                    nx0.isLeaf = false := by
                  obtain ⟨nx0, e1, e2, _, _⟩ := hpost.evolve x nx hnx hnxl
                  exact ⟨nx0, e1, e2⟩
                obtain ⟨nx', e1', e2', e3', _⟩ := c4 x nx hnx hnxl
                exact Or.inr ⟨q, List.mem_cons_self _ _,
                  htransl x hreach hintx, nx', e1', e2'⟩
            · exact Or.inr ⟨c, List.mem_cons_of_mem _ hc, h1, h2⟩
          · intro x hx
            exact c6 x (hpost.stab x hx)
          · exact DirsEvolve_trans hpost.evolve c7 c6
          · intro hsa hres q' hq'
            rcases List.mem_cons.mp hq' with rfl | hq''
            · have hsaq : SeenAway stc q' := by
                intro x hx hr
                rcases hment x hx with h0 | h0 | ⟨c, hcpre, h1, nx, hnx, hnxl⟩
                · have hintx := hsic x hx
                  have hr0 := htransl x hr hintx
                  exact hsa x h0 (ReachesL_trans hstep0 hr0)
                · subst h0
                  have hr0 := htransl x hr hintP
                  have hrank := hinv0.rankOK nodeP (findNode_mem hfindP) q' hqsub
                  rw [findNode_path hfindP] at hrank
                  rcases ReachesL_rank hinv0.rankOK hr0 with rfl | hlt
                  · exact Nat.lt_irrefl _ hrank
                  · exact Nat.lt_irrefl _ (Nat.lt_trans hrank hlt)
                · have hr0 := htransl x hr ⟨nx, hnx, hnxl⟩
                  have hcq : c ≠ q' := by
                    intro hc
                    subst hc
                    exact hdisj hcpre (List.mem_cons_self _ _)
                  rcases ReachesL_join hinv0.uniqParent h1 hr0 with hj | hj
                  · exact siblings_no_reach hinv0.pathsNodup hinv0.rankOK
                      hinv0.uniqParent hfindP
                      (hsubs c (List.mem_append_left _ hcpre)) hqsub hcq hj
                  · exact siblings_no_reach hinv0.pathsNodup hinv0.rankOK
                      hinv0.uniqParent hfindP hqsub
                      (hsubs c (List.mem_append_left _ hcpre))
                      (fun hc => hcq hc.symm) hj
              exact c6 q' (hpost.clean rfl hsaq)
            · exact c8 hsa hres q' hq''
        · rw [pullSubdirsAux_fail rest' hskip hq1 hr1] at hrun
          injection hrun with h1 h2
          subst h1
          subst h2
          refine ⟨hpost.inv, hpost.seenInv, hpost.persist,
            fun x n h1 h2 => hpost.intPersist x n h1 h2, ?_,
            hpost.stab, hpost.evolve, ?_⟩
          · intro x hx
            rcases hpost.marks x hx with h0 | ⟨hreach, nx, hnx, hnxl⟩
            · exact Or.inl h0
            · have hintx : ∃ nx0, findNode x stc.dirs = some nx0 ∧
                  nx0.isLeaf = false := by
                obtain ⟨nx0, e1, e2, _, _⟩ := hpost.evolve x nx hnx hnxl
                exact ⟨nx0, e1, e2⟩
              exact Or.inr ⟨q, List.mem_cons_self _ _,
                htransl x hreach hintx, nx, hnx, hnxl⟩
          · intro _ hres
            exact absurd hres hr1

theorem elem_seenSchemaOf {st : State} {subs : List String} {nm : String}
    (h : elemStr nm (seenSchemaOf st subs) = true) :
    ∃ r, r ∈ subs ∧ ∃ m, findDir st r = some m ∧ m.schemaField = some nm := by
  rw [elemStr_true_iff] at h
  unfold seenSchemaOf at h
  obtain ⟨r, hr, hb⟩ := List.mem_filterMap.mp h
  cases hf : findDir st r with
  | none =>
    rw [hf] at hb
    cases hb
  | some m =>
    rw [hf] at hb
    exact ⟨r, hr, m, hf, hb⟩

/-- The master postcondition: every `pull` call, at any fuel, satisfies
`PullPost`. -/
theorem pull_post {w : World} {L : List Schema} (hw : NiceWorld w L) :
    ∀ (fuel : Nat) (p : String) (st : State) (res : Outcome) (st' : State),
      pull w fuel p st = (res, st') → InvD w st.dirs → SeenInv st →
      PullPost w L p st res st' := by
  intro fuel
  induction fuel with
  | zero =>
    intro p st res st' hrun hinv hsi
    have hrun' : ((Outcome.outOfFuel, st) : Outcome × State) = (res, st') := hrun
    injection hrun' with h1 h2
    subst h1
    subst h2
    exact PullPost_triv rfl rfl hinv hsi (fun hc => by cases hc)
  | succ fuel ih =>
    intro p st res st' hrun hinv hsi
    cases hfind : findDir st p with
    | none =>
      rw [pull_nodir_eq hfind] at hrun
      injection hrun with h1 h2
      subst h1
      subst h2
      exact PullPost_triv rfl rfl hinv hsi (fun hc => by cases hc)
    | some node =>
      cases hleaf : node.isLeaf with
      | true =>
        rw [pull_leaf_eq hfind hleaf] at hrun
        have hpost : PullPost w L p
            { st with visited := st.visited ++ [p] } res st' :=
          pullLeaf_post hw (show findDir { st with visited := st.visited ++ [p] }
            p = some node from hfind) hleaf hinv hsi hrun
        exact ⟨hpost.inv, hpost.seenInv, hpost.persist, hpost.intPersist,
          hpost.marks, hpost.stab, hpost.evolve, hpost.clean⟩
      | false =>
        by_cases hsub : w.subdirsFails p = true
        · rw [pull_subdirsfail_eq hfind hleaf hsub] at hrun
          injection hrun with h1 h2
          subst h1
          subst h2
          exact PullPost_triv rfl rfl hinv hsi (fun hc => by cases hc)
        · rw [Bool.not_eq_true] at hsub
          have hrec : ∀ q stq resq stq', pull w fuel q stq = (resq, stq') →
              InvD w stq.dirs → SeenInv stq → PullPost w L q stq resq stq' :=
            fun q stq resq stq' h h1 h2 => ih q stq resq stq' h h1 h2
          have hndsubs : node.subdirPaths.Nodup :=
            hinv.subNodup node (findNode_mem hfind)
          have hsubs0 : ∀ q ∈ ([] : List String) ++ node.subdirPaths,
              q ∈ node.subdirPaths := fun q hq => hq
          cases hinst : node.isInstanceWithLeafSubdirs with
          | false =>
            rw [pull_plain_internal_eq hfind hleaf hinst hsub] at hrun
            have hseenInvL : SeenInv { st with
                visited := st.visited ++ [p], seen := st.seen ++ [p] } := by
              intro x hx
              rcases elemStr_append_singleton hx with h0 | rfl
              · exact hsi x h0
              · exact ⟨node, hfind, hleaf⟩
            have hmentL : ∀ x, elemStr x (st.seen ++ [p]) = true →
                elemStr x st.seen = true ∨ x = p ∨
                (∃ c, c ∈ ([] : List String) ∧ ReachesL st.dirs c x ∧
                  ∃ nx, findNode x st.dirs = some nx ∧ nx.isLeaf = false) := by
              intro x hx
              rcases elemStr_append_singleton hx with h0 | rfl
              · exact Or.inl h0
              · exact Or.inr (Or.inl rfl)
            obtain ⟨c1, c2, c3, c4, c5, c6, c7, c8⟩ := pullSubdirs_post hw
              (pull w fuel) hrec st p node hfind hleaf hinv
              [] node.subdirPaths
              { st with visited := st.visited ++ [p], seen := st.seen ++ [p] }
              res st' hrun hsubs0 hndsubs hinv hseenInvL
              (DirsEvolve_refl w st.dirs) ⟨node, hfind, hleaf⟩ hmentL
            have hintST : ∀ x (nx : DirNode), findNode x st'.dirs = some nx →
                True := fun _ _ _ => trivial
            refine ⟨c1, c2, c3, ?_, ?_, c6, c7, ?_⟩
            · intro x n h1 h2
              obtain ⟨n', h1', h2', h3', h4'⟩ := c4 x n h1 h2
              exact ⟨n', h1', h2', h3', fun q hq hs => h4' q hq hs⟩
            · intro x hx
              rcases c5 x hx with h0 | ⟨c, hc, h1, h2⟩
              · rcases elemStr_append_singleton h0 with g0 | rfl
                · exact Or.inl g0
                · refine Or.inr ⟨ReachesL.base, ?_⟩
                  obtain ⟨n', h1', h2', _, _⟩ := c4 x node hfind hleaf
                  exact ⟨n', h1', h2'⟩
              · refine Or.inr ⟨?_, h2⟩
                exact ReachesL_trans
                  (ReachesL.step ReachesL.base hfind hleaf (hsubs0 c hc)) h1
            · intro hres hsa
              obtain ⟨nfin, hfin, hfinl, hfini, hfine⟩ := c4 p node hfind hleaf
              refine ReachClean_build ?_ ?_
              · intro nn hnn
                have he0 := hfin.symm.trans hnn
                injection he0 with he
                subst he
                rw [cleanNode, if_neg (by rw [hfinl]; intro hc; cases hc),
                  if_neg (by rw [hfini, hinst]; intro hc; cases hc)]
                exact trivial
              · intro nn hnn hnnl q hq
                have he0 := hfin.symm.trans hnn
                injection he0 with he
                subst he
                obtain ⟨npre, hnpre, hnprel, _, hedges⟩ := c7 p nfin hnn hfinl
                have he1 := hfind.symm.trans hnpre
                injection he1 with he2
                subst he2
                rcases hedges q hq with hold | ⟨_, hrc⟩
                · exact c8 hsa hres q hold
                · exact hrc
          | true =>
            cases htarg : w.targetsOf p with
            | nil =>
              rw [pull_instance_no_targets hfind hleaf hinst hsub htarg] at hrun
              injection hrun with h1 h2
              subst h1
              subst h2
              exact PullPost_triv rfl rfl hinv hsi (fun hc => by cases hc)
            | cons t ts =>
              rw [pull_instance_eq hfind hleaf hinst hsub htarg] at hrun
              cases hdisc : discoverSchemas w p
                  (seenSchemaOf { st with visited := st.visited ++ [p] }
                    node.subdirPaths) t.schemas
                  { st with visited := st.visited ++ [p] } with
              | mk ret st1 =>
                rw [hdisc] at hrun
                have hschL : ∀ s ∈ t.schemas, s ∈ L := by
                  intro s hs
                  rw [hw.live p t ts htarg] at hs
                  exact hs
                obtain ⟨d1, d2, d3, d4, d5⟩ := discover_post hw p _ t.schemas
                  { st with visited := st.visited ++ [p] } ret st1 hdisc hschL
                  hinv ⟨node, hfind⟩
                have hseen1 : st1.seen = st.seen := by
                  have := discoverSchemas_mono w p
                    (seenSchemaOf { st with visited := st.visited ++ [p] }
                      node.subdirPaths) t.schemas
                    { st with visited := st.visited ++ [p] }
                  rw [hdisc] at this
                  exact this.2.1
                cases ret with
                | succ c =>
                  injection hrun with h1 h2
                  subst h1
                  subst h2
                  constructor
                  · exact d1
                  · intro x hx
                    rw [hseen1] at hx
                    obtain ⟨nx, h1, h2⟩ := hsi x hx
                    obtain ⟨nx', h1', e1, e2, _, _, _, _⟩ := d2 x nx h1
                    exact ⟨nx', h1', by rw [e2]; exact h2⟩
                  · intro r nm m h1 h2 h3
                    obtain ⟨m', h1', _, _, _, e4, _, _⟩ := d2 r m h1
                    exact ⟨m', h1', by rw [e4]; exact h2⟩
                  · intro x n h1 h2
                    obtain ⟨n', h1', _, e2, e3, _, _, e6⟩ := d2 x n h1
                    exact ⟨n', h1', by rw [e2]; exact h2, e3,
                      fun q hq _ => e6 q hq⟩
                  · intro x hx
                    rw [hseen1] at hx
                    exact Or.inl hx
                  · exact d4
                  · exact d3
                  · intro hc _
                    cases hc
                | zero =>
                  have hseenInvL : SeenInv { st1 with seen := st1.seen ++ [p] } := by
                    intro x hx
                    rw [hseen1] at hx
                    rcases elemStr_append_singleton hx with h0 | heq
                    · obtain ⟨nx, h1, h2⟩ := hsi x h0
                      obtain ⟨nx', h1', _, e2, _, _, _, _⟩ := d2 x nx h1
                      exact ⟨nx', h1', by rw [e2]; exact h2⟩
                    · rw [heq]
                      obtain ⟨n', h1', _, e2, _, _, _, _⟩ := d2 p node hfind
                      exact ⟨n', h1', by rw [e2]; exact hleaf⟩
                  have hmentL : ∀ x, elemStr x (st1.seen ++ [p]) = true →
                      elemStr x st.seen = true ∨ x = p ∨
                      (∃ c, c ∈ ([] : List String) ∧ ReachesL st.dirs c x ∧
                        ∃ nx, findNode x st1.dirs = some nx ∧
                          nx.isLeaf = false) := by
                    intro x hx
                    rw [hseen1] at hx
                    rcases elemStr_append_singleton hx with h0 | heq
                    · exact Or.inl h0
                    · exact Or.inr (Or.inl heq)
                  obtain ⟨c1, c2, c3, c4, c5, c6, c7, c8⟩ := pullSubdirs_post hw
                    (pull w fuel) hrec st p node hfind hleaf hinv
                    [] node.subdirPaths { st1 with seen := st1.seen ++ [p] }
                    res st' hrun hsubs0 hndsubs d1 hseenInvL d3
                    (by
                      obtain ⟨n', h1', _, e2, _, _, _, _⟩ := d2 p node hfind
                      exact ⟨n', h1', by rw [e2]; exact hleaf⟩) hmentL
                  have hcompPersist : ∀ r nm m, findNode r st.dirs = some m →
                      m.schemaField = some nm → (findSchema nm L).isSome = true →
                      ∃ m', findNode r st'.dirs = some m' ∧
                        m'.schemaField = some nm := by
                    intro r nm m h1 h2 h3
                    obtain ⟨m1, h1', _, _, _, e4, _, _⟩ := d2 r m h1
                    exact c3 r nm m1 h1' (by rw [e4]; exact h2) h3
                  have hcompInt : ∀ x n, findNode x st.dirs = some n →
                      n.isLeaf = false →
                      ∃ n', findNode x st'.dirs = some n' ∧ n'.isLeaf = false ∧
                        n'.isInstanceWithLeafSubdirs =
                          n.isInstanceWithLeafSubdirs ∧
                        ∀ q ∈ n.subdirPaths, SafePath L st.dirs q →
                          q ∈ n'.subdirPaths := by
                    intro x n h1 h2
                    obtain ⟨n1, h1', _, e2, e3, e4, _, e6⟩ := d2 x n h1
                    obtain ⟨n', h1'', h2'', h3'', h4''⟩ := c4 x n1 h1'
                      (by rw [e2]; exact h2)
                    refine ⟨n', h1'', h2'', by rw [h3'', e3], ?_⟩
                    intro q hq hs
                    refine h4'' q (e6 q hq) ?_
                    refine SafePath_mono ?_ ?_ hs
                    · intro a b c h1x h2x h3x
                      obtain ⟨m1, g1, _, _, _, g4, _, _⟩ := d2 a c h1x
                      exact ⟨m1, g1, by rw [g4]; exact h2x⟩
                    · intro a b h1x h2x
                      obtain ⟨n0, g1, _, g2, _, _, _, _⟩ := d2 a b h1x
                      exact ⟨n0, g1, by rw [g2]; exact h2x⟩
                  refine ⟨c1, c2, hcompPersist, hcompInt, ?_, ?_, ?_, ?_⟩
                  · intro x hx
                    rcases c5 x hx with h0 | ⟨c, hc, h1, h2⟩
                    · rw [hseen1] at h0
                      rcases elemStr_append_singleton h0 with g0 | rfl
                      · exact Or.inl g0
                      · refine Or.inr ⟨ReachesL.base, ?_⟩
                        obtain ⟨n', h1', h2', _, _⟩ := hcompInt x node hfind hleaf
                        exact ⟨n', h1', h2'⟩
                    · refine Or.inr ⟨?_, h2⟩
                      exact ReachesL_trans
                        (ReachesL.step ReachesL.base hfind hleaf (hsubs0 c hc)) h1
                  · intro x hx
                    exact c6 x (d4 x hx)
                  · exact DirsEvolve_trans d3 c7 c6
                  · intro hres hsa
                    obtain ⟨nfin, hfin, hfinl, hfini, hfine⟩ :=
                      hcompInt p node hfind hleaf
                    refine ReachClean_build ?_ ?_
                    · intro nn hnn
                      have he0 := hfin.symm.trans hnn
                      injection he0 with he
                      subst he
                      rw [cleanNode, if_neg (by rw [hfinl]; intro hc; cases hc),
                        if_pos (by rw [hfini, hinst])]
                      refine ⟨t, ts, ?_, ?_⟩
                      · rw [findNode_path hnn]
                        exact htarg
                      · intro s hs
                        have hresolve : (findSchema s.name L).isSome = true :=
                          findSchema_isSome_of_mem (hschL s hs)
                        rcases d5 rfl s hs with hseencase | ⟨⟨m', hm', hmf⟩,
                            ⟨n1', hn1', hedge⟩⟩
                        · obtain ⟨r, hr, m, hm, hmf⟩ :=
                            elem_seenSchemaOf hseencase
                          obtain ⟨m2, g1', g2'⟩ :=
                            hcompPersist r s.name m hm hmf hresolve
                          refine ⟨r, ?_, m2, g1', g2'⟩
                          exact hfine r hr
                            ⟨m, hm, Or.inr ⟨s.name, hmf, hresolve⟩⟩
                        · obtain ⟨m2, g1', g2'⟩ := c3 (childPath p s.name)
                            s.name m' hm' hmf hresolve
                          obtain ⟨nA, gA, _, e2, _, _, _, _⟩ := d2 p node hfind
                          have heA := gA.symm.trans hn1'
                          injection heA with heA'
                          subst heA'
                          obtain ⟨nB, gB, _, _, gE'⟩ := c4 p nA gA
                            (by rw [e2]; exact hleaf)
                          have heB := gB.symm.trans hfin
                          injection heB with heB'
                          subst heB'
                          refine ⟨childPath p s.name, ?_, m2, g1', g2'⟩
                          exact gE' _ hedge
                            ⟨m', hm', Or.inr ⟨s.name, hmf, hresolve⟩⟩
                    · intro nn hnn hnnl q hq
                      have he0 := hfin.symm.trans hnn
                      injection he0 with he
                      subst he
                      have hevolTotal : DirsEvolve w st.dirs st'.dirs :=
                        DirsEvolve_trans d3 c7 c6
                      obtain ⟨npre, hnpre, hnprel, _, hedges⟩ :=
                        hevolTotal p nfin hnn hfinl
                      have he1 := hfind.symm.trans hnpre
                      injection he1 with he2
                      subst he2
                      rcases hedges q hq with hold | ⟨_, hrc⟩
                      · exact c8 hsa hres q hold
                      · exact hrc

/-- Discovery only ever creates directories for schemas that were not already
represented: a node present after discovery but absent before it belongs to a
schema whose name was missing from the represented set. -/
theorem discover_new_nodes (w : World) (par : String) (seenS : List String) :
    ∀ (schemas : List Schema) (st : State) (q : String) (n' : DirNode),
      findNode q (discoverSchemas w par seenS schemas st).2.dirs = some n' →
      findNode q st.dirs = none →
      ∃ s, s ∈ schemas ∧ elemStr s.name seenS = false ∧
        q = childPath par s.name := by
  intro schemas
  induction schemas with
  | nil =>
    intro st q n' hfound hnone
    rw [show discoverSchemas w par seenS [] st = (0, st) from rfl] at hfound
    rw [hnone] at hfound
    cases hfound
  | cons sch rest ih =>
    intro st q n' hfound hnone
    rw [discoverSchemas] at hfound
    by_cases hseen : elemStr sch.name seenS = true
    · rw [if_pos hseen] at hfound
      obtain ⟨s, h1, h2, h3⟩ := ih st q n' hfound hnone
      exact ⟨s, List.mem_cons_of_mem _ h1, h2, h3⟩
    · rw [if_neg hseen] at hfound
      rw [Bool.not_eq_true] at hseen
      by_cases hflag : w.populateSchemaDirFails par sch.name = true
      · rw [PopulateSchemaDir_flagfail st hflag] at hfound
        rw [hnone] at hfound
        cases hfound
      · rw [Bool.not_eq_true] at hflag
        cases hx : findDir st (childPath par sch.name) with
        | some n =>
          rw [PopulateSchemaDir_exists st hflag hx] at hfound
          rw [hnone] at hfound
          cases hfound
        | none =>
          rw [PopulateSchemaDir_ok st hflag hx] at hfound
          by_cases hqc : q = childPath par sch.name
          · exact ⟨sch, List.mem_cons_self _ _, hseen, hqc⟩
          · have hmid : findNode q (popDirs par sch st.dirs) = none := by
              rw [findNode_popDirs_ne hqc, hnone, Option.map_none']
            obtain ⟨s, h1, h2, h3⟩ := ih
              { st with dirs := popDirs par sch st.dirs } q n' hfound hmid
            exact ⟨s, List.mem_cons_of_mem _ h1, h2, h3⟩

/-- C9: with no intervening database change (a fixed live schema list `L`
served by a deterministic canonical diff engine, over a well-formed directory
tree), running reconciliation twice in succession performs no file mutation on
the second run: after a first run that exits 0, the second run returns the
directory tree — structure and files — unchanged.  Moreover, schema discovery
at an instance directory never re-creates a subdirectory whose schema is
already represented: any directory node that discovery adds is for a schema
whose name was absent from the represented set. -/
theorem claim_C9_idempotent (w : World) (L : List Schema) (root : String)
    (st st1 : State) (hw : NiceWorld w L) (hinv : InvD w st.dirs)
    (hrun1 : PullCommand w st root = (.exit 0, st1)) :
    (PullCommand w st1 root).2.dirs = st1.dirs ∧
    (∀ (par : String) (seenS : List String) (schemas : List Schema)
      (stx : State) (q : String) (n' : DirNode),
      findNode q (discoverSchemas w par seenS schemas stx).2.dirs = some n' →
      findNode q stx.dirs = none →
      ∃ s, s ∈ schemas ∧ elemStr s.name seenS = false ∧
        q = childPath par s.name) := by
  constructor
  · have hpost := pull_post hw (st.dirs.length + 1) root
      { st with seen := [], visited := [] } (.exit 0) st1 hrun1 hinv
      (fun x hx => by cases hx)
    have hclean : ReachCleanL w st1.dirs root :=
      hpost.clean rfl (fun x hx => by cases hx)
    exact pull_clean_frozen w root st1.dirs hclean (st1.dirs.length + 1) root
      { st1 with seen := [], visited := [] } ReachesL.base rfl
  · exact discover_new_nodes w

def C9L : List Schema := [⟨"c", [("t", "create table t")]⟩]

def C9w : World where
  targetsOf := fun _ => [⟨["c"], C9L⟩]
  newSchemaDiff := canonicalSchemaDiff
  populateTempFails := fun _ => false
  dropTempFails := fun _ => false
  deleteDirFails := fun _ => false
  subdirsFails := fun _ => false
  writeFails := fun _ _ => false
  deleteFileFails := fun _ _ => false
  showCreateFails := fun _ _ => false
  populateSchemaDirFails := fun _ _ => false

def C9st : State := ⟨[⟨"/r", false, true, [], none, []⟩], false, [], [], []⟩

theorem claim_C9_idempotent_witness :
    (PullCommand C9w (PullCommand C9w C9st "/r").2 "/r").2.dirs =
      (PullCommand C9w C9st "/r").2.dirs :=
  (claim_C9_idempotent C9w C9L "/r" C9st (PullCommand C9w C9st "/r").2
    ⟨rfl, fun p t ts h => by injection h with h1 _; rw [← h1],
     by decide, by decide,
     fun p s hs => by
       rcases List.mem_cons.mp hs with rfl | h
       · exact ⟨⟨["c"], C9L⟩, [], [], rfl, rfl⟩
       · cases h⟩
    ⟨by show (C9st.dirs.map DirNode.path).Nodup; decide,
     by show ∀ n ∈ C9st.dirs, ∀ q ∈ n.subdirPaths, n.path.length < q.length
        decide,
     by show ∀ n ∈ C9st.dirs, ∀ m ∈ C9st.dirs, ∀ q : String,
          q ∈ n.subdirPaths → q ∈ m.subdirPaths → n = m
        decide,
     by show ∀ n ∈ C9st.dirs, n.subdirPaths.Nodup; decide,
     by show ∀ n ∈ C9st.dirs, ∀ q ∈ n.subdirPaths,
          (findNode q C9st.dirs).isSome = true
        decide,
     by show ∀ n ∈ C9st.dirs, n.isLeaf = true → coherentB C9w n = true
        decide,
     by show ∀ n ∈ C9st.dirs, (n.files.map Prod.fst).Nodup; decide⟩
    (Prod.ext (by decide) rfl)).1
